import Mathlib

/-!
# Matrix co-accelerator bridge (`crun/tpu_interface.c`)

A shallow embedding of the file protocol between the C bridge and the Verilog
simulator, and of the tiling loop `matmul_hw`.

Conventions of the embedding
* C `int` dimensions and indices are natural numbers (all of them are
  non-negative on the paths that are modelled, and no overflow is modelled).
* `int8_t` and `int32_t` values are integers; the conversions between the
  signed and the unsigned views are explicit (`to_uchar`, `to_int8`,
  `to_int32`).
* `float` is the field of rationals in `matmul_hw`: arithmetic is exact, in
  the order in which the C expressions are evaluated. In `matmul_hw_fp` the
  arithmetic of `float` is a parameter of which no law is assumed.
* a text file is the list of its characters; an artifact written line by
  line is the list of its lines, each without its final newline.
* reading a tensor outside its sequence yields `none`.
-/

set_option maxRecDepth 1000000

namespace TpuInterface

/-! ## Data model (`csrc/tpu_interface.h`) -/

/-- The hardware array width, `#define HW_ARRAY_SIZE 8`. -/
def HW_ARRAY_SIZE : Nat := 8

/-- The struct `QuantizedTensor`: quantized `int8_t` values `q` and the
`float` scaling factors `s`. -/
structure QuantizedTensor where
  q : List Int
  s : List ℚ

/-- One line of a text artifact, without the newline that ends it. -/
abbrev Line := List Char

/-! ## Bytes and hexadecimal text -/

/-- The cast `(unsigned char)v` of an `int8_t` (or any integer) value. -/
def to_uchar (v : Int) : Nat := (v % 256).toNat

/-- The byte `u` read back as an `int8_t`. -/
def to_int8 (u : Nat) : Int := if u % 256 < 128 then (u % 256 : Nat) else (u % 256 : Nat) - 256

/-- An `unsigned int` bit pattern read through an `int32_t` lvalue. -/
def to_int32 (u : Nat) : Int :=
  if u % 4294967296 < 2147483648 then (u % 4294967296 : Nat) else (u % 4294967296 : Nat) - 4294967296

/-- The conversion `%02x` of `printf`: lowercase hexadecimal digits, padded
on the left with zeros up to two characters. -/
def fmt_02x (u : Nat) : Line :=
  let ds := Nat.toDigits 16 u
  List.replicate (2 - ds.length) '0' ++ ds

/-- What `fprintf(f, "%02x\n", (unsigned char)v)` prints before the newline. -/
def encode_byte (v : Int) : Line := fmt_02x (to_uchar v)

/-- The literal line printed by `fprintf(f, "00\n")`. -/
def zero_line : Line := ['0', '0']

/-- Characters that `%x` accepts as digits. -/
def isHexDigit (c : Char) : Bool :=
  (48 ≤ c.toNat && c.toNat ≤ 57) || (97 ≤ c.toNat && c.toNat ≤ 102) || (65 ≤ c.toNat && c.toNat ≤ 70)

/-- The value of a hexadecimal digit (0 for any other character). -/
def hexVal (c : Char) : Nat :=
  if 48 ≤ c.toNat ∧ c.toNat ≤ 57 then c.toNat - 48
  else if 97 ≤ c.toNat ∧ c.toNat ≤ 102 then c.toNat - 87
  else if 65 ≤ c.toNat ∧ c.toNat ≤ 70 then c.toNat - 55
  else 0

/-- The number a run of hexadecimal digits denotes. -/
def hex_value (ds : List Char) : Nat := ds.foldl (fun a c => a * 16 + hexVal c) 0

/-! ## TileEncoder: `write_hw_input_tile` -/

/-- The two artifacts one call of `write_hw_input_tile` leaves behind:
the lines of `weights.txt` and of `vector.txt`. -/
structure TileArtifacts where
  weights : List Line
  vector : List Line
deriving DecidableEq

/-- Body of the inner weight loop at tile coordinate `(i, j)`: the line that
is printed, or `none` when `w->q` is read outside its sequence. -/
def weight_line (w : QuantizedTensor) (mat_row_start mat_col_start n d i j : Nat) : Option Line :=
  let row := mat_row_start + i
  let col := mat_col_start + j
  if row < d ∧ col < n then
    (w.q[row * n + col]?).map encode_byte
  else
    some zero_line

/-- Body of the vector loop at tile coordinate `i`. -/
def vector_line (x : QuantizedTensor) (mat_col_start n i : Nat) : Option Line :=
  let idx := mat_col_start + i
  if idx < n then
    (x.q[idx]?).map encode_byte
  else
    some zero_line

/-- Runs a sequence of prints in order; fails as soon as one of them fails. -/
def collect {α : Type} : List (Option α) → Option (List α)
  | [] => some []
  | none :: _ => none
  | some a :: rest => (collect rest).map (a :: ·)

/-- The function `write_hw_input_tile(x, w, mat_row_start, mat_col_start, n, d,
K_ACCUM_DEPTH_FOR_TILE)`: the weight loop nest (rows outer, columns inner)
followed by the vector loop. Both files are taken to be writable; the result
is `none` when a tensor is read outside its sequence. -/
def write_hw_input_tile (x w : QuantizedTensor)
    (mat_row_start mat_col_start n d K_ACCUM_DEPTH_FOR_TILE : Nat) : Option TileArtifacts :=
  match collect ((List.range HW_ARRAY_SIZE).flatMap fun i =>
          (List.range K_ACCUM_DEPTH_FOR_TILE).map fun j =>
            weight_line w mat_row_start mat_col_start n d i j) with
  | none => none
  | some ws =>
    match collect ((List.range K_ACCUM_DEPTH_FOR_TILE).map fun i =>
            vector_line x mat_col_start n i) with
    | none => none
    | some vs => some ⟨ws, vs⟩

/-! ## ResultDecoder: `read_hw_output` -/

/-- The characters `isspace` accepts in the C locale; `%x` skips them. -/
def isSpace (c : Char) : Bool := c.toNat = 32 || (9 ≤ c.toNat && c.toNat ≤ 13)

/-- Membership in the set `" \t\n\r"` handed to `strspn`. -/
def isBlankChar (c : Char) : Bool :=
  c.toNat = 32 || c.toNat = 9 || c.toNat = 10 || c.toNat = 13

/-- The C string held by a buffer: the characters before the first NUL. -/
def c_string (line_buffer : List Char) : List Char :=
  line_buffer.takeWhile fun c => c.toNat != 0

/-- The conversion of `strtoul` in base 16 on a run of digits: the value
saturates at `ULONG_MAX` (64 bits) and a minus sign negates it modulo `2^64`. -/
def strtoul16 (neg : Bool) (ds : List Char) : Nat :=
  let v := hex_value ds
  if 18446744073709551616 ≤ v then 18446744073709551615
  else if neg then (18446744073709551616 - v) % 18446744073709551616
  else v

/-- The input left after the optional sign that `%x` accepts. -/
def scan_sign (s : List Char) : List Char :=
  match s with
  | c :: r => if c.toNat = 45 ∨ c.toNat = 43 then r else s
  | [] => s

/-- Whether the sign that `%x` read is a minus. -/
def scan_minus (s : List Char) : Bool :=
  match s with
  | c :: _ => c.toNat = 45
  | [] => false

/-- The characters from which `%x` collects its digits. After a leading `0`,
an `x` or `X` is read and dropped while the `0` itself is kept as a digit, so
that `0x` with no digit behind it still holds the digit `0`. -/
def scan_digits (s : List Char) : List Char :=
  match s with
  | a :: b :: r => if a.toNat = 48 ∧ (b.toNat = 120 ∨ b.toNat = 88) then a :: r else s
  | _ => s

/-- The call `sscanf(s, "%x", &u)`: `some u` when it returns 1 and stores `u`,
`none` when it returns 0 or `EOF`. White space is skipped, then an optional
sign, then the digits are collected: a leading `0` counts as a digit, an `x`
or `X` right after it is dropped, and the longest run of hexadecimal digits
follows. The conversion fails when no digit was collected; `0x` with no digit
behind it therefore reads as 0, as the C library of the platform does. The
value is stored in an `unsigned int`, so modulo `2^32`. -/
def sscanf_x (s : List Char) : Option Nat :=
  let s1 := s.dropWhile isSpace
  let ds := (scan_digits (scan_sign s1)).takeWhile isHexDigit
  if ds.isEmpty then none else some (strtoul16 (scan_minus s1) ds % 4294967296)

/-- The strings that the successive calls `fgets(line_buffer, cap + 1, f)`
deliver until the end of the file: each call takes characters up to and
including the next newline, but at most `cap`. `cur` holds what the call in
progress has taken so far. -/
def fgets_lines (cap : Nat) : List Char → List Char → List (List Char)
  | cur, [] => if cur.isEmpty then [] else [cur]
  | cur, c :: s =>
    if c.toNat = 10 ∨ cur.length + 1 = cap then (cur ++ [c]) :: fgets_lines cap [] s
    else fgets_lines cap (cur ++ [c]) s

/-- The test `line_buffer[0] == '/' && line_buffer[1] == '/'`. -/
def is_comment (line_buffer : List Char) : Bool :=
  match line_buffer with
  | a :: b :: _ => a.toNat = 47 && b.toNat = 47
  | _ => false

/-- The test `strspn(line_buffer, " \t\n\r") == strlen(line_buffer)`. -/
def is_blank (line_buffer : List Char) : Bool :=
  (c_string line_buffer).all isBlankChar

/-- What `read_hw_output` prints on `stderr` without stopping. -/
inductive Warning where
  | unparsable (line : List Char)
  | shortfall (count : Nat)
deriving DecidableEq

/-- State of the read loop: the slot counter `i`, the buffer and the
warnings printed so far. -/
structure ReadState where
  i : Nat
  results_buffer : List Int
  warnings : List Warning
deriving DecidableEq

/-- The loop `while (i < HW_ARRAY_SIZE && fgets(...))`, run over the strings
that `fgets` delivers. -/
def read_loop : List (List Char) → ReadState → ReadState
  | [], st => st
  | line_buffer :: rest, st =>
    if st.i < HW_ARRAY_SIZE then
      if is_comment line_buffer then read_loop rest st
      else if is_blank line_buffer then read_loop rest st
      else
        match sscanf_x (c_string line_buffer) with
        | some u =>
          read_loop rest
            { st with i := st.i + 1, results_buffer := st.results_buffer.set st.i (to_int32 u) }
        | none =>
          read_loop rest { st with warnings := st.warnings ++ [Warning.unparsable line_buffer] }
    else st

/-- The loop `for (int j = i; j < HW_ARRAY_SIZE; ++j) results_buffer[j] = 0`. -/
def zero_fill (results_buffer : List Int) (i : Nat) : List Int :=
  (List.range' i (HW_ARRAY_SIZE - i)).foldl (fun b j => b.set j 0) results_buffer

/-- Reasons for which the bridge calls `exit(1)`, and the two ways in which
the embedding itself stops: a read outside a tensor, and a loop that was not
given enough steps. -/
inductive Halt where
  | dump_unreadable
  | simulation_failed
  | out_of_range_read
  | out_of_fuel
deriving DecidableEq

/-- The function `read_hw_output(results_buffer)`. `memory_dump` is the content
of `memory_dump.txt`, `none` when the file cannot be opened;
`results_buffer` is the caller's array as it is on entry. -/
def read_hw_output (memory_dump : Option (List Char)) (results_buffer : List Int) :
    Except Halt ReadState :=
  match memory_dump with
  | none => Except.error Halt.dump_unreadable
  | some content =>
    let st := read_loop (fgets_lines 255 [] content) ⟨0, results_buffer, []⟩
    if st.i < HW_ARRAY_SIZE then
      Except.ok { st with results_buffer := zero_fill st.results_buffer st.i,
                          warnings := st.warnings ++ [Warning.shortfall st.i] }
    else
      Except.ok st

/-- The text of an artifact written line by line: every line followed by a
newline. -/
def artifact_text (lines : List Line) : List Char :=
  lines.flatMap fun l => l ++ ['\n']

/-! ## Notions of the specification of the result artifact -/

/-- The value a line of the result artifact carries, in the words of the
specification: nothing for a comment line, for a line of white space only and
for a line that does not parse as hexadecimal; otherwise the parsed number,
as a signed 32-bit integer. -/
def line_value (l : List Char) : Option Int :=
  if is_comment l || is_blank l then none
  else (sscanf_x (c_string l)).map to_int32

/-- The values of the numeric lines of an artifact, in file order. -/
def numeric_values (lines : List (List Char)) : List Int :=
  lines.filterMap line_value

/-- A comment line: a line (so without a newline inside) that begins with the
two-character marker `//`. -/
def is_comment_line (l : Line) : Bool :=
  is_comment l && l.all fun c => c.toNat != 10

/-- A blank or whitespace-only line. -/
def is_whitespace_line (l : Line) : Bool := l.all isBlankChar

/-- The 8-digit hexadecimal two's-complement representation of a signed
32-bit integer, most significant digit first. -/
def hex8 (v : Int) : Line :=
  let u := (v % 4294967296).toNat
  [Nat.digitChar (u / 268435456 % 16), Nat.digitChar (u / 16777216 % 16),
   Nat.digitChar (u / 1048576 % 16), Nat.digitChar (u / 65536 % 16),
   Nat.digitChar (u / 4096 % 16), Nat.digitChar (u / 256 % 16),
   Nat.digitChar (u / 16 % 16), Nat.digitChar (u % 16)]

/-! ## Orchestrator: `matmul_hw` -/

/-- What one launch of the simulator leaves behind: the value that `system`
returns, and the content of `memory_dump.txt` (`none` when it cannot be
opened). -/
structure SimOutcome where
  ret : Int
  memory_dump : Option (List Char)

/-- The external simulator, a black box: the outcome of the launch made for
the tile with origin `(row_base, col_base)`, whose input artifacts are given. -/
abbrev Simulator := Nat → Nat → TileArtifacts → SimOutcome

/-- One launch of the simulator, as recorded by the embedding. -/
structure TileRecord where
  row_base : Nat
  col_base : Nat
  artifacts : TileArtifacts
deriving DecidableEq

/-- The values taken by the variable of a loop
`for (v = start; v < bound; v += step)` whose body leaves `v` alone; `none`
when the loop has not ended after `fuel` iterations. -/
def for_values (bound step : Nat) : Nat → Nat → Option (List Nat)
  | 0, v => if v < bound then none else some []
  | fuel + 1, v =>
    if v < bound then (for_values bound step fuel (v + step)).map (v :: ·) else some []

/-- The call `memset(xout, 0, d * sizeof(float))`. -/
def memset_zero (xout : List ℚ) (d : Nat) : List ℚ :=
  (List.range' 0 d).foldl (fun b k => b.set k 0) xout

/-- Body of the dequantization loop for lane `i` (step 4 of `matmul_hw`). -/
def dequantize_lane (x w : QuantizedTensor) (n d GS row_base col_base : Nat)
    (hw_results : List Int) (row_accumulators : List ℚ) (i : Nat) : Except Halt (List ℚ) :=
  let current_row := row_base + i
  if current_row < d then
    let w_s_idx := (current_row * n + col_base) / GS
    let x_s_idx := col_base / GS
    if w_s_idx ≥ d * n / GS ∨ x_s_idx ≥ n / GS then Except.ok row_accumulators
    else
      match w.s[w_s_idx]?, x.s[x_s_idx]? with
      | some s_w, some s_x =>
        Except.ok (row_accumulators.set i
          (row_accumulators.getD i 0 + (hw_results.getD i 0 : ℚ) * s_w * s_x))
      | _, _ => Except.error Halt.out_of_range_read
  else Except.ok row_accumulators

/-- State inside one row block: the accumulators and the launches so far. -/
structure RowState where
  row_accumulators : List ℚ
  trace : List TileRecord

/-- State of `matmul_hw` between row blocks. -/
structure MatmulState where
  xout : List ℚ
  trace : List TileRecord

/-- Body of the column loop: steps 1 to 4 for the tile at
`(row_base, col_base)`. The array `hw_results` is passed to `read_hw_output`
filled with zeros; `read_hw_output` writes every slot of it. -/
def process_tile (sim : Simulator) (x w : QuantizedTensor) (n d GS row_base : Nat)
    (st : RowState) (col_base : Nat) : Except Halt RowState :=
  match write_hw_input_tile x w row_base col_base n d GS with
  | none => Except.error Halt.out_of_range_read
  | some t =>
    if (sim row_base col_base t).ret ≠ 0 then Except.error Halt.simulation_failed
    else
      match read_hw_output (sim row_base col_base t).memory_dump
          (List.replicate HW_ARRAY_SIZE 0) with
      | Except.error e => Except.error e
      | Except.ok rs =>
        match (List.range HW_ARRAY_SIZE).foldlM
            (dequantize_lane x w n d GS row_base col_base rs.results_buffer)
            st.row_accumulators with
        | Except.error e => Except.error e
        | Except.ok acc => Except.ok ⟨acc, st.trace ++ [⟨row_base, col_base, t⟩]⟩

/-- The loop that copies the accumulators of the rows below `d` into `xout`. -/
def commit_rows (xout row_accumulators : List ℚ) (row_base d : Nat) : List ℚ :=
  (List.range HW_ARRAY_SIZE).foldl
    (fun out i => if row_base + i < d then out.set (row_base + i) (row_accumulators.getD i 0)
      else out)
    xout

/-- Body of the row loop: fresh accumulators, the column loop
`for (col_base = 0; col_base < n; col_base += GS)`, then the copy into `xout`. -/
def process_row_block (sim : Simulator) (x w : QuantizedTensor) (n d GS : Nat)
    (st : MatmulState) (row_base : Nat) : Except Halt MatmulState :=
  match for_values n GS n 0 with
  | none => Except.error Halt.out_of_fuel
  | some cols =>
    match cols.foldlM (process_tile sim x w n d GS row_base)
        ⟨List.replicate HW_ARRAY_SIZE 0, st.trace⟩ with
    | Except.error e => Except.error e
    | Except.ok rs => Except.ok ⟨commit_rows st.xout rs.row_accumulators row_base d, rs.trace⟩

/-- The function `matmul_hw(xout, x, w, n, d, GS)`: `memset`, then the row loop
`for (row_base = 0; row_base < d; row_base += HW_ARRAY_SIZE)`. The artifacts
are assumed writable (the `exit(1)` after a failed `fopen` for writing,
also in `write_sim_config`, is not modelled), and `GS ≥ 1` is the only case
in which the C code is defined whenever the column loop is entered. -/
def matmul_hw (sim : Simulator) (xout : List ℚ) (x w : QuantizedTensor) (n d GS : Nat) :
    Except Halt MatmulState :=
  match for_values d HW_ARRAY_SIZE d 0 with
  | none => Except.error Halt.out_of_fuel
  | some rows => rows.foldlM (process_row_block sim x w n d GS) ⟨memset_zero xout d, []⟩

/-! ## Notions of the specification of the offload -/

/-- The signed byte a line of a tile artifact denotes for the simulator. -/
def byte_of_line (l : Line) : Int := to_int8 (hex_value l)

/-- The exact integer dot product of row `i` of the weight tile with the
vector tile, both read from the artifacts of a tile of width `K`. -/
def tile_dot (t : TileArtifacts) (K i : Nat) : Int :=
  ((List.range K).map fun j =>
    byte_of_line (t.weights.getD (i * K + j) []) * byte_of_line (t.vector.getD j [])).sum

/-- Whether the simulator, launched for the tile at `(row_base, col_base)`,
ends with status 0 and leaves a result artifact that decodes to the exact dot
product in each lane. -/
def tile_result_exact (sim : Simulator) (x w : QuantizedTensor) (n d GS row_base col_base : Nat) :
    Bool :=
  match write_hw_input_tile x w row_base col_base n d GS with
  | none => false
  | some t =>
    decide ((sim row_base col_base t).ret = 0) &&
    match read_hw_output (sim row_base col_base t).memory_dump (List.replicate HW_ARRAY_SIZE 0) with
    | Except.error _ => false
    | Except.ok rs =>
      (List.range HW_ARRAY_SIZE).all fun i => rs.results_buffer[i]? == some (tile_dot t GS i)

/-- The reference result for one row: the dot product of the dequantized row
of `w` with the dequantized `x`. -/
def reference_row (x w : QuantizedTensor) (n GS row : Nat) : ℚ :=
  ((List.range n).map fun j =>
    ((w.q.getD (row * n + j) 0 : ℚ) * w.s.getD ((row * n + j) / GS) 0) *
      ((x.q.getD j 0 : ℚ) * x.s.getD (j / GS) 0)).sum

/-- A simulator that is exact: it prints the dot product of each lane as
eight hexadecimal digits. -/
def exact_simulator (GS : Nat) : Simulator := fun _ _ t =>
  ⟨0, some (artifact_text ((List.range HW_ARRAY_SIZE).map fun i => hex8 (tile_dot t GS i)))⟩

/-- Scenario A of the specification (`d = 8`, `n = 8`, `GS = 8`): a weight
matrix of one tile. -/
def scenario_a_w : QuantizedTensor :=
  ⟨[ 1, -2, 3, -4, 5, -6, 7, -8,
     127, -128, 0, 1, 2, 3, 4, 5,
     -1, -1, -1, -1, -1, -1, -1, -1,
     10, 20, 30, 40, 50, 60, 70, 80,
     0, 0, 0, 0, 0, 0, 0, 1,
     -128, -128, -128, -128, -128, -128, -128, -128,
     9, 8, 7, 6, 5, 4, 3, 2,
     100, -100, 100, -100, 100, -100, 100, -100 ],
   [1 / 2, 1 / 4, 3, 5 / 7, 1, 2, 1 / 8, 9]⟩

/-- Scenario A: the activation vector. -/
def scenario_a_x : QuantizedTensor :=
  ⟨[3, -1, 4, -1, 5, -9, 2, -6], [3 / 16]⟩

/-! ## Notions of the specification of the tiling loop -/

/-- The quotient rounded up, `ceil(a / b)`. -/
def ceil_div (a b : Nat) : Nat := (a + b - 1) / b

/-- The origin `(row_base, col_base)` of a recorded launch. -/
def TileRecord.origin (r : TileRecord) : Nat × Nat := (r.row_base, r.col_base)

/-- The row-major list of tile origins: `row_base = 0, HW_ARRAY_SIZE, ...`
below `d` (outer) and `col_base = 0, GS, ...` below `n` (inner). -/
def tile_origins (d n GS : Nat) : List (Nat × Nat) :=
  (List.range (ceil_div d HW_ARRAY_SIZE)).flatMap fun a =>
    (List.range (ceil_div n GS)).map fun b => (a * HW_ARRAY_SIZE, b * GS)

/-- The exit code of the simulator launched for the tile at
`(row_base, col_base)`; `none` when the tile cannot be encoded. -/
def tile_exit_code (sim : Simulator) (x w : QuantizedTensor) (n d GS row_base col_base : Nat) :
    Option Int :=
  (write_hw_input_tile x w row_base col_base n d GS).map fun t => (sim row_base col_base t).ret

/-- Whether the tile at `(row_base, col_base)` can be encoded and the launch
made for it leaves a result artifact that can be opened. -/
def tile_dump_readable (sim : Simulator) (x w : QuantizedTensor)
    (n d GS row_base col_base : Nat) : Bool :=
  match write_hw_input_tile x w row_base col_base n d GS with
  | none => false
  | some t => (sim row_base col_base t).memory_dump.isSome

/-- Whether the invocation for the tile at `(row_base, col_base)` succeeds:
the tile is encoded, the simulator ends with exit code 0 and its result
artifact can be opened. -/
def tile_launch_ok (sim : Simulator) (x w : QuantizedTensor) (n d GS row_base col_base : Nat) :
    Bool :=
  tile_dump_readable sim x w n d GS row_base col_base &&
    (tile_exit_code sim x w n d GS row_base col_base == some 0)

/-- The result buffer decoded for the tile at `(row_base, col_base)`. -/
def tile_result (sim : Simulator) (x w : QuantizedTensor) (n d GS row_base col_base : Nat) :
    List Int :=
  match write_hw_input_tile x w row_base col_base n d GS with
  | none => []
  | some t =>
    match read_hw_output (sim row_base col_base t).memory_dump (List.replicate HW_ARRAY_SIZE 0) with
    | Except.error _ => []
    | Except.ok rs => rs.results_buffer

/-- The contribution of column block `b` to row `row`: the lane of the row in
the result of its tile, times the weight scale and the activation scale of the
block. -/
def block_term (sim : Simulator) (x w : QuantizedTensor) (n d GS row b : Nat) : ℚ :=
  ((tile_result sim x w n d GS (HW_ARRAY_SIZE * (row / HW_ARRAY_SIZE)) (b * GS)).getD
      (row - HW_ARRAY_SIZE * (row / HW_ARRAY_SIZE)) 0 : ℚ)
    * w.s.getD ((row * n + b * GS) / GS) 0 * x.s.getD (b * GS / GS) 0

/-- The sum of the contributions of the column blocks `0, GS, ...`,
`n / GS` of them, taken in increasing order starting from 0. -/
def accumulated_row (sim : Simulator) (x w : QuantizedTensor) (n d GS row : Nat) : ℚ :=
  (List.range (n / GS)).foldl (fun acc b => acc + block_term sim x w n d GS row b) 0

/-- Scenario B of the specification (`d = 16`, `n = 16`, `GS = 8`): a weight
matrix of two row blocks and two column blocks. -/
def scenario_b_w : QuantizedTensor :=
  ⟨(List.range 256).map fun k => ((k % 11 : Nat) : Int) - 5,
   (List.range 32).map fun k => ((k + 1 : Nat) : ℚ) / 8⟩

/-- Scenario B: the activation vector. -/
def scenario_b_x : QuantizedTensor :=
  ⟨(List.range 16).map fun k => 3 - ((k % 7 : Nat) : Int), [1 / 2, 3 / 4]⟩

/-- A simulator that is exact in the lanes of the rows below `d` and returns
the value 12345 in the padding lanes. -/
def padding_noise_simulator (GS d : Nat) : Simulator := fun row_base _ t =>
  ⟨0, some (artifact_text ((List.range HW_ARRAY_SIZE).map fun i =>
    hex8 (if row_base + i < d then tile_dot t GS i else 12345)))⟩

/-- Whether two simulators, launched for the tile at `(row_base, col_base)` of
the tensors `x` and `w`, end with the same exit code and leave the same result
artifact. -/
def same_outcome_on_tile (sim sim2 : Simulator) (x w : QuantizedTensor)
    (n d GS row_base col_base : Nat) : Bool :=
  match write_hw_input_tile x w row_base col_base n d GS with
  | none => true
  | some t =>
    decide ((sim row_base col_base t).ret = (sim2 row_base col_base t).ret) &&
    decide ((sim row_base col_base t).memory_dump = (sim2 row_base col_base t).memory_dump)

/-- A simulator that is exact except in the column block at `col_base = last`,
where it returns the value 77 in each lane. -/
def block_noise_simulator (GS last : Nat) : Simulator := fun _ col_base t =>
  ⟨0, some (artifact_text ((List.range HW_ARRAY_SIZE).map fun i =>
    hex8 (if col_base = last then 77 else tile_dot t GS i)))⟩

/-- A simulator that is exact, except that the launch for the tile at
`(fail_row, fail_col)` ends with exit code 1. -/
def exit_code_simulator (GS fail_row fail_col : Nat) : Simulator := fun row_base col_base t =>
  ⟨if row_base = fail_row ∧ col_base = fail_col then 1 else 0,
   some (artifact_text ((List.range HW_ARRAY_SIZE).map fun i => hex8 (tile_dot t GS i)))⟩

/-- A simulator that ends with exit code 1 and leaves no result artifact for
the tile at `(fail_row, fail_col)`, is exact for the tiles before it in
row-major order, and ends with exit code 2 for all other tiles. -/
def abort_probe_simulator (GS fail_row fail_col : Nat) : Simulator := fun row_base col_base t =>
  if row_base = fail_row ∧ col_base = fail_col then ⟨1, none⟩
  else if row_base < fail_row ∨ (row_base = fail_row ∧ col_base < fail_col) then
    ⟨0, some (artifact_text ((List.range HW_ARRAY_SIZE).map fun i => hex8 (tile_dot t GS i)))⟩
  else ⟨2, none⟩


/-! ## Orchestrator: `matmul_hw` with the arithmetic of `float` left open

The definitions above take `float` to be the rationals. Those of this section
follow the same C statements and assume nothing of the arithmetic but the
operations that the code applies, so that what they compute records the order
of the operations. -/

/-- The operations of the C type `float` that `matmul_hw` applies: the value
`0.0f` (which is also what `memset` to zero bytes leaves), the sum and the
product of two `float` values, and the conversion `(float)` of an `int32_t`.
No law is assumed of them, so that every way of rounding is covered. What is
assumed is that each operation of the C expression yields a `float` of its
own, as when expressions are evaluated in the precision of their type and a
product is not fused with the sum that follows it. -/
structure FloatArith (F : Type) where
  zero : F
  add : F → F → F
  mul : F → F → F
  of_int32 : Int → F

/-- A `QuantizedTensor` whose scales are values of the type `float` of a
given arithmetic. -/
structure FloatTensor (F : Type) where
  q : List Int
  s : List F

/-- What the encoder reads of a tensor: its quantized values. -/
def FloatTensor.values {F : Type} (t : FloatTensor F) : QuantizedTensor := ⟨t.q, []⟩

/-- The call `memset(xout, 0, d * sizeof(float))`. -/
def memset_zero_fp {F : Type} (fa : FloatArith F) (xout : List F) (d : Nat) : List F :=
  (List.range' 0 d).foldl (fun b k => b.set k fa.zero) xout

/-- Body of the dequantization loop for lane `i` (step 4 of `matmul_hw`):
`row_accumulators[i] += (float)hw_results[i] * s_w * s_x`, that is the sum of
the accumulator and the product `((float)hw_results[i] * s_w) * s_x`. -/
def dequantize_lane_fp {F : Type} (fa : FloatArith F) (x w : FloatTensor F)
    (n d GS row_base col_base : Nat)
    (hw_results : List Int) (row_accumulators : List F) (i : Nat) : Except Halt (List F) :=
  let current_row := row_base + i
  if current_row < d then
    let w_s_idx := (current_row * n + col_base) / GS
    let x_s_idx := col_base / GS
    if w_s_idx ≥ d * n / GS ∨ x_s_idx ≥ n / GS then Except.ok row_accumulators
    else
      match w.s[w_s_idx]?, x.s[x_s_idx]? with
      | some s_w, some s_x =>
        Except.ok (row_accumulators.set i
          (fa.add (row_accumulators.getD i fa.zero)
            (fa.mul (fa.mul (fa.of_int32 (hw_results.getD i 0)) s_w) s_x)))
      | _, _ => Except.error Halt.out_of_range_read
  else Except.ok row_accumulators

/-- Body of the column loop: steps 1 to 4 for the tile at
`(row_base, col_base)`, on the accumulators of the row block. -/
def process_tile_fp {F : Type} (fa : FloatArith F) (sim : Simulator) (x w : FloatTensor F)
    (n d GS row_base : Nat) (row_accumulators : List F) (col_base : Nat) :
    Except Halt (List F) :=
  match write_hw_input_tile x.values w.values row_base col_base n d GS with
  | none => Except.error Halt.out_of_range_read
  | some t =>
    if (sim row_base col_base t).ret ≠ 0 then Except.error Halt.simulation_failed
    else
      match read_hw_output (sim row_base col_base t).memory_dump
          (List.replicate HW_ARRAY_SIZE 0) with
      | Except.error e => Except.error e
      | Except.ok rs =>
        (List.range HW_ARRAY_SIZE).foldlM
          (dequantize_lane_fp fa x w n d GS row_base col_base rs.results_buffer)
          row_accumulators

/-- The loop that copies the accumulators of the rows below `d` into `xout`. -/
def commit_rows_fp {F : Type} (fa : FloatArith F) (xout row_accumulators : List F)
    (row_base d : Nat) : List F :=
  (List.range HW_ARRAY_SIZE).foldl
    (fun out i =>
      if row_base + i < d then out.set (row_base + i) (row_accumulators.getD i fa.zero)
      else out)
    xout

/-- Body of the row loop: accumulators set to `0.0f`, the column loop
`for (col_base = 0; col_base < n; col_base += GS)`, then the copy into `xout`. -/
def process_row_block_fp {F : Type} (fa : FloatArith F) (sim : Simulator) (x w : FloatTensor F)
    (n d GS : Nat) (xout : List F) (row_base : Nat) : Except Halt (List F) :=
  match for_values n GS n 0 with
  | none => Except.error Halt.out_of_fuel
  | some cols =>
    match cols.foldlM (process_tile_fp fa sim x w n d GS row_base)
        (List.replicate HW_ARRAY_SIZE fa.zero) with
    | Except.error e => Except.error e
    | Except.ok row_accumulators => Except.ok (commit_rows_fp fa xout row_accumulators row_base d)

/-- The function `matmul_hw(xout, x, w, n, d, GS)` for a given arithmetic of
`float`: `memset`, then the row loop
`for (row_base = 0; row_base < d; row_base += HW_ARRAY_SIZE)`. -/
def matmul_hw_fp {F : Type} (fa : FloatArith F) (sim : Simulator) (xout : List F)
    (x w : FloatTensor F) (n d GS : Nat) : Except Halt (List F) :=
  match for_values d HW_ARRAY_SIZE d 0 with
  | none => Except.error Halt.out_of_fuel
  | some rows =>
    rows.foldlM (process_row_block_fp fa sim x w n d GS) (memset_zero_fp fa xout d)

/-- The sum that `matmul_hw` forms for row `row`: starting from `0.0f`, the
column blocks `b = 0, 1, ...`, `n / GS` of them, each add
`((float)result[lane] * w.s[(row*n + b*GS)/GS]) * x.s[b*GS/GS]`, where `result`
is the buffer decoded for the tile of the row block of `row` and of column
block `b`, and `lane` is the place of the row in its row block. -/
def accumulated_row_fp {F : Type} (fa : FloatArith F) (sim : Simulator) (x w : FloatTensor F)
    (n d GS row : Nat) : F :=
  (List.range (n / GS)).foldl
    (fun acc b => fa.add acc
      (fa.mul
        (fa.mul
          (fa.of_int32
            ((tile_result sim x.values w.values n d GS
                (HW_ARRAY_SIZE * (row / HW_ARRAY_SIZE)) (b * GS)).getD
              (row - HW_ARRAY_SIZE * (row / HW_ARRAY_SIZE)) 0))
          (w.s.getD ((row * n + b * GS) / GS) fa.zero))
        (x.s.getD (b * GS / GS) fa.zero)))
    fa.zero

/-- The arithmetic of the rationals, in which nothing is rounded. -/
def exact_arith : FloatArith ℚ := ⟨0, fun a b => a + b, fun a b => a * b, fun v => (v : ℚ)⟩

/-- Expressions in the operations of `float`, kept as written. -/
inductive FloatExpr where
  | zero
  | scale (k : Nat)
  | of_int32 (v : Int)
  | add (a b : FloatExpr)
  | mul (a b : FloatExpr)
deriving DecidableEq

/-- The arithmetic that computes nothing: every operation builds the
expression that names it, so that the value of a computation is the order of
its operations. -/
def symbolic_arith : FloatArith FloatExpr :=
  ⟨FloatExpr.zero, FloatExpr.add, FloatExpr.mul, FloatExpr.of_int32⟩

/-- Scenario B with symbolic scales: the scale `k` of the weight tensor is
the expression `scale k`, the scale `k` of the activation vector is
`scale (100 + k)`. -/
def scenario_b_w_symbolic : FloatTensor FloatExpr :=
  ⟨scenario_b_w.q, (List.range 32).map FloatExpr.scale⟩

/-- Scenario B with symbolic scales: the activation vector. -/
def scenario_b_x_symbolic : FloatTensor FloatExpr :=
  ⟨scenario_b_x.q, [FloatExpr.scale 100, FloatExpr.scale 101]⟩

/-! # Theorems -/

/-! ## Auxiliary facts on lists -/

theorem collect_eq_some_iff {α : Type} (l : List (Option α)) (r : List α) :
    collect l = some r ↔ l = r.map some := by
  induction l generalizing r with
  | nil => cases r <;> simp [collect]
  | cons o rest ih =>
    cases o with
    | none => cases r <;> simp [collect]
    | some a =>
      cases r with
      | nil => simp [collect]
      | cons b r' =>
        simp only [collect, Option.map_eq_some', List.map_cons, List.cons.injEq, Option.some.injEq]
        constructor
        · rintro ⟨r'', h1, h2, h3⟩
          exact ⟨h2, by rw [← h3]; exact (ih r'').1 h1⟩
        · rintro ⟨h1, h2⟩
          exact ⟨r', (ih r').2 h2, h1, rfl⟩

theorem collect_map_some {α : Type} (r : List α) : collect (r.map some) = some r :=
  (collect_eq_some_iff _ _).2 rfl

/-- Row-major indexing of a loop nest: entry `i * K + j` of the flattened
nest is the body at `(i, j)`. -/
theorem nest_getElem? {α : Type} (g : Nat → Nat → α) (K : Nat) :
    ∀ m : Nat,
      ((List.range m).flatMap fun i => (List.range K).map fun j => g i j).length = m * K ∧
      ∀ i j, i < m → j < K →
        ((List.range m).flatMap fun i => (List.range K).map fun j => g i j)[i * K + j]?
          = some (g i j) := by
  intro m
  induction m with
  | zero => simp
  | succ m ih =>
    obtain ⟨hlen, hget⟩ := ih
    rw [List.range_succ, List.flatMap_append]
    constructor
    · simp [hlen, Nat.succ_mul]
    · intro i j hi hj
      by_cases him : i < m
      · rw [List.getElem?_append_left]
        · exact hget i j him hj
        · rw [hlen]
          calc i * K + j < i * K + K := by omega
            _ = (i + 1) * K := by ring
            _ ≤ m * K := Nat.mul_le_mul_right K him
      · have hie : i = m := by omega
        subst hie
        rw [List.getElem?_append_right (by rw [hlen]; omega), hlen]
        simp [hj]


theorem collect_of_forall_isSome {α : Type} (l : List (Option α))
    (h : ∀ o ∈ l, o ≠ none) : ∃ r, collect l = some r := by
  induction l with
  | nil => exact ⟨[], rfl⟩
  | cons o rest ih =>
    cases o with
    | none => exact absurd rfl (h none (List.mem_cons_self _ _))
    | some a =>
      obtain ⟨r, hr⟩ := ih (fun o ho => h o (List.mem_cons_of_mem _ ho))
      exact ⟨a :: r, by simp [collect, hr]⟩

/-- Entries of a collected sequence are the values of the individual prints. -/
theorem collect_getElem? {α : Type} {l : List (Option α)} {r : List α}
    (h : collect l = some r) :
    r.length = l.length ∧ ∀ (k : Nat) (a : α), l[k]? = some (some a) → r[k]? = some a := by
  have hl := (collect_eq_some_iff l r).1 h
  subst hl
  refine ⟨by simp, ?_⟩
  intro k a hk
  rw [List.getElem?_map] at hk
  cases hr : r[k]? with
  | none => rw [hr] at hk; simp at hk
  | some b => rw [hr] at hk; simpa using hk

/-! ## TileEncoder -/

theorem weight_index_lt {row col n d : Nat} (hr : row < d) (hc : col < n) :
    row * n + col < d * n :=
  calc row * n + col < row * n + n := by omega
    _ = (row + 1) * n := by ring
    _ ≤ d * n := Nat.mul_le_mul_right n hr

theorem weight_line_ne_none (w : QuantizedTensor) (rb cb n d i j : Nat)
    (hw : d * n ≤ w.q.length) : weight_line w rb cb n d i j ≠ none := by
  unfold weight_line
  by_cases hg : rb + i < d ∧ cb + j < n
  · have hlt : (rb + i) * n + (cb + j) < w.q.length :=
      lt_of_lt_of_le (weight_index_lt hg.1 hg.2) hw
    simp [hg, List.getElem?_eq_getElem hlt]
  · simp [hg]

theorem vector_line_ne_none (x : QuantizedTensor) (cb n i : Nat)
    (hx : n ≤ x.q.length) : vector_line x cb n i ≠ none := by
  unfold vector_line
  by_cases hg : cb + i < n
  · have hlt : cb + i < x.q.length := lt_of_lt_of_le hg hx
    simp [hg, List.getElem?_eq_getElem hlt]
  · simp [hg]

/-- With tensors of the sizes of the data model the encoder completes, and its
two artifacts are the collected loop bodies. -/
theorem write_hw_input_tile_eq_some (x w : QuantizedTensor) (rb cb n d K : Nat)
    (hw : d * n ≤ w.q.length) (hx : n ≤ x.q.length) :
    ∃ ws vs, write_hw_input_tile x w rb cb n d K = some ⟨ws, vs⟩ ∧
      collect ((List.range HW_ARRAY_SIZE).flatMap fun i =>
          (List.range K).map fun j => weight_line w rb cb n d i j) = some ws ∧
      collect ((List.range K).map fun i => vector_line x cb n i) = some vs := by
  obtain ⟨ws, hws⟩ := collect_of_forall_isSome
    ((List.range HW_ARRAY_SIZE).flatMap fun i =>
          (List.range K).map fun j => weight_line w rb cb n d i j)
    (by
      intro o ho
      simp only [List.mem_flatMap, List.mem_map] at ho
      obtain ⟨i, _, j, _, rfl⟩ := ho
      exact weight_line_ne_none w rb cb n d i j hw)
  obtain ⟨vs, hvs⟩ := collect_of_forall_isSome
    ((List.range K).map fun i => vector_line x cb n i)
    (by
      intro o ho
      simp only [List.mem_map] at ho
      obtain ⟨i, _, rfl⟩ := ho
      exact vector_line_ne_none x cb n i hx)
  exact ⟨ws, vs, by simp [write_hw_input_tile, hws, hvs], hws, hvs⟩

/-- C2: the weight artifact has `HW_ARRAY_SIZE * groupDepth` lines in
row-major order; line `i * groupDepth + j` is the encoded byte
`w.q[(row_base+i)*n + (col_base+j)]` when that position lies inside the
matrix, and the zero line `00` otherwise. -/
theorem weight_artifact_row_major (x w : QuantizedTensor) (row_base col_base n d groupDepth : Nat)
    (hw : d * n ≤ w.q.length) (hx : n ≤ x.q.length) :
    ∃ t, write_hw_input_tile x w row_base col_base n d groupDepth = some t ∧
      t.weights.length = HW_ARRAY_SIZE * groupDepth ∧
      ∀ i j, i < HW_ARRAY_SIZE → j < groupDepth →
        ((row_base + i < d ∧ col_base + j < n) →
          ∃ v, w.q[(row_base + i) * n + (col_base + j)]? = some v ∧
            t.weights[i * groupDepth + j]? = some (encode_byte v)) ∧
        (¬ (row_base + i < d ∧ col_base + j < n) →
          t.weights[i * groupDepth + j]? = some zero_line) := by
  obtain ⟨ws, vs, hsome, hws, _⟩ :=
    write_hw_input_tile_eq_some x w row_base col_base n d groupDepth hw hx
  obtain ⟨hlen, hget⟩ := collect_getElem? hws
  obtain ⟨nlen, nget⟩ :=
    nest_getElem? (fun i j => weight_line w row_base col_base n d i j) groupDepth HW_ARRAY_SIZE
  refine ⟨⟨ws, vs⟩, hsome, by rw [hlen, nlen], ?_⟩
  intro i j hi hj
  have hcell := nget i j hi hj
  constructor
  · intro hg
    have hlt : (row_base + i) * n + (col_base + j) < w.q.length :=
      lt_of_lt_of_le (weight_index_lt hg.1 hg.2) hw
    refine ⟨w.q[(row_base + i) * n + (col_base + j)], List.getElem?_eq_getElem hlt, ?_⟩
    apply hget
    rw [hcell]
    simp [weight_line, hg, List.getElem?_eq_getElem hlt]
  · intro hg
    apply hget
    rw [hcell]
    simp [weight_line, hg]

theorem weight_artifact_row_major_witness :
    ∃ t, write_hw_input_tile ⟨[3, -4], []⟩ ⟨[1, -1, 127, -128, 16, 15], []⟩ 0 0 2 3 2 = some t ∧
      t.weights.length = HW_ARRAY_SIZE * 2 ∧
      ∀ i j, i < HW_ARRAY_SIZE → j < 2 →
        ((0 + i < 3 ∧ 0 + j < 2) →
          ∃ v, ([1, -1, 127, -128, 16, 15] : List Int)[(0 + i) * 2 + (0 + j)]? = some v ∧
            t.weights[i * 2 + j]? = some (encode_byte v)) ∧
        (¬ (0 + i < 3 ∧ 0 + j < 2) →
          t.weights[i * 2 + j]? = some zero_line) :=
  weight_artifact_row_major ⟨[3, -4], []⟩ ⟨[1, -1, 127, -128, 16, 15], []⟩ 0 0 2 3 2
    (by decide) (by decide)

/-- C3: with tensors of exactly the sizes `d * n` and `n`, no read of the
encoder leaves its sequence (the call and each loop body succeed, every index
read is below `d * n`, respectively `n`), and a position outside the matrix
yields the zero line whatever the tensor holds, so without a read. -/
theorem write_hw_input_tile_reads_in_range (x w : QuantizedTensor)
    (row_base col_base n d groupDepth : Nat)
    (hw : w.q.length = d * n) (hx : x.q.length = n) :
    write_hw_input_tile x w row_base col_base n d groupDepth ≠ none ∧
    (∀ i j, weight_line w row_base col_base n d i j ≠ none) ∧
    (∀ i, vector_line x col_base n i ≠ none) ∧
    (∀ i j, row_base + i < d → col_base + j < n →
      (row_base + i) * n + (col_base + j) < w.q.length) ∧
    (∀ i, col_base + i < n → col_base + i < x.q.length) ∧
    (∀ i j, (d ≤ row_base + i ∨ n ≤ col_base + j) →
      ∀ w0 : QuantizedTensor, weight_line w0 row_base col_base n d i j = some zero_line) ∧
    (∀ i, n ≤ col_base + i →
      ∀ x0 : QuantizedTensor, vector_line x0 col_base n i = some zero_line) := by
  refine ⟨?_, ?_, ?_, ?_, ?_, ?_, ?_⟩
  · obtain ⟨ws, vs, h, _, _⟩ :=
      write_hw_input_tile_eq_some x w row_base col_base n d groupDepth (le_of_eq hw.symm)
        (le_of_eq hx.symm)
    rw [h]
    exact Option.some_ne_none _
  · intro i j
    exact weight_line_ne_none w row_base col_base n d i j (le_of_eq hw.symm)
  · intro i
    exact vector_line_ne_none x col_base n i (le_of_eq hx.symm)
  · intro i j hr hc
    rw [hw]
    exact weight_index_lt hr hc
  · intro i hi
    rw [hx]
    exact hi
  · intro i j hout w0
    have hg : ¬ (row_base + i < d ∧ col_base + j < n) := by omega
    simp [weight_line, hg]
  · intro i hout x0
    have hg : ¬ (col_base + i < n) := by omega
    simp [vector_line, hg]

theorem write_hw_input_tile_reads_in_range_witness :
    write_hw_input_tile ⟨[3, -4], []⟩ ⟨[1, -1, 127, -128, 16, 15], []⟩ 0 0 2 3 4 ≠ none ∧
    (∀ i j, weight_line ⟨[1, -1, 127, -128, 16, 15], []⟩ 0 0 2 3 i j ≠ none) ∧
    (∀ i, vector_line ⟨[3, -4], []⟩ 0 2 i ≠ none) ∧
    (∀ i j, 0 + i < 3 → 0 + j < 2 →
      (0 + i) * 2 + (0 + j) < (⟨[1, -1, 127, -128, 16, 15], []⟩ : QuantizedTensor).q.length) ∧
    (∀ i, 0 + i < 2 → 0 + i < (⟨[3, -4], []⟩ : QuantizedTensor).q.length) ∧
    (∀ i j, (3 ≤ 0 + i ∨ 2 ≤ 0 + j) →
      ∀ w0 : QuantizedTensor, weight_line w0 0 0 2 3 i j = some zero_line) ∧
    (∀ i, 2 ≤ 0 + i →
      ∀ x0 : QuantizedTensor, vector_line x0 0 2 i = some zero_line) :=
  write_hw_input_tile_reads_in_range ⟨[3, -4], []⟩ ⟨[1, -1, 127, -128, 16, 15], []⟩ 0 0 2 3 4
    (by decide) (by decide)

/-- C4: the vector artifact has `groupDepth` lines; line `i` is the encoded
byte `x.q[col_base+i]` when `col_base+i < n` and the zero line otherwise; a
call with another `row_base`, `d` and `w` leaves the same vector artifact. -/
theorem vector_artifact_lines (x w w0 : QuantizedTensor)
    (row_base row_base0 col_base n d d0 groupDepth : Nat)
    (hx : n ≤ x.q.length) (hw : d * n ≤ w.q.length) (hw0 : d0 * n ≤ w0.q.length) :
    ∃ t t0, write_hw_input_tile x w row_base col_base n d groupDepth = some t ∧
      write_hw_input_tile x w0 row_base0 col_base n d0 groupDepth = some t0 ∧
      t0.vector = t.vector ∧
      t.vector.length = groupDepth ∧
      ∀ i, i < groupDepth →
        (col_base + i < n →
          ∃ v, x.q[col_base + i]? = some v ∧ t.vector[i]? = some (encode_byte v)) ∧
        (n ≤ col_base + i → t.vector[i]? = some zero_line) := by
  obtain ⟨ws, vs, hsome, _, hvs⟩ :=
    write_hw_input_tile_eq_some x w row_base col_base n d groupDepth hw hx
  obtain ⟨ws0, vs0, hsome0, _, hvs0⟩ :=
    write_hw_input_tile_eq_some x w0 row_base0 col_base n d0 groupDepth hw0 hx
  have hsame : vs0 = vs := by
    rw [hvs] at hvs0
    exact (Option.some.inj hvs0).symm
  obtain ⟨hlen, hget⟩ := collect_getElem? hvs
  refine ⟨⟨ws, vs⟩, ⟨ws0, vs0⟩, hsome, hsome0, hsame, by simpa using hlen, ?_⟩
  intro i hi
  have hcell : ((List.range groupDepth).map fun i => vector_line x col_base n i)[i]?
      = some (vector_line x col_base n i) := by
    simp [List.getElem?_range hi]
  constructor
  · intro hg
    have hlt : col_base + i < x.q.length := lt_of_lt_of_le hg hx
    refine ⟨x.q[col_base + i], List.getElem?_eq_getElem hlt, ?_⟩
    apply hget
    rw [hcell]
    simp [vector_line, hg, List.getElem?_eq_getElem hlt]
  · intro hg
    have hng : ¬ (col_base + i < n) := by omega
    apply hget
    rw [hcell]
    simp [vector_line, hng]

theorem vector_artifact_lines_witness :
    ∃ t t0, write_hw_input_tile ⟨[3, -4, 5], []⟩ ⟨[1, -1, 127, -128, 16, 15], []⟩ 0 1 3 2 4 = some t ∧
      write_hw_input_tile ⟨[3, -4, 5], []⟩ ⟨[7, 8, 9], []⟩ 8 1 3 1 4 = some t0 ∧
      t0.vector = t.vector ∧
      t.vector.length = 4 ∧
      ∀ i, i < 4 →
        (1 + i < 3 →
          ∃ v, ([3, -4, 5] : List Int)[1 + i]? = some v ∧ t.vector[i]? = some (encode_byte v)) ∧
        (3 ≤ 1 + i → t.vector[i]? = some zero_line) :=
  vector_artifact_lines ⟨[3, -4, 5], []⟩ ⟨[1, -1, 127, -128, 16, 15], []⟩ ⟨[7, 8, 9], []⟩
    0 8 1 3 2 1 4 (by decide) (by decide) (by decide)

/-! ## Byte encoding -/

theorem fmt_02x_byte : ∀ u, u < 256 →
    fmt_02x u = [Nat.digitChar (u / 16), Nat.digitChar (u % 16)] := by
  decide

theorem digitChar_hex : ∀ k, k < 16 →
    isHexDigit (Nat.digitChar k) = true ∧ hexVal (Nat.digitChar k) = k := by
  decide

theorem hex_value_pair (a b : Char) : hex_value [a, b] = hexVal a * 16 + hexVal b := by
  simp [hex_value]

theorem to_uchar_lt (v : Int) : to_uchar v < 256 := by
  unfold to_uchar
  omega

theorem hex_value_fmt_02x (u : Nat) (hu : u < 256) : hex_value (fmt_02x u) = u := by
  rw [fmt_02x_byte u hu, hex_value_pair,
    (digitChar_hex (u / 16) (by omega)).2, (digitChar_hex (u % 16) (by omega)).2]
  omega

/-- C5: for a signed 8-bit value `v` the encoder prints exactly two
hexadecimal digits; their value is `v mod 256` (that is `v` when `v ≥ 0` and
`v + 256` when `v < 0`); read back as a signed byte it is `v` again; and two
values with the same line are equal. -/
theorem encode_byte_two_hex_digits (v : Int) (hlo : -128 ≤ v) (hhi : v ≤ 127) :
    (∃ hi lo, encode_byte v = [hi, lo] ∧ isHexDigit hi = true ∧ isHexDigit lo = true) ∧
    (hex_value (encode_byte v) : Int) = v % 256 ∧
    (hex_value (encode_byte v) : Int) = (if 0 ≤ v then v else v + 256) ∧
    to_int8 (hex_value (encode_byte v)) = v ∧
    ∀ v0 : Int, -128 ≤ v0 → v0 ≤ 127 → encode_byte v0 = encode_byte v → v0 = v := by
  have hu := to_uchar_lt v
  have hval : hex_value (encode_byte v) = to_uchar v := hex_value_fmt_02x _ hu
  refine ⟨?_, ?_, ?_, ?_, ?_⟩
  · refine ⟨Nat.digitChar (to_uchar v / 16), Nat.digitChar (to_uchar v % 16), ?_, ?_, ?_⟩
    · exact fmt_02x_byte _ hu
    · exact (digitChar_hex _ (by omega)).1
    · exact (digitChar_hex _ (by omega)).1
  · rw [hval]
    unfold to_uchar
    omega
  · rw [hval]
    unfold to_uchar
    split <;> omega
  · rw [hval]
    unfold to_int8 to_uchar
    split <;> omega
  · intro v0 h1 h2 he
    have hval0 : hex_value (encode_byte v0) = to_uchar v0 := hex_value_fmt_02x _ (to_uchar_lt v0)
    have : to_uchar v0 = to_uchar v := by rw [← hval0, ← hval, he]
    unfold to_uchar at this
    omega

theorem encode_byte_two_hex_digits_witness :
    (∃ hi lo, encode_byte (-3) = [hi, lo] ∧ isHexDigit hi = true ∧ isHexDigit lo = true) ∧
    (hex_value (encode_byte (-3)) : Int) = (-3) % 256 ∧
    (hex_value (encode_byte (-3)) : Int) = (if (0 : Int) ≤ -3 then -3 else -3 + 256) ∧
    to_int8 (hex_value (encode_byte (-3))) = -3 ∧
    ∀ v0 : Int, -128 ≤ v0 → v0 ≤ 127 → encode_byte v0 = encode_byte (-3) → v0 = -3 :=
  encode_byte_two_hex_digits (-3) (by decide) (by decide)

/-! ## ResultDecoder: reading line by line -/

theorem fgets_lines_nil (cap : Nat) (cur : List Char) :
    fgets_lines cap cur [] = if cur.isEmpty then [] else [cur] := rfl

theorem fgets_lines_cons (cap : Nat) (cur : List Char) (c : Char) (s : List Char) :
    fgets_lines cap cur (c :: s)
      = if c.toNat = 10 ∨ cur.length + 1 = cap then (cur ++ [c]) :: fgets_lines cap [] s
        else fgets_lines cap (cur ++ [c]) s := rfl

/-- A newline ends the string that `fgets` is filling: the strings delivered
for a text that continues after a newline are those of the part up to the
newline followed by those of the remainder. -/
theorem fgets_lines_newline (cap : Nat) (l rest : List Char) :
    ∀ cur, fgets_lines cap cur (l ++ '\n' :: rest)
      = fgets_lines cap cur (l ++ ['\n']) ++ fgets_lines cap [] rest := by
  induction l with
  | nil =>
    intro cur
    simp [fgets_lines_cons, fgets_lines_nil]
  | cons c l ih =>
    intro cur
    rw [List.cons_append, List.cons_append, fgets_lines_cons, fgets_lines_cons]
    split
    · rw [ih]; simp
    · rw [ih]

theorem fgets_lines_artifact_cons (cap : Nat) (l : Line) (ls : List Line) :
    fgets_lines cap [] (artifact_text (l :: ls))
      = fgets_lines cap [] (l ++ ['\n']) ++ fgets_lines cap [] (artifact_text ls) := by
  have h : artifact_text (l :: ls) = l ++ '\n' :: artifact_text ls := by
    simp [artifact_text]
  rw [h, fgets_lines_newline]

/-- A line without a newline that fits the buffer together with its newline is
delivered by a single call. -/
theorem fgets_lines_short (cap : Nat) (l : List Char) (hnl : ∀ c ∈ l, c.toNat ≠ 10) :
    ∀ cur, cur.length + l.length < cap →
      fgets_lines cap cur (l ++ ['\n']) = [cur ++ l ++ ['\n']] := by
  induction l with
  | nil =>
    intro cur _
    simp [fgets_lines_cons, fgets_lines_nil]
  | cons c l ih =>
    intro cur hlen
    have hc : c.toNat ≠ 10 := hnl c (List.mem_cons_self _ _)
    have hcap : ¬ (cur.length + 1 = cap) := by simp only [List.length_cons] at hlen; omega
    rw [List.cons_append, fgets_lines_cons, if_neg (by simp [hc, hcap])]
    rw [ih (fun c hc => hnl c (List.mem_cons_of_mem _ hc)) (cur ++ [c])
      (by simp only [List.length_append, List.length_cons, List.length_nil] at hlen ⊢; omega)]
    simp

/-- A line without a newline that fills the buffer exactly is delivered by one
call, and its newline by the next one. -/
theorem fgets_lines_exact (cap : Nat) (l : List Char) (hnl : ∀ c ∈ l, c.toNat ≠ 10) :
    ∀ cur, l ≠ [] → cur.length + l.length = cap →
      fgets_lines cap cur (l ++ ['\n']) = [cur ++ l, ['\n']] := by
  induction l with
  | nil => intro cur h; exact absurd rfl h
  | cons c l ih =>
    intro cur _ hlen
    have hc : c.toNat ≠ 10 := hnl c (List.mem_cons_self _ _)
    simp only [List.length_cons] at hlen
    by_cases hl : l = []
    · subst hl
      have hcap : cur.length + 1 = cap := by simpa using hlen
      simp [fgets_lines_cons, fgets_lines_nil, hcap]
    · have hcap : ¬ (cur.length + 1 = cap) := by
        have : 0 < l.length := List.length_pos.2 hl
        omega
      rw [List.cons_append, fgets_lines_cons, if_neg (by simp [hc, hcap])]
      rw [ih (fun c hc => hnl c (List.mem_cons_of_mem _ hc)) (cur ++ [c]) hl
        (by simp only [List.length_append, List.length_cons, List.length_nil]; omega)]
      simp

/-- An artifact whose lines are short and free of newlines is delivered by
`fgets` line by line. -/
theorem fgets_lines_artifact_short (ls : List Line)
    (h : ∀ l ∈ ls, l.length < 255 ∧ ∀ c ∈ l, c.toNat ≠ 10) :
    fgets_lines 255 [] (artifact_text ls) = ls.map fun l => l ++ ['\n'] := by
  induction ls with
  | nil => rfl
  | cons l ls ih =>
    have hl := h l (List.mem_cons_self _ _)
    rw [fgets_lines_artifact_cons, ih (fun l hl => h l (List.mem_cons_of_mem _ hl)),
      fgets_lines_short 255 l hl.2 [] (by simpa using hl.1)]
    simp

/-- Every character delivered by `fgets` comes from the text. -/
theorem fgets_lines_mem (cap : Nat) (s : List Char) :
    ∀ cur, ∀ chunk ∈ fgets_lines cap cur s, ∀ c ∈ chunk, c ∈ cur ∨ c ∈ s := by
  induction s with
  | nil =>
    intro cur chunk hchunk c hc
    rw [fgets_lines_nil] at hchunk
    split at hchunk
    · simp at hchunk
    · simp only [List.mem_singleton] at hchunk
      subst hchunk
      exact Or.inl hc
  | cons a s ih =>
    intro cur chunk hchunk c hc
    rw [fgets_lines_cons] at hchunk
    split at hchunk
    · rcases List.mem_cons.1 hchunk with h | h
      · subst h
        rcases List.mem_append.1 hc with h1 | h1
        · exact Or.inl h1
        · exact Or.inr (by simp only [List.mem_singleton] at h1; simp [h1])
      · rcases ih [] chunk h c hc with h1 | h1
        · simp at h1
        · exact Or.inr (List.mem_cons_of_mem _ h1)
    · rcases ih (cur ++ [a]) chunk hchunk c hc with h1 | h1
      · rcases List.mem_append.1 h1 with h2 | h2
        · exact Or.inl h2
        · exact Or.inr (by simp only [List.mem_singleton] at h2; simp [h2])
      · exact Or.inr (List.mem_cons_of_mem _ h1)

/-! ## ResultDecoder: the read loop -/

theorem read_loop_full (lines : List (List Char)) (st : ReadState)
    (h : ¬ st.i < HW_ARRAY_SIZE) : read_loop lines st = st := by
  cases lines with
  | nil => rfl
  | cons l rest => simp [read_loop, h]

theorem read_loop_append (a b : List (List Char)) :
    ∀ st, read_loop (a ++ b) st = read_loop b (read_loop a st) := by
  induction a with
  | nil => intro st; rfl
  | cons l a ih =>
    intro st
    by_cases hi : st.i < HW_ARRAY_SIZE
    · simp only [List.cons_append, read_loop, hi, if_true]
      split
      · exact ih _
      · split
        · exact ih _
        · split
          · exact ih _
          · exact ih _
    · rw [read_loop_full _ _ hi, read_loop_full _ _ hi, read_loop_full _ _ hi]

/-- Strings that are comments or blank leave the state of the loop as it is. -/
theorem read_loop_skipped (a : List (List Char))
    (h : ∀ l ∈ a, is_comment l = true ∨ is_blank l = true) :
    ∀ st, read_loop a st = st := by
  induction a with
  | nil => intro st; rfl
  | cons l a ih =>
    intro st
    have ha := ih (fun l hl => h l (List.mem_cons_of_mem _ hl))
    by_cases hi : st.i < HW_ARRAY_SIZE
    · simp only [read_loop, hi, if_true]
      rcases h l (List.mem_cons_self _ _) with hc | hb
      · simp [hc, ha]
      · simp [hb, ha]
    · exact read_loop_full _ _ hi

theorem numeric_values_nil : numeric_values [] = [] := rfl

theorem numeric_values_cons (l : List Char) (rest : List (List Char)) :
    numeric_values (l :: rest)
      = match line_value l with
        | none => numeric_values rest
        | some v => v :: numeric_values rest := by
  unfold numeric_values
  rw [List.filterMap_cons]
  cases line_value l <;> rfl

theorem numeric_values_append (a b : List (List Char)) :
    numeric_values (a ++ b) = numeric_values a ++ numeric_values b := by
  unfold numeric_values
  exact List.filterMap_append _ _ _

theorem read_loop_cons_skip (l : List Char) (rest : List (List Char)) (st : ReadState)
    (hi : st.i < HW_ARRAY_SIZE) (h : is_comment l = true ∨ is_blank l = true) :
    read_loop (l :: rest) st = read_loop rest st := by
  simp only [read_loop, hi, if_true]
  rcases h with h | h
  · simp [h]
  · simp [h]

theorem read_loop_cons_some (l : List Char) (rest : List (List Char)) (st : ReadState)
    (hi : st.i < HW_ARRAY_SIZE) (hc : is_comment l = false) (hb : is_blank l = false)
    (u : Nat) (hu : sscanf_x (c_string l) = some u) :
    read_loop (l :: rest) st
      = read_loop rest
          { st with i := st.i + 1, results_buffer := st.results_buffer.set st.i (to_int32 u) } := by
  simp [read_loop, hi, hc, hb, hu]

theorem read_loop_cons_none (l : List Char) (rest : List (List Char)) (st : ReadState)
    (hi : st.i < HW_ARRAY_SIZE) (hc : is_comment l = false) (hb : is_blank l = false)
    (hu : sscanf_x (c_string l) = none) :
    read_loop (l :: rest) st
      = read_loop rest { st with warnings := st.warnings ++ [Warning.unparsable l] } := by
  simp [read_loop, hi, hc, hb, hu]

/-- What the read loop leaves in the buffer and in the slot counter, in terms
of the values of the numeric lines. -/
theorem read_loop_spec (lines : List (List Char)) :
    ∀ st : ReadState, st.i ≤ HW_ARRAY_SIZE → HW_ARRAY_SIZE ≤ st.results_buffer.length →
      (read_loop lines st).i = min (st.i + (numeric_values lines).length) HW_ARRAY_SIZE ∧
      (read_loop lines st).results_buffer.length = st.results_buffer.length ∧
      (∀ (k : Nat) (v : Int), st.i ≤ k → k < HW_ARRAY_SIZE →
        (numeric_values lines)[k - st.i]? = some v →
        (read_loop lines st).results_buffer[k]? = some v) ∧
      (∀ k : Nat, (k < st.i ∨ HW_ARRAY_SIZE ≤ k ∨ st.i + (numeric_values lines).length ≤ k) →
        (read_loop lines st).results_buffer[k]? = st.results_buffer[k]?) := by
  induction lines with
  | nil =>
    intro st h8 _
    refine ⟨by simp [read_loop, numeric_values_nil]; omega, rfl, ?_, fun k _ => rfl⟩
    intro k v _ _ hv
    simp [numeric_values_nil] at hv
  | cons l rest ih =>
    intro st h8 hlen
    by_cases hi : st.i < HW_ARRAY_SIZE
    · by_cases hskip : is_comment l = true ∨ is_blank l = true
      · have hv : line_value l = none := by
          unfold line_value
          rcases hskip with h | h <;> simp [h]
        rw [read_loop_cons_skip l rest st hi hskip, numeric_values_cons, hv]
        exact ih st h8 hlen
      · have hc : is_comment l = false := by
          cases h : is_comment l <;> simp_all
        have hb : is_blank l = false := by
          cases h : is_blank l <;> simp_all
        cases hu : sscanf_x (c_string l) with
        | none =>
          have hv : line_value l = none := by simp [line_value, hc, hb, hu]
          rw [read_loop_cons_none l rest st hi hc hb hu, numeric_values_cons, hv]
          exact ih _ h8 hlen
        | some u =>
          have hv : line_value l = some (to_int32 u) := by simp [line_value, hc, hb, hu]
          rw [read_loop_cons_some l rest st hi hc hb u hu, numeric_values_cons, hv]
          have hlt : st.i < st.results_buffer.length := lt_of_lt_of_le hi hlen
          obtain ⟨h1, h2, h3, h4⟩ := ih
            { st with i := st.i + 1, results_buffer := st.results_buffer.set st.i (to_int32 u) }
            hi (by simpa using hlen)
          simp only [List.length_set, List.length_cons] at h1 h2 h3 h4 ⊢
          refine ⟨by rw [h1]; congr 1; omega, h2, ?_, ?_⟩
          · intro k v hk hk8 hkv
            by_cases hke : k = st.i
            · rw [hke] at hkv ⊢
              simp only [Nat.sub_self, List.getElem?_cons_zero, Option.some.injEq] at hkv
              rw [h4 st.i (Or.inl (Nat.lt_succ_self _)), List.getElem?_set_self hlt, hkv]
            · have hk1 : st.i + 1 ≤ k := by omega
              have hidx : k - st.i = (k - (st.i + 1)) + 1 := by omega
              rw [hidx, List.getElem?_cons_succ] at hkv
              exact h3 k v hk1 hk8 hkv
          · intro k hk
            have hne : st.i ≠ k := by omega
            rw [h4 k (by omega), List.getElem?_set_ne hne]
    · have hv : read_loop (l :: rest) st = st := read_loop_full _ _ hi
      rw [hv]
      refine ⟨by omega, rfl, ?_, fun k _ => rfl⟩
      intro k v hk hk8 _
      exact absurd (lt_of_le_of_lt hk hk8) hi

theorem zero_fill_aux (m : Nat) : ∀ (i : Nat) (b : List Int) (k : Nat),
    ((List.range' i m).foldl (fun b j => b.set j 0) b)[k]?
      = if i ≤ k ∧ k < i + m ∧ k < b.length then some 0 else b[k]? := by
  induction m with
  | zero =>
    intro i b k
    have : ¬ (i ≤ k ∧ k < i + 0 ∧ k < b.length) := by omega
    rw [if_neg this]
    rfl
  | succ m ih =>
    intro i b k
    rw [List.range'_succ, List.foldl_cons, ih (i + 1) (b.set i 0) k]
    simp only [List.length_set]
    by_cases hki : k = i
    · subst hki
      by_cases hkb : k < b.length
      · have h1 : ¬ (k + 1 ≤ k ∧ k < k + 1 + m ∧ k < b.length) := by omega
        have h2 : (k ≤ k ∧ k < k + (m + 1) ∧ k < b.length) := by omega
        rw [if_neg h1, if_pos h2, List.getElem?_set_self hkb]
      · have h1 : ¬ (k + 1 ≤ k ∧ k < k + 1 + m ∧ k < b.length) := by omega
        have h2 : ¬ (k ≤ k ∧ k < k + (m + 1) ∧ k < b.length) := by omega
        rw [if_neg h1, if_neg h2, List.getElem?_eq_none (by simpa using Nat.le_of_not_lt hkb),
          List.getElem?_eq_none (Nat.le_of_not_lt hkb)]
    · have hne : i ≠ k := fun h => hki h.symm
      rw [List.getElem?_set_ne hne]
      by_cases h1 : i + 1 ≤ k ∧ k < i + 1 + m ∧ k < b.length
      · have h2 : i ≤ k ∧ k < i + (m + 1) ∧ k < b.length := by omega
        rw [if_pos h1, if_pos h2]
      · have h2 : ¬ (i ≤ k ∧ k < i + (m + 1) ∧ k < b.length) := by omega
        rw [if_neg h1, if_neg h2]

theorem zero_fill_getElem? (b : List Int) (i k : Nat) :
    (zero_fill b i)[k]?
      = if i ≤ k ∧ k < HW_ARRAY_SIZE ∧ k < b.length then some 0 else b[k]? := by
  unfold zero_fill
  rw [zero_fill_aux]
  by_cases h : i ≤ k ∧ k < HW_ARRAY_SIZE ∧ k < b.length
  · rw [if_pos h, if_pos (by omega)]
  · rw [if_neg h, if_neg (by omega)]

theorem zero_fill_length (b : List Int) (i : Nat) : (zero_fill b i).length = b.length := by
  unfold zero_fill
  generalize HW_ARRAY_SIZE - i = m
  induction m generalizing i b with
  | zero => rfl
  | succ m ih => rw [List.range'_succ, List.foldl_cons, ih, List.length_set]

theorem fgets_lines_artifact_append (cap : Nat) (ls : List Line) (later : List Char) :
    fgets_lines cap [] (artifact_text ls ++ later)
      = fgets_lines cap [] (artifact_text ls) ++ fgets_lines cap [] later := by
  induction ls with
  | nil => simp [artifact_text, fgets_lines_nil]
  | cons l ls ih =>
    have h : artifact_text (l :: ls) ++ later = l ++ '\n' :: (artifact_text ls ++ later) := by
      simp [artifact_text]
    rw [h, fgets_lines_newline, ih, fgets_lines_artifact_cons, List.append_assoc]

theorem artifact_text_append (a b : List Line) :
    artifact_text (a ++ b) = artifact_text a ++ artifact_text b := by
  simp [artifact_text]

/-- The state in which `read_hw_output` returns: that of the read loop, zero
filled and with the shortfall warning when fewer than `HW_ARRAY_SIZE` slots
were written. -/
theorem read_hw_output_some (content : List Char) (results_buffer : List Int) :
    read_hw_output (some content) results_buffer
      = Except.ok
          (if (read_loop (fgets_lines 255 [] content) ⟨0, results_buffer, []⟩).i < HW_ARRAY_SIZE then
            { read_loop (fgets_lines 255 [] content) ⟨0, results_buffer, []⟩ with
              results_buffer :=
                zero_fill (read_loop (fgets_lines 255 [] content) ⟨0, results_buffer, []⟩).results_buffer
                  (read_loop (fgets_lines 255 [] content) ⟨0, results_buffer, []⟩).i,
              warnings :=
                (read_loop (fgets_lines 255 [] content) ⟨0, results_buffer, []⟩).warnings
                  ++ [Warning.shortfall
                        (read_loop (fgets_lines 255 [] content) ⟨0, results_buffer, []⟩).i] }
          else read_loop (fgets_lines 255 [] content) ⟨0, results_buffer, []⟩) := by
  unfold read_hw_output
  simp only []
  split <;> rfl

/-- The buffer `read_hw_output` returns: slot `k` holds the value of the
`k`-th numeric line, or zero when there is none. -/
theorem read_hw_output_buffer (content : List Char) (results_buffer : List Int)
    (hlen : results_buffer.length = HW_ARRAY_SIZE) :
    ∃ st, read_hw_output (some content) results_buffer = Except.ok st ∧
      st.i = min (numeric_values (fgets_lines 255 [] content)).length HW_ARRAY_SIZE ∧
      st.results_buffer = (List.range HW_ARRAY_SIZE).map fun k =>
        ((numeric_values (fgets_lines 255 [] content))[k]?).getD 0 := by
  obtain ⟨h1, h2, h3, h4⟩ := read_loop_spec (fgets_lines 255 [] content)
    ⟨0, results_buffer, []⟩ (Nat.zero_le _) (le_of_eq hlen.symm)
  simp only [Nat.zero_add, Nat.sub_zero] at h1 h2 h3 h4
  rw [read_hw_output_some]
  by_cases hfull : (read_loop (fgets_lines 255 [] content) ⟨0, results_buffer, []⟩).i < HW_ARRAY_SIZE
  · rw [if_pos hfull]
    refine ⟨_, rfl, h1, ?_⟩
    simp only []
    apply List.ext_getElem?
    intro k
    rw [zero_fill_getElem?, h1, h2, hlen]
    rw [h1] at hfull
    by_cases hk : k < HW_ARRAY_SIZE
    · rw [List.getElem?_map, List.getElem?_range hk, Option.map_some']
      cases hv : (numeric_values (fgets_lines 255 [] content))[k]? with
      | some v =>
        have hkl : k < (numeric_values (fgets_lines 255 [] content)).length := by
          rcases List.getElem?_eq_some.1 hv with ⟨h, _⟩
          exact h
        rw [if_neg (by omega), Option.getD_some]
        exact h3 k v (Nat.zero_le _) hk hv
      | none =>
        have hkl : (numeric_values (fgets_lines 255 [] content)).length ≤ k :=
          List.getElem?_eq_none_iff.1 hv
        rw [if_pos ⟨by omega, hk, hk⟩, Option.getD_none]
    · have hk8 : HW_ARRAY_SIZE ≤ k := Nat.le_of_not_lt hk
      rw [if_neg (by omega), List.getElem?_eq_none (by rw [h2, hlen]; exact hk8),
        List.getElem?_eq_none (by simpa using hk8)]
  · rw [if_neg hfull]
    refine ⟨_, rfl, h1, ?_⟩
    apply List.ext_getElem?
    intro k
    rw [h1] at hfull
    by_cases hk : k < HW_ARRAY_SIZE
    · rw [List.getElem?_map, List.getElem?_range hk, Option.map_some']
      have hkl : k < (numeric_values (fgets_lines 255 [] content)).length := by omega
      rw [List.getElem?_eq_getElem hkl, Option.getD_some]
      exact h3 k _ (Nat.zero_le _) hk (List.getElem?_eq_getElem hkl)
    · have hk8 : HW_ARRAY_SIZE ≤ k := Nat.le_of_not_lt hk
      rw [List.getElem?_eq_none (by rw [h2, hlen]; exact hk8),
        List.getElem?_eq_none (by simpa using hk8)]

/-- Two artifacts whose first `HW_ARRAY_SIZE` numeric values agree are decoded
into the same buffer. -/
theorem read_hw_output_buffer_congr (c1 c2 : List Char) (results_buffer : List Int)
    (hlen : results_buffer.length = HW_ARRAY_SIZE)
    (h : (numeric_values (fgets_lines 255 [] c1)).take HW_ARRAY_SIZE
      = (numeric_values (fgets_lines 255 [] c2)).take HW_ARRAY_SIZE) :
    ∃ st1 st2, read_hw_output (some c1) results_buffer = Except.ok st1 ∧
      read_hw_output (some c2) results_buffer = Except.ok st2 ∧
      st1.results_buffer = st2.results_buffer := by
  obtain ⟨st1, e1, _, b1⟩ := read_hw_output_buffer c1 results_buffer hlen
  obtain ⟨st2, e2, _, b2⟩ := read_hw_output_buffer c2 results_buffer hlen
  refine ⟨st1, st2, e1, e2, ?_⟩
  rw [b1, b2]
  apply List.map_congr_left
  intro k hk
  have hk8 : k < HW_ARRAY_SIZE := List.mem_range.1 hk
  have h1 := List.getElem?_take_of_lt (l := numeric_values (fgets_lines 255 [] c1)) hk8
  have h2 := List.getElem?_take_of_lt (l := numeric_values (fgets_lines 255 [] c2)) hk8
  rw [← h1, ← h2, h]

/-! ## Hexadecimal digits -/

theorem hex_digit_range (c : Char) (h : isHexDigit c = true) :
    (48 ≤ c.toNat ∧ c.toNat ≤ 57) ∨ (97 ≤ c.toNat ∧ c.toNat ≤ 102) ∨
      (65 ≤ c.toNat ∧ c.toNat ≤ 70) := by
  simpa [isHexDigit, or_assoc] using h

theorem hex_digit_not_space (c : Char) (h : isHexDigit c = true) : isSpace c = false := by
  have hr := hex_digit_range c h
  cases hs : isSpace c with
  | false => rfl
  | true =>
    simp only [isSpace, Bool.or_eq_true, Bool.and_eq_true, decide_eq_true_eq] at hs
    omega

theorem hex_digit_not_blank (c : Char) (h : isHexDigit c = true) : isBlankChar c = false := by
  have hr := hex_digit_range c h
  cases hs : isBlankChar c with
  | false => rfl
  | true =>
    simp only [isBlankChar, Bool.or_eq_true, decide_eq_true_eq] at hs
    omega

/-! ## ResultDecoder: the lines of an artifact and the strings `fgets` delivers -/

theorem takeWhile_append_stop {α : Type} (p : α → Bool) (a : α) (hp : p a = false) :
    ∀ l : List α, (l ++ [a]).takeWhile p = l.takeWhile p := by
  intro l
  induction l with
  | nil => simp [List.takeWhile, hp]
  | cons b l ih =>
    rw [List.cons_append, List.takeWhile_cons, List.takeWhile_cons, ih]

theorem dropWhile_isSpace_newline (s : List Char) :
    (s ++ ['\n']).dropWhile isSpace
      = if (s.dropWhile isSpace).isEmpty then [] else s.dropWhile isSpace ++ ['\n'] := by
  induction s with
  | nil => rfl
  | cons c s ih =>
    rw [List.cons_append, List.dropWhile_cons, List.dropWhile_cons]
    split
    · exact ih
    · simp

theorem scan_digits_newline (t : List Char) :
    (scan_digits (t ++ ['\n'])).takeWhile isHexDigit = (scan_digits t).takeWhile isHexDigit := by
  have hnl : isHexDigit '\n' = false := by decide
  match t with
  | [] => rfl
  | [a] =>
    have h : scan_digits ([a] ++ ['\n']) = [a] ++ ['\n'] := by
      simp [scan_digits]
    rw [h, takeWhile_append_stop _ _ hnl]
    rfl
  | a :: b :: r =>
    have h1 : scan_digits (a :: b :: r ++ ['\n'])
        = if a.toNat = 48 ∧ (b.toNat = 120 ∨ b.toNat = 88) then (a :: r) ++ ['\n']
          else (a :: b :: r) ++ ['\n'] := rfl
    have h2 : scan_digits (a :: b :: r)
        = if a.toNat = 48 ∧ (b.toNat = 120 ∨ b.toNat = 88) then a :: r else a :: b :: r := rfl
    rw [h1, h2]
    split
    · exact takeWhile_append_stop _ _ hnl _
    · exact takeWhile_append_stop _ _ hnl _

/-- The newline that ends a line makes no difference to `%x`. -/
theorem sscanf_x_newline (s : List Char) : sscanf_x (s ++ ['\n']) = sscanf_x s := by
  unfold sscanf_x
  simp only []
  rw [dropWhile_isSpace_newline]
  cases hs : s.dropWhile isSpace with
  | nil => rfl
  | cons c r =>
    have hsign : scan_sign (c :: r ++ ['\n']) = scan_sign (c :: r) ++ ['\n'] := by
      simp only [scan_sign, List.cons_append]
      split <;> rfl
    have hminus : scan_minus (c :: r ++ ['\n']) = scan_minus (c :: r) := rfl
    simp only [List.isEmpty_cons, Bool.false_eq_true, if_false]
    rw [hsign, hminus, scan_digits_newline]

theorem c_string_newline (l : List Char) :
    c_string (l ++ ['\n']) = c_string l ∨ c_string (l ++ ['\n']) = c_string l ++ ['\n'] := by
  unfold c_string
  induction l with
  | nil => right; rfl
  | cons c l ih =>
    rw [List.cons_append, List.takeWhile_cons, List.takeWhile_cons]
    split
    · rcases ih with h | h
      · left; rw [h]
      · right; rw [h]; rfl
    · left; rfl

theorem is_comment_newline (l : List Char) : is_comment (l ++ ['\n']) = is_comment l := by
  match l with
  | [] => rfl
  | [a] =>
    have h : ('\n' : Char).toNat ≠ 47 := by decide
    simp [is_comment]
  | a :: b :: r => rfl

theorem is_blank_newline (l : List Char) : is_blank (l ++ ['\n']) = is_blank l := by
  unfold is_blank
  rcases c_string_newline l with h | h
  · rw [h]
  · rw [h, List.all_append]
    simp [show isBlankChar '\n' = true by decide]

theorem sscanf_x_c_string_newline (l : List Char) :
    sscanf_x (c_string (l ++ ['\n'])) = sscanf_x (c_string l) := by
  rcases c_string_newline l with h | h
  · rw [h]
  · rw [h, sscanf_x_newline]

/-- A line has the same value with and without the newline that ends it. -/
theorem line_value_newline (l : List Char) : line_value (l ++ ['\n']) = line_value l := by
  unfold line_value
  rw [is_comment_newline, is_blank_newline, sscanf_x_c_string_newline]

/-- What `fgets` delivers for a last line that no newline ends and that fits
the buffer: the line itself, in one call, or nothing when it is empty. -/
theorem fgets_lines_unterminated (cap : Nat) (l : List Char) (hnl : ∀ c ∈ l, c.toNat ≠ 10) :
    ∀ cur, cur.length + l.length ≤ cap →
      fgets_lines cap cur l = if (cur ++ l).isEmpty then [] else [cur ++ l] := by
  induction l with
  | nil =>
    intro cur _
    rw [fgets_lines_nil, List.append_nil]
  | cons c l ih =>
    intro cur hlen
    have hc : c.toNat ≠ 10 := hnl c (List.mem_cons_self _ _)
    simp only [List.length_cons] at hlen
    rw [fgets_lines_cons]
    by_cases hcap : cur.length + 1 = cap
    · have hl : l = [] := List.length_eq_zero.1 (by omega)
      subst hl
      rw [if_pos (Or.inr hcap), fgets_lines_nil]
      simp
    · rw [if_neg (by simp [hc, hcap]),
        ih (fun c hc => hnl c (List.mem_cons_of_mem _ hc)) (cur ++ [c])
          (by simp only [List.length_append, List.length_cons, List.length_nil]; omega)]
      simp

/-- What `fgets` delivers for a line of at most 255 characters: the line with
its newline, or, when the line has exactly 255 characters, the line and then
its newline. -/
theorem fgets_lines_line (l : Line) (hnl : ∀ c ∈ l, c.toNat ≠ 10) (hlen : l.length ≤ 255) :
    fgets_lines 255 [] (l ++ ['\n'])
      = if l.length < 255 then [l ++ ['\n']] else [l, ['\n']] := by
  by_cases h : l.length < 255
  · rw [if_pos h, fgets_lines_short 255 l hnl [] (by simpa using h)]
    simp
  · have hne : l ≠ [] := by
      intro he
      rw [he] at h
      exact h (by decide)
    rw [if_neg h, fgets_lines_exact 255 l hnl [] hne (by simp only [List.length_nil]; omega)]
    simp

theorem numeric_values_fgets_line (l : Line) (hnl : ∀ c ∈ l, c.toNat ≠ 10)
    (hlen : l.length ≤ 255) :
    numeric_values (fgets_lines 255 [] (l ++ ['\n'])) = numeric_values [l] := by
  rw [fgets_lines_line l hnl hlen]
  have hnlv : line_value ['\n'] = none := by decide
  split
  · rw [numeric_values_cons, numeric_values_cons, line_value_newline]
  · rw [numeric_values_cons, numeric_values_cons, numeric_values_cons, hnlv]

theorem numeric_values_fgets_tail (tail : Line) (hnl : ∀ c ∈ tail, c.toNat ≠ 10)
    (hlen : tail.length ≤ 255) :
    numeric_values (fgets_lines 255 [] tail) = numeric_values [tail] := by
  rw [fgets_lines_unterminated 255 tail hnl [] (by simpa using hlen), List.nil_append]
  cases tail with
  | nil => decide
  | cons c r => rfl

/-- For an artifact whose lines have at most 255 characters and all end in a
newline, the values that `read_hw_output` finds in the strings `fgets`
delivers are the values of the lines of the artifact, in file order. -/
theorem numeric_values_fgets_terminated (ls : List Line)
    (hls : ∀ l ∈ ls, l.length ≤ 255 ∧ ∀ c ∈ l, c.toNat ≠ 10) :
    numeric_values (fgets_lines 255 [] (artifact_text ls)) = numeric_values ls := by
  induction ls with
  | nil => rfl
  | cons l ls ih =>
    have hl := hls l (List.mem_cons_self _ _)
    rw [fgets_lines_artifact_cons, numeric_values_append,
      numeric_values_fgets_line l hl.2 hl.1,
      ih (fun l hl => hls l (List.mem_cons_of_mem _ hl)), ← numeric_values_append]
    rfl

/-- The same for an artifact with a last line that no newline ends: `ls` are
the lines that a newline ends and `tail` is what follows the last newline. -/
theorem numeric_values_fgets_artifact (ls : List Line) (tail : Line)
    (hls : ∀ l ∈ ls, l.length ≤ 255 ∧ ∀ c ∈ l, c.toNat ≠ 10)
    (htail : tail.length ≤ 255 ∧ ∀ c ∈ tail, c.toNat ≠ 10) :
    numeric_values (fgets_lines 255 [] (artifact_text ls ++ tail))
      = numeric_values (ls ++ [tail]) := by
  rw [fgets_lines_artifact_append, numeric_values_append, numeric_values_append,
    numeric_values_fgets_tail tail htail.2 htail.1, numeric_values_fgets_terminated ls hls]

/-- The string in which `fgets` delivers a line of at most 255 characters. -/
theorem fgets_lines_line_mem (ls : List Line) (tail : Line)
    (hls : ∀ l ∈ ls, l.length ≤ 255 ∧ ∀ c ∈ l, c.toNat ≠ 10)
    (htail : tail.length ≤ 255 ∧ ∀ c ∈ tail, c.toNat ≠ 10) :
    (∀ l ∈ ls, l ++ ['\n'] ∈ fgets_lines 255 [] (artifact_text ls ++ tail) ∨
      l ∈ fgets_lines 255 [] (artifact_text ls ++ tail)) ∧
    (tail ≠ [] → tail ∈ fgets_lines 255 [] (artifact_text ls ++ tail)) := by
  rw [fgets_lines_artifact_append]
  constructor
  · intro l hl
    have hin : l ++ ['\n'] ∈ fgets_lines 255 [] (artifact_text ls) ∨
        l ∈ fgets_lines 255 [] (artifact_text ls) := by
      induction ls with
      | nil => simp at hl
      | cons l0 ls ih =>
        rw [fgets_lines_artifact_cons]
        rcases List.mem_cons.1 hl with h | h
        · subst h
          have h0 := hls l (List.mem_cons_self _ _)
          rw [fgets_lines_line l h0.2 h0.1]
          split
          · left; simp
          · right; simp
        · rcases ih (fun l hl => hls l (List.mem_cons_of_mem _ hl)) h with h1 | h1
          · left; exact List.mem_append_right _ h1
          · right; exact List.mem_append_right _ h1
    rcases hin with h | h
    · left; exact List.mem_append_left _ h
    · right; exact List.mem_append_left _ h
  · intro hne
    apply List.mem_append_right
    rw [fgets_lines_unterminated 255 tail htail.2 [] (by simpa using htail.1), List.nil_append]
    cases tail with
    | nil => exact absurd rfl hne
    | cons c r => simp

theorem line_value_of_unparsable (l : List Char) (h : sscanf_x (c_string l) = none) :
    line_value l = none := by
  unfold line_value
  split
  · rfl
  · rw [h]; rfl

theorem read_loop_warnings (lines : List (List Char)) :
    ∀ (st : ReadState) (w : Warning), w ∈ (read_loop lines st).warnings →
      w ∈ st.warnings ∨ ∃ l, w = Warning.unparsable l := by
  induction lines with
  | nil => intro st w hw; exact Or.inl hw
  | cons l rest ih =>
    intro st w hw
    by_cases hi : st.i < HW_ARRAY_SIZE
    · by_cases hskip : is_comment l = true ∨ is_blank l = true
      · rw [read_loop_cons_skip l rest st hi hskip] at hw
        exact ih st w hw
      · have hc : is_comment l = false := by
          cases h : is_comment l <;> simp_all
        have hb : is_blank l = false := by
          cases h : is_blank l <;> simp_all
        cases hu : sscanf_x (c_string l) with
        | none =>
          rw [read_loop_cons_none l rest st hi hc hb hu] at hw
          rcases ih _ w hw with h | h
          · simp only [List.mem_append, List.mem_singleton] at h
            rcases h with h | h
            · exact Or.inl h
            · exact Or.inr ⟨l, h⟩
          · exact Or.inr h
        | some u =>
          rw [read_loop_cons_some l rest st hi hc hb u hu] at hw
          have h := ih _ w hw
          exact h
    · rw [read_loop_full _ _ hi] at hw
      exact Or.inl hw

/-- The buffer and the slot counter that `read_hw_output` returns for an
artifact whose lines have at most 255 characters, in terms of the values of
its lines. -/
theorem read_hw_output_lines (ls : List Line) (tail : Line) (results_buffer : List Int)
    (hlen : results_buffer.length = HW_ARRAY_SIZE)
    (hls : ∀ l ∈ ls, l.length ≤ 255 ∧ ∀ c ∈ l, c.toNat ≠ 10)
    (htail : tail.length ≤ 255 ∧ ∀ c ∈ tail, c.toNat ≠ 10) :
    ∃ st, read_hw_output (some (artifact_text ls ++ tail)) results_buffer = Except.ok st ∧
      st.i = min (numeric_values (ls ++ [tail])).length HW_ARRAY_SIZE ∧
      st.results_buffer = (List.range HW_ARRAY_SIZE).map fun k =>
        ((numeric_values (ls ++ [tail]))[k]?).getD 0 := by
  obtain ⟨st, hst, hi, hbuf⟩ :=
    read_hw_output_buffer (artifact_text ls ++ tail) results_buffer hlen
  rw [numeric_values_fgets_artifact ls tail hls htail] at hi hbuf
  exact ⟨st, hst, hi, hbuf⟩

/-- The shortfall warning is printed exactly when the loop ends with fewer
than `HW_ARRAY_SIZE` slots written, and then with the number of slots
written. -/
theorem shortfall_warning_printed (content : List Char) (results_buffer : List Int)
    (st : ReadState)
    (hst : read_hw_output (some content) results_buffer = Except.ok st) :
    (st.i < HW_ARRAY_SIZE → Warning.shortfall st.i ∈ st.warnings) ∧
    (HW_ARRAY_SIZE ≤ st.i → ∀ c, Warning.shortfall c ∉ st.warnings) := by
  rw [read_hw_output_some] at hst
  by_cases hlt : (read_loop (fgets_lines 255 [] content) ⟨0, results_buffer, []⟩).i
      < HW_ARRAY_SIZE
  · rw [if_pos hlt] at hst
    have hst1 := Except.ok.inj hst
    rw [← hst1]
    constructor
    · intro _
      simp
    · intro hge
      simp only [] at hge
      omega
  · rw [if_neg hlt] at hst
    have hst1 := Except.ok.inj hst
    rw [← hst1]
    constructor
    · intro h
      exact absurd h hlt
    · intro _ c hc
      rcases read_loop_warnings _ _ _ hc with h | ⟨l, h⟩
      · simp at h
      · cases h

/-- C6, as amended: for an artifact whose lines have at most 255 characters
(`ls` are the lines that a newline ends, `tail` is what follows the last
newline), `read_hw_output` returns a buffer of exactly `HW_ARRAY_SIZE` values
in which slot `k` holds the value of the `k`-th line that is neither a
comment, nor blank, nor unparsable; removing a line that fails to parse
changes neither the buffer nor the number of slots used; and once the first
lines have supplied `HW_ARRAY_SIZE` values, the buffer is the same whatever
text, with lines of any length, follows them. -/
theorem read_hw_output_fills_slots (ls : List Line) (tail : Line) (results_buffer : List Int)
    (hlen : results_buffer.length = HW_ARRAY_SIZE)
    (hls : ∀ l ∈ ls, l.length ≤ 255 ∧ ∀ c ∈ l, c.toNat ≠ 10)
    (htail : tail.length ≤ 255 ∧ ∀ c ∈ tail, c.toNat ≠ 10) :
    ∃ st, read_hw_output (some (artifact_text ls ++ tail)) results_buffer = Except.ok st ∧
      st.results_buffer.length = HW_ARRAY_SIZE ∧
      (∀ (k : Nat) (v : Int), k < HW_ARRAY_SIZE →
        (numeric_values (ls ++ [tail]))[k]? = some v → st.results_buffer[k]? = some v) ∧
      (∀ (before after : List Line) (l : Line), ls = before ++ l :: after →
        sscanf_x (c_string l) = none →
        ∃ st0, read_hw_output (some (artifact_text (before ++ after) ++ tail)) results_buffer
            = Except.ok st0 ∧
          st0.results_buffer = st.results_buffer ∧ st0.i = st.i) ∧
      (∀ (first later : List Line), ls = first ++ later →
        HW_ARRAY_SIZE ≤ (numeric_values first).length →
        ∀ other : List Char,
          ∃ st0, read_hw_output (some (artifact_text first ++ other)) results_buffer
              = Except.ok st0 ∧
            st0.results_buffer = st.results_buffer) := by
  obtain ⟨st, hst, hi, hbuf⟩ := read_hw_output_lines ls tail results_buffer hlen hls htail
  refine ⟨st, hst, by rw [hbuf]; simp, ?_, ?_, ?_⟩
  · intro k v hk hv
    rw [hbuf, List.getElem?_map, List.getElem?_range hk, Option.map_some', hv]
    rfl
  · intro before after l hsplit hfail
    have hls0 : ∀ l ∈ before ++ after, l.length ≤ 255 ∧ ∀ c ∈ l, c.toNat ≠ 10 := by
      intro l0 hl0
      apply hls l0
      rw [hsplit]
      rcases List.mem_append.1 hl0 with h | h
      · exact List.mem_append_left _ h
      · exact List.mem_append_right _ (List.mem_cons_of_mem _ h)
    obtain ⟨st0, hst0, hi0, hbuf0⟩ :=
      read_hw_output_lines (before ++ after) tail results_buffer hlen hls0 htail
    have hvals : numeric_values (ls ++ [tail]) = numeric_values (before ++ after ++ [tail]) := by
      rw [hsplit]
      simp only [List.append_assoc, List.cons_append, numeric_values_append]
      rw [numeric_values_cons, line_value_of_unparsable l hfail, numeric_values_append]
    refine ⟨st0, hst0, ?_, ?_⟩
    · rw [hbuf0, hbuf, hvals]
    · rw [hi0, hi, hvals]
  · intro first later hsplit hfull other
    have hfirst : ∀ l ∈ first, l.length ≤ 255 ∧ ∀ c ∈ l, c.toNat ≠ 10 := by
      intro l0 hl0
      apply hls l0
      rw [hsplit]
      exact List.mem_append_left _ hl0
    obtain ⟨st0, hst0, _, hbuf0⟩ :=
      read_hw_output_buffer (artifact_text first ++ other) results_buffer hlen
    refine ⟨st0, hst0, ?_⟩
    rw [hbuf0, hbuf, fgets_lines_artifact_append, numeric_values_append,
      numeric_values_fgets_terminated first hfirst, hsplit, List.append_assoc,
      numeric_values_append]
    apply List.map_congr_left
    intro k hk
    have hk8 : k < HW_ARRAY_SIZE := List.mem_range.1 hk
    rw [List.getElem?_append_left (lt_of_lt_of_le hk8 hfull),
      List.getElem?_append_left (lt_of_lt_of_le hk8 hfull)]

theorem read_hw_output_fills_slots_witness :
    ∃ st, read_hw_output (some (artifact_text [['/', '/', 'a'], ['1', 'f'], ['z'], ['-', '1']]
        ++ ['2'])) [7, 7, 7, 7, 7, 7, 7, 7] = Except.ok st ∧
      st.results_buffer.length = HW_ARRAY_SIZE ∧
      (∀ (k : Nat) (v : Int), k < HW_ARRAY_SIZE →
        (numeric_values ([['/', '/', 'a'], ['1', 'f'], ['z'], ['-', '1']] ++ [['2']]))[k]?
          = some v → st.results_buffer[k]? = some v) ∧
      (∀ (before after : List Line) (l : Line),
        [['/', '/', 'a'], ['1', 'f'], ['z'], ['-', '1']] = before ++ l :: after →
        sscanf_x (c_string l) = none →
        ∃ st0, read_hw_output (some (artifact_text (before ++ after) ++ ['2']))
            [7, 7, 7, 7, 7, 7, 7, 7] = Except.ok st0 ∧
          st0.results_buffer = st.results_buffer ∧ st0.i = st.i) ∧
      (∀ (first later : List Line),
        [['/', '/', 'a'], ['1', 'f'], ['z'], ['-', '1']] = first ++ later →
        HW_ARRAY_SIZE ≤ (numeric_values first).length →
        ∀ other : List Char,
          ∃ st0, read_hw_output (some (artifact_text first ++ other)) [7, 7, 7, 7, 7, 7, 7, 7]
              = Except.ok st0 ∧
            st0.results_buffer = st.results_buffer) :=
  read_hw_output_fills_slots [['/', '/', 'a'], ['1', 'f'], ['z'], ['-', '1']] ['2']
    [7, 7, 7, 7, 7, 7, 7, 7] (by decide) (by decide) (by decide)

/-- C6 fails as stated: in the artifact with the two lines `zz...zf` (255
times `z`, then `f`) and `1`, the first line does not parse as hexadecimal,
so the only numeric line is `1`; yet slot 0 holds 15, read from the last
character of the first line, and the value of the line `1` is in slot 1. -/
theorem read_hw_output_long_line_counterexample :
    sscanf_x (c_string (List.replicate 255 'z' ++ ['f'])) = none ∧
    numeric_values [List.replicate 255 'z' ++ ['f'], ['1']] = [1] ∧
    ∃ st, read_hw_output (some (artifact_text [List.replicate 255 'z' ++ ['f'], ['1']]))
        [7, 7, 7, 7, 7, 7, 7, 7] = Except.ok st ∧
      st.results_buffer = [15, 1, 0, 0, 0, 0, 0, 0] ∧ st.i = 2 :=
  ⟨by decide, by decide, _, rfl, by decide, by decide⟩

/-! ## ResultDecoder: lines longer than the line buffer -/

theorem scan_digits_head (h : Char) (X : List Char) : ∃ Y, scan_digits (h :: X) = h :: Y := by
  cases X with
  | nil => exact ⟨[], rfl⟩
  | cons b r =>
    have h2 : scan_digits (h :: b :: r)
        = if h.toNat = 48 ∧ (b.toNat = 120 ∨ b.toNat = 88) then h :: r else h :: b :: r := rfl
    rw [h2]
    split
    · exact ⟨r, rfl⟩
    · exact ⟨b :: r, rfl⟩

/-- After white space and at most one sign, a hexadecimal digit is enough for
`%x` to succeed. -/
theorem sscanf_x_of_lead (ws sg : List Char) (h : Char) (X : List Char)
    (hws : ∀ c ∈ ws, isSpace c = true) (hsg1 : sg.length ≤ 1)
    (hsg : ∀ c ∈ sg, c.toNat = 45 ∨ c.toNat = 43) (hh : isHexDigit h = true) :
    sscanf_x (ws ++ sg ++ h :: X) ≠ none := by
  have hr := hex_digit_range h hh
  have hsp : ¬ (isSpace h = true) := by simp [hex_digit_not_space h hh]
  have h45 : h.toNat ≠ 45 := by omega
  have h43 : h.toNat ≠ 43 := by omega
  obtain ⟨Y, hY⟩ := scan_digits_head h X
  have hsign : scan_sign (h :: X) = h :: X := by simp [scan_sign, h45, h43]
  have hds : ((scan_digits (h :: X)).takeWhile isHexDigit).isEmpty = false := by
    rw [hY, List.takeWhile_cons, if_pos hh]
    rfl
  unfold sscanf_x
  simp only []
  rw [List.append_assoc, List.dropWhile_append_of_pos hws]
  match sg, hsg1, hsg with
  | [], _, _ =>
    rw [List.nil_append, List.dropWhile_cons_of_neg hsp, hsign, hds]
    simp
  | [s], _, hsg =>
    have hs := hsg s (List.mem_singleton.2 rfl)
    have hsps : ¬ (isSpace s = true) := by
      simp only [isSpace, Bool.or_eq_true, Bool.and_eq_true, decide_eq_true_eq]
      omega
    have hsign2 : scan_sign (s :: h :: X) = h :: X := by
      simp only [scan_sign]
      rw [if_pos hs]
    rw [List.singleton_append, List.dropWhile_cons_of_neg hsps, hsign2, hds]
    simp
  | _ :: _ :: _, hlen, _ => simp at hlen

theorem scan_digits_takeWhile_ne (r : List Char)
    (hne : ((scan_digits r).takeWhile isHexDigit).isEmpty = false) :
    ∃ h rest, r = h :: rest ∧ isHexDigit h = true := by
  cases r with
  | nil => simp [scan_digits] at hne
  | cons h rest =>
    obtain ⟨Y, hY⟩ := scan_digits_head h rest
    rw [hY, List.takeWhile_cons] at hne
    by_cases hh : isHexDigit h = true
    · exact ⟨h, rest, rfl, hh⟩
    · rw [if_neg hh] at hne
      simp at hne

/-- A string that `%x` reads consists of white space, at most one sign, and a
hexadecimal digit followed by anything. -/
theorem sscanf_x_lead (s : List Char) (hs : sscanf_x s ≠ none) :
    ∃ ws sg h rest, s = ws ++ sg ++ h :: rest ∧ (∀ c ∈ ws, isSpace c = true) ∧
      sg.length ≤ 1 ∧ (∀ c ∈ sg, c.toNat = 45 ∨ c.toNat = 43) ∧ isHexDigit h = true := by
  have hsplit : s = s.takeWhile isSpace ++ s.dropWhile isSpace :=
    (List.takeWhile_append_dropWhile isSpace s).symm
  have hws : ∀ c ∈ s.takeWhile isSpace, isSpace c = true := fun c hc =>
    List.mem_takeWhile_imp hc
  unfold sscanf_x at hs
  simp only [] at hs
  have hne : ((scan_digits (scan_sign (s.dropWhile isSpace))).takeWhile isHexDigit).isEmpty
      = false := by
    cases hb : ((scan_digits (scan_sign (s.dropWhile isSpace))).takeWhile isHexDigit).isEmpty with
    | false => rfl
    | true => rw [hb] at hs; simp at hs
  obtain ⟨h, rest, hr, hh⟩ := scan_digits_takeWhile_ne _ hne
  cases hd : s.dropWhile isSpace with
  | nil =>
    rw [hd] at hr
    simp [scan_sign] at hr
  | cons c r =>
    rw [hd] at hr
    by_cases hc : c.toNat = 45 ∨ c.toNat = 43
    · have hsign : scan_sign (c :: r) = r := by
        simp only [scan_sign]
        rw [if_pos hc]
      rw [hsign] at hr
      refine ⟨s.takeWhile isSpace, [c], h, rest, ?_, hws, by simp, ?_, hh⟩
      · rw [List.append_assoc, List.singleton_append, ← hr, ← hd]
        exact hsplit
      · intro c0 hc0
        rw [List.mem_singleton.1 hc0]
        exact hc
    · have hsign : scan_sign (c :: r) = c :: r := by
        simp only [scan_sign]
        rw [if_neg hc]
      rw [hsign] at hr
      refine ⟨s.takeWhile isSpace, [], h, rest, ?_, hws, by simp, by simp, hh⟩
      rw [List.append_nil, ← hr, ← hd]
      exact hsplit

/-- What is left of white space and at most one sign when characters are taken
away at the front has the same form. -/
theorem lead_suffix (ws sg t : List Char) (hws : ∀ c ∈ ws, isSpace c = true)
    (hsg1 : sg.length ≤ 1) (hsg : ∀ c ∈ sg, c.toNat = 45 ∨ c.toNat = 43)
    (ht : t <:+ ws ++ sg) :
    ∃ ws0 sg0, t = ws0 ++ sg0 ∧ (∀ c ∈ ws0, isSpace c = true) ∧ sg0.length ≤ 1 ∧
      ∀ c ∈ sg0, c.toNat = 45 ∨ c.toNat = 43 := by
  obtain ⟨u, hu⟩ := ht
  rcases List.append_eq_append_iff.1 hu with ⟨a, h1, h2⟩ | ⟨b, h1, h2⟩
  · refine ⟨a, sg, h2, ?_, hsg1, hsg⟩
    intro c hc
    apply hws c
    rw [h1]
    exact List.mem_append_right _ hc
  · refine ⟨[], t, rfl, by simp, ?_, ?_⟩
    · have hl := congrArg List.length h2
      simp only [List.length_append] at hl
      omega
    · intro c hc
      apply hsg c
      rw [h2]
      exact List.mem_append_right _ hc

/-- A string made of white space, at most one sign, then a hexadecimal digit
and anything else carries a value. -/
theorem line_value_of_lead (ws sg : List Char) (h : Char) (X : List Char)
    (hws : ∀ c ∈ ws, isSpace c = true) (hsg1 : sg.length ≤ 1)
    (hsg : ∀ c ∈ sg, c.toNat = 45 ∨ c.toNat = 43) (hh : isHexDigit h = true) :
    line_value (ws ++ sg ++ h :: X) ≠ none := by
  have hr := hex_digit_range h hh
  have hlead : ∀ c ∈ ws ++ sg, c.toNat ≠ 0 ∧ c.toNat ≠ 47 := by
    intro c hc
    rcases List.mem_append.1 hc with h1 | h1
    · have := hws c h1
      simp only [isSpace, Bool.or_eq_true, Bool.and_eq_true, decide_eq_true_eq] at this
      omega
    · have := hsg c h1
      omega
  have hcs : c_string (ws ++ sg ++ h :: X) = ws ++ sg ++ h :: c_string X := by
    unfold c_string
    rw [List.takeWhile_append_of_pos (fun c hc => by simpa using (hlead c hc).1),
      List.takeWhile_cons, if_pos (by simp; omega)]
  have hcom : is_comment (ws ++ sg ++ h :: X) = false := by
    cases hl : ws ++ sg with
    | nil =>
      cases X with
      | nil => rfl
      | cons b r =>
        have h47 : h.toNat ≠ 47 := by omega
        simp [is_comment, h47]
    | cons a r =>
      have h47 : a.toNat ≠ 47 := (hlead a (by rw [hl]; exact List.mem_cons_self _ _)).2
      cases r with
      | nil => simp [is_comment, h47]
      | cons b r2 => simp [is_comment, h47]
  have hbl : is_blank (ws ++ sg ++ h :: X) = false := by
    unfold is_blank
    rw [hcs, List.all_append, List.all_cons, hex_digit_not_blank h hh]
    simp
  have hsc := sscanf_x_of_lead ws sg h (c_string X) hws hsg1 hsg hh
  unfold line_value
  rw [hcom, hbl, hcs]
  cases hv : sscanf_x (ws ++ sg ++ h :: c_string X) with
  | none => exact absurd hv hsc
  | some u => simp

/-- A line that carries a value has a hexadecimal digit such that every
string that starts somewhere before this digit and contains it carries a
value too. -/
theorem line_value_digit (l : List Char) (hv : line_value l ≠ none) :
    ∃ pre h post, l = pre ++ h :: post ∧
      ∀ t, t <:+ pre → ∀ X, line_value (t ++ h :: X) ≠ none := by
  have hs : sscanf_x (c_string l) ≠ none := by
    intro hnone
    exact hv (line_value_of_unparsable l hnone)
  obtain ⟨ws, sg, h, rest, hl, hws, hsg1, hsg, hh⟩ := sscanf_x_lead _ hs
  have hsplit : l = c_string l ++ l.dropWhile fun c => c.toNat != 0 :=
    (List.takeWhile_append_dropWhile _ l).symm
  refine ⟨ws ++ sg, h, rest ++ l.dropWhile fun c => c.toNat != 0, ?_, ?_⟩
  · have h2 : ws ++ sg ++ h :: (rest ++ l.dropWhile fun c => c.toNat != 0)
        = (ws ++ sg ++ h :: rest) ++ l.dropWhile fun c => c.toNat != 0 := by simp
    rw [h2, ← hl]
    exact hsplit
  · intro t ht X
    obtain ⟨ws0, sg0, ht0, hws0, hsg10, hsg0⟩ := lead_suffix ws sg t hws hsg1 hsg ht
    rw [ht0]
    exact line_value_of_lead ws0 sg0 h X hws0 hsg10 hsg0 hh

/-- The first string `fgets` delivers starts with what the call in progress
has already taken. -/
theorem fgets_lines_first (cap : Nat) (s : List Char) :
    ∀ cur, cur ≠ [] → ∃ x rest, fgets_lines cap cur s = (cur ++ x) :: rest := by
  induction s with
  | nil =>
    intro cur hcur
    refine ⟨[], [], ?_⟩
    rw [fgets_lines_nil]
    cases cur with
    | nil => exact absurd rfl hcur
    | cons c r => simp
  | cons c s ih =>
    intro cur hcur
    rw [fgets_lines_cons]
    split
    · exact ⟨[c], _, rfl⟩
    · obtain ⟨x, rest, hx⟩ := ih (cur ++ [c]) (by simp)
      refine ⟨c :: x, rest, ?_⟩
      rw [hx]
      simp

/-- A character of the text is delivered by `fgets` in a string that starts
at or after the start of the call in progress. -/
theorem fgets_lines_holds (cap : Nat) (h : Char) (post : List Char) (pre : List Char) :
    ∀ cur, ∃ p ∈ fgets_lines cap cur (pre ++ h :: post), ∃ t X, p = t ++ h :: X ∧
      t <:+ cur ++ pre := by
  induction pre with
  | nil =>
    intro cur
    rw [List.nil_append, fgets_lines_cons]
    split
    · exact ⟨cur ++ [h], List.mem_cons_self _ _, cur, [], by simp, by simp⟩
    · obtain ⟨x, rest, hx⟩ := fgets_lines_first cap post (cur ++ [h]) (by simp)
      rw [hx]
      exact ⟨cur ++ [h] ++ x, List.mem_cons_self _ _, cur, x, by simp, by simp⟩
  | cons c pre ih =>
    intro cur
    rw [List.cons_append, fgets_lines_cons]
    split
    · obtain ⟨p, hp, t, X, hpe, ht⟩ := ih []
      refine ⟨p, List.mem_cons_of_mem _ hp, t, X, hpe, ?_⟩
      rw [List.nil_append] at ht
      refine ht.trans ?_
      have h2 : cur ++ c :: pre = (cur ++ [c]) ++ pre := by simp
      rw [h2]
      exact List.suffix_append _ _
    · obtain ⟨p, hp, t, X, hpe, ht⟩ := ih (cur ++ [c])
      refine ⟨p, hp, t, X, hpe, ?_⟩
      have h2 : cur ++ c :: pre = (cur ++ [c]) ++ pre := by simp
      rw [h2]
      exact ht

/-- When a line carries a value, so does one of the strings in which `fgets`
delivers it, whatever its length. -/
theorem numeric_values_fgets_pos (l s : List Char) (hv : line_value l ≠ none) :
    0 < (numeric_values (fgets_lines 255 [] (l ++ s))).length := by
  obtain ⟨pre, h, post, hl, hgood⟩ := line_value_digit l hv
  obtain ⟨p, hp, t, X, hpe, ht⟩ := fgets_lines_holds 255 h (post ++ s) pre []
  have hl2 : l ++ s = pre ++ h :: (post ++ s) := by rw [hl]; simp
  rw [hl2]
  rw [List.nil_append] at ht
  have hpv : line_value p ≠ none := by
    rw [hpe]
    exact hgood t ht X
  cases hval : line_value p with
  | none => exact absurd hval hpv
  | some v =>
    have hmem : v ∈ numeric_values (fgets_lines 255 [] (pre ++ h :: (post ++ s))) := by
      unfold numeric_values
      exact List.mem_filterMap.2 ⟨p, hp, hval⟩
    exact List.length_pos_of_mem hmem

theorem numeric_values_fgets_line_le (l s : List Char) :
    (numeric_values [l]).length ≤ (numeric_values (fgets_lines 255 [] (l ++ s))).length := by
  cases hv : line_value l with
  | none =>
    rw [numeric_values_cons, hv]
    exact Nat.zero_le _
  | some v =>
    have hpos := numeric_values_fgets_pos l s (by rw [hv]; exact Option.some_ne_none _)
    rw [numeric_values_cons, hv]
    exact hpos

/-- An artifact, with lines of any length, gives `read_hw_output` at least as
many values as it has numeric lines. -/
theorem numeric_values_fgets_le (ls : List Line) (tail : Line) :
    (numeric_values (ls ++ [tail])).length
      ≤ (numeric_values (fgets_lines 255 [] (artifact_text ls ++ tail))).length := by
  rw [fgets_lines_artifact_append, numeric_values_append, numeric_values_append,
    List.length_append, List.length_append]
  have htail := numeric_values_fgets_line_le tail []
  rw [List.append_nil] at htail
  have hls : (numeric_values ls).length
      ≤ (numeric_values (fgets_lines 255 [] (artifact_text ls))).length := by
    induction ls with
    | nil => exact Nat.le_refl _
    | cons l ls ih =>
      have h1 := numeric_values_fgets_line_le l ['\n']
      have h2 : numeric_values (l :: ls) = numeric_values [l] ++ numeric_values ls := by
        rw [← numeric_values_append]
        rfl
      rw [fgets_lines_artifact_cons, numeric_values_append, h2, List.length_append,
        List.length_append]
      omega
  omega

/-- Every text is an artifact: lines that a newline ends, followed by a last
line that no newline ends (empty when the text ends in a newline). -/
theorem artifact_lines_exist (content : List Char) :
    ∃ (ls : List Line) (tail : Line), content = artifact_text ls ++ tail ∧
      (∀ l ∈ ls, ∀ c ∈ l, c.toNat ≠ 10) ∧ ∀ c ∈ tail, c.toNat ≠ 10 := by
  induction content with
  | nil => exact ⟨[], [], rfl, by simp, by simp⟩
  | cons c s ih =>
    obtain ⟨ls, tail, hs, hls, htail⟩ := ih
    by_cases hc : c.toNat = 10
    · have hc2 : c = '\n' := by
        rw [← Char.ofNat_toNat c, hc]
      refine ⟨[] :: ls, tail, ?_, ?_, htail⟩
      · rw [hs, hc2]
        simp [artifact_text]
      · intro l hl
        rcases List.mem_cons.1 hl with h | h
        · rw [h]; simp
        · exact hls l h
    · cases ls with
      | nil =>
        refine ⟨[], c :: tail, ?_, by simp, ?_⟩
        · rw [hs]
          simp [artifact_text]
        · intro c0 hc0
          rcases List.mem_cons.1 hc0 with h | h
          · rw [h]; exact hc
          · exact htail c0 h
      | cons l ls0 =>
        refine ⟨(c :: l) :: ls0, tail, ?_, ?_, htail⟩
        · rw [hs]
          simp [artifact_text]
        · intro l0 hl0
          rcases List.mem_cons.1 hl0 with h | h
          · rw [h]
            intro c0 hc0
            rcases List.mem_cons.1 hc0 with h0 | h0
            · rw [h0]; exact hc
            · exact hls l (List.mem_cons_self _ _) c0 h0
          · exact hls l0 (List.mem_cons_of_mem _ h)

/-- C8, as amended: an artifact that can be opened is always decoded without
a fatal error (`ls` are its lines that a newline ends, `tail` is what follows
the last newline). When each line has at most 255 characters and `k <
HW_ARRAY_SIZE` of them are numeric, the buffer holds their `k` values in order
followed by zeros and the shortfall warning is printed. With `HW_ARRAY_SIZE`
or more numeric lines, of any length, all slots are written by the read loop,
so none is zero-filled, and no shortfall warning is printed; when each line
has at most 255 characters the buffer then holds the first `HW_ARRAY_SIZE`
values. -/
theorem read_hw_output_shortfall (ls : List Line) (tail : Line) (results_buffer : List Int)
    (hlen : results_buffer.length = HW_ARRAY_SIZE)
    (hls : ∀ l ∈ ls, ∀ c ∈ l, c.toNat ≠ 10) (htail : ∀ c ∈ tail, c.toNat ≠ 10) :
    (∀ content : List Char, ∃ st0, read_hw_output (some content) results_buffer = Except.ok st0) ∧
    ∃ st, read_hw_output (some (artifact_text ls ++ tail)) results_buffer = Except.ok st ∧
      ((∀ l ∈ ls ++ [tail], l.length ≤ 255) →
        (numeric_values (ls ++ [tail])).length < HW_ARRAY_SIZE →
        st.results_buffer = numeric_values (ls ++ [tail]) ++
          List.replicate (HW_ARRAY_SIZE - (numeric_values (ls ++ [tail])).length) 0 ∧
        Warning.shortfall (numeric_values (ls ++ [tail])).length ∈ st.warnings) ∧
      (HW_ARRAY_SIZE ≤ (numeric_values (ls ++ [tail])).length →
        st.i = HW_ARRAY_SIZE ∧ (∀ c, Warning.shortfall c ∉ st.warnings) ∧
        ((∀ l ∈ ls ++ [tail], l.length ≤ 255) →
          st.results_buffer = (numeric_values (ls ++ [tail])).take HW_ARRAY_SIZE)) := by
  refine ⟨fun content => ⟨_, read_hw_output_some content results_buffer⟩, ?_⟩
  obtain ⟨st, hst, hi, hbuf⟩ :=
    read_hw_output_buffer (artifact_text ls ++ tail) results_buffer hlen
  obtain ⟨hwarn1, hwarn2⟩ := shortfall_warning_printed _ results_buffer st hst
  have hvals : (∀ l ∈ ls ++ [tail], l.length ≤ 255) →
      numeric_values (fgets_lines 255 [] (artifact_text ls ++ tail))
        = numeric_values (ls ++ [tail]) := by
    intro h255
    apply numeric_values_fgets_artifact
    · intro l hl
      exact ⟨h255 l (List.mem_append_left _ hl), hls l hl⟩
    · exact ⟨h255 tail (List.mem_append_right _ (List.mem_singleton.2 rfl)), htail⟩
  refine ⟨st, hst, ?_, ?_⟩
  · intro h255 hshort
    rw [hvals h255] at hi hbuf
    constructor
    · rw [hbuf]
      apply List.ext_getElem?
      intro k
      by_cases hk : k < HW_ARRAY_SIZE
      · rw [List.getElem?_map, List.getElem?_range hk, Option.map_some']
        by_cases hkl : k < (numeric_values (ls ++ [tail])).length
        · rw [List.getElem?_append_left hkl, List.getElem?_eq_getElem hkl, Option.getD_some]
        · rw [List.getElem?_append_right (Nat.le_of_not_lt hkl),
            List.getElem?_eq_none (Nat.le_of_not_lt hkl), Option.getD_none,
            List.getElem?_replicate_of_lt (by omega)]
      · rw [List.getElem?_eq_none (by simpa using Nat.le_of_not_lt hk),
          List.getElem?_eq_none (by simp only [List.length_append, List.length_replicate]; omega)]
    · have hik : st.i = (numeric_values (ls ++ [tail])).length := by
        rw [hi]
        exact Nat.min_eq_left (Nat.le_of_lt hshort)
      rw [← hik]
      exact hwarn1 (by rw [hik]; exact hshort)
  · intro hfull
    have hle := numeric_values_fgets_le ls tail
    have hi8 : st.i = HW_ARRAY_SIZE := by
      rw [hi]
      exact Nat.min_eq_right (le_trans hfull hle)
    refine ⟨hi8, hwarn2 (le_of_eq hi8.symm), ?_⟩
    intro h255
    rw [hvals h255] at hbuf
    rw [hbuf]
    apply List.ext_getElem?
    intro k
    by_cases hk : k < HW_ARRAY_SIZE
    · rw [List.getElem?_map, List.getElem?_range hk, Option.map_some',
        List.getElem?_take_of_lt hk,
        List.getElem?_eq_getElem (lt_of_lt_of_le hk hfull), Option.getD_some]
    · rw [List.getElem?_eq_none (by simpa using Nat.le_of_not_lt hk),
        List.getElem?_eq_none (by simp only [List.length_take]; omega)]

theorem read_hw_output_shortfall_witness :
    ∃ st, read_hw_output (some (artifact_text [['1', 'f'], [], ['-', '1']] ++ ['2', 'a']))
        [7, 7, 7, 7, 7, 7, 7, 7] = Except.ok st ∧
      st.results_buffer = [31, -1, 42, 0, 0, 0, 0, 0] ∧
      Warning.shortfall 3 ∈ st.warnings := by
  obtain ⟨_, st, hst, hshort, _⟩ :=
    read_hw_output_shortfall [['1', 'f'], [], ['-', '1']] ['2', 'a'] [7, 7, 7, 7, 7, 7, 7, 7]
      (by decide) (by decide) (by decide)
  exact ⟨st, hst, hshort (by decide) (by decide)⟩

/-- C8 fails as stated: the artifact has seven lines, all numeric, the first
one made of 255 times `0` and then `f`, the others `1` to `6`. That is `k = 7
< HW_ARRAY_SIZE` values, 15 first; yet slot 0 holds 0, read from the 255
characters that fit the line buffer, the last slot holds 6 and is not
zero-filled, and no shortfall warning is printed. -/
theorem read_hw_output_shortfall_counterexample :
    numeric_values [List.replicate 255 '0' ++ ['f'], ['1'], ['2'], ['3'], ['4'], ['5'], ['6']]
      = [15, 1, 2, 3, 4, 5, 6] ∧
    ∃ st, read_hw_output (some (artifact_text
        [List.replicate 255 '0' ++ ['f'], ['1'], ['2'], ['3'], ['4'], ['5'], ['6']]))
        [7, 7, 7, 7, 7, 7, 7, 7] = Except.ok st ∧
      st.results_buffer = [0, 15, 1, 2, 3, 4, 5, 6] ∧ st.warnings = [] :=
  ⟨by decide, _, rfl, by decide, by decide⟩

/-! ## ResultDecoder: comment and blank lines -/

theorem is_blank_of_all (chunk : List Char) (h : ∀ c ∈ chunk, isBlankChar c = true) :
    is_blank chunk = true := by
  unfold is_blank c_string
  rw [List.all_eq_true]
  intro c hc
  exact h c ((List.takeWhile_sublist _).subset hc)

/-- Every string `fgets` delivers for a whitespace-only line is skipped. -/
theorem whitespace_line_skipped (l : Line) (h : is_whitespace_line l = true) :
    ∀ chunk ∈ fgets_lines 255 [] (l ++ ['\n']), is_comment chunk = true ∨ is_blank chunk = true := by
  intro chunk hchunk
  right
  apply is_blank_of_all
  intro c hc
  rcases fgets_lines_mem 255 (l ++ ['\n']) [] chunk hchunk c hc with h1 | h1
  · simp at h1
  · rcases List.mem_append.1 h1 with h2 | h2
    · unfold is_whitespace_line at h
      rw [List.all_eq_true] at h
      exact h c h2
    · simp only [List.mem_singleton] at h2
      subst h2
      decide

/-- Every string `fgets` delivers for a comment line of at most 255
characters is skipped. -/
theorem comment_line_skipped (l : Line) (h : is_comment_line l = true) (hlen : l.length ≤ 255) :
    ∀ chunk ∈ fgets_lines 255 [] (l ++ ['\n']), is_comment chunk = true ∨ is_blank chunk = true := by
  unfold is_comment_line at h
  rw [Bool.and_eq_true, List.all_eq_true] at h
  obtain ⟨hc, hnl⟩ := h
  have hnl1 : ∀ c ∈ l, c.toNat ≠ 10 := by
    intro c hcl
    simpa using hnl c hcl
  have hcons : is_comment (l ++ ['\n']) = true := by
    match l, hc with
    | a :: b :: r, hc => simpa [is_comment] using hc
  intro chunk hchunk
  by_cases hlt : l.length < 255
  · rw [fgets_lines_short 255 l hnl1 [] (by simpa using hlt)] at hchunk
    simp only [List.nil_append, List.mem_singleton] at hchunk
    subst hchunk
    exact Or.inl hcons
  · have hne : l ≠ [] := by
      intro hnil
      subst hnil
      simp at hlt
    rw [fgets_lines_exact 255 l hnl1 [] hne (by simp only [List.length_nil]; omega)] at hchunk
    simp only [List.nil_append, List.mem_cons, List.mem_singleton, List.not_mem_nil,
      or_false] at hchunk
    rcases hchunk with h1 | h1
    · subst h1
      exact Or.inl hc
    · subst h1
      exact Or.inr (by decide)

/-- The read loop is not affected by inserted lines that are skipped. -/
theorem read_loop_insert_skippable (marked : List (Bool × Line))
    (h : ∀ e ∈ marked, e.1 = true →
      (is_comment_line e.2 = true ∧ e.2.length ≤ 255) ∨ is_whitespace_line e.2 = true) :
    ∀ st, read_loop (fgets_lines 255 [] (artifact_text (marked.map Prod.snd))) st
      = read_loop (fgets_lines 255 []
          (artifact_text ((marked.filter fun e => !e.1).map Prod.snd))) st := by
  induction marked with
  | nil => intro st; rfl
  | cons e rest ih =>
    intro st
    have ih1 := ih (fun e he => h e (List.mem_cons_of_mem _ he))
    rw [List.map_cons, fgets_lines_artifact_cons, read_loop_append]
    cases hflag : e.1 with
    | true =>
      have hskip : ∀ chunk ∈ fgets_lines 255 [] (e.2 ++ ['\n']),
          is_comment chunk = true ∨ is_blank chunk = true := by
        rcases h e (List.mem_cons_self _ _) hflag with ⟨h1, h2⟩ | h1
        · exact comment_line_skipped e.2 h1 h2
        · exact whitespace_line_skipped e.2 h1
      rw [read_loop_skipped _ hskip, List.filter_cons_of_neg (by simp [hflag])]
      exact ih1 st
    | false =>
      rw [List.filter_cons_of_pos (by simp [hflag]), List.map_cons, fgets_lines_artifact_cons,
        read_loop_append]
      exact ih1 _

/-- C7, as amended: inserting, at arbitrary positions of an artifact with
lines of any length, comment lines of at most 255 characters and
whitespace-only lines of any length does not change what `read_hw_output`
returns. In `marked` the inserted lines carry the flag `true`. -/
theorem read_hw_output_insert_skippable (marked : List (Bool × Line)) (results_buffer : List Int)
    (h : ∀ e ∈ marked, e.1 = true →
      (is_comment_line e.2 = true ∧ e.2.length ≤ 255) ∨ is_whitespace_line e.2 = true) :
    read_hw_output (some (artifact_text (marked.map Prod.snd))) results_buffer
      = read_hw_output
          (some (artifact_text ((marked.filter fun e => !e.1).map Prod.snd))) results_buffer := by
  rw [read_hw_output_some, read_hw_output_some, read_loop_insert_skippable marked h]

theorem read_hw_output_insert_skippable_witness :
    (∀ e ∈ [(true, ['/', '/', ' ', 'r', 'o', 'w']), (false, ['1', 'f']), (true, [' ', '\t']),
        (false, ['-', '1'])],
      e.1 = true →
        (is_comment_line e.2 = true ∧ e.2.length ≤ 255) ∨ is_whitespace_line e.2 = true) ∧
    read_hw_output (some (artifact_text
        ([(true, ['/', '/', ' ', 'r', 'o', 'w']), (false, ['1', 'f']), (true, [' ', '\t']),
          (false, ['-', '1'])].map Prod.snd))) [7, 7, 7, 7, 7, 7, 7, 7]
      = read_hw_output (some (artifact_text
          (([(true, ['/', '/', ' ', 'r', 'o', 'w']), (false, ['1', 'f']), (true, [' ', '\t']),
            (false, ['-', '1'])].filter fun e => !e.1).map Prod.snd))) [7, 7, 7, 7, 7, 7, 7, 7] :=
  ⟨by decide,
   read_hw_output_insert_skippable
    [(true, ['/', '/', ' ', 'r', 'o', 'w']), (false, ['1', 'f']), (true, [' ', '\t']),
      (false, ['-', '1'])] [7, 7, 7, 7, 7, 7, 7, 7] (by decide)⟩

/-- C7 fails as stated: a comment line of 256 characters is inserted in front
of the numeric line `1`; its last character `f` is read as a number and takes
slot 0. -/
theorem read_hw_output_long_comment_counterexample :
    is_comment_line (['/', '/'] ++ List.replicate 253 'x' ++ ['f']) = true ∧
    (∃ st, read_hw_output (some (artifact_text [['1']])) [7, 7, 7, 7, 7, 7, 7, 7] = Except.ok st ∧
      st.results_buffer = [1, 0, 0, 0, 0, 0, 0, 0]) ∧
    (∃ st, read_hw_output (some (artifact_text
        [['/', '/'] ++ List.replicate 253 'x' ++ ['f'], ['1']])) [7, 7, 7, 7, 7, 7, 7, 7]
          = Except.ok st ∧
      st.results_buffer = [15, 1, 0, 0, 0, 0, 0, 0]) := by
  refine ⟨by decide, ⟨_, rfl, by decide⟩, ⟨_, rfl, by decide⟩⟩

/-! ## ResultDecoder: parsing a line of hexadecimal digits -/

theorem c_string_of_no_nul (l : List Char) (h : ∀ c ∈ l, c.toNat ≠ 0) : c_string l = l := by
  unfold c_string
  rw [List.takeWhile_eq_self_iff]
  intro c hc
  simpa using h c hc

/-- A line that consists of hexadecimal digits is neither a comment nor
blank, and `%x` reads the value of its digits. -/
theorem sscanf_x_hex_line (ds : List Char) (hne : ds ≠ [])
    (hall : ∀ c ∈ ds, isHexDigit c = true) :
    is_comment (ds ++ ['\n']) = false ∧ is_blank (ds ++ ['\n']) = false ∧
    sscanf_x (c_string (ds ++ ['\n'])) = some (strtoul16 false ds % 4294967296) := by
  have hcs : c_string (ds ++ ['\n']) = ds ++ ['\n'] := by
    apply c_string_of_no_nul
    intro c hc
    rcases List.mem_append.1 hc with h1 | h1
    · have := hex_digit_range c (hall c h1)
      omega
    · simp only [List.mem_singleton] at h1
      subst h1
      decide
  have htake : (ds ++ ['\n']).takeWhile isHexDigit = ds := by
    rw [List.takeWhile_append_of_pos hall]
    simp [show isHexDigit '\n' = false by decide]
  match ds, hne, hall, hcs, htake with
  | c :: ds1, _, hall, hcs, htake =>
    have hc := hall c (List.mem_cons_self _ _)
    have hr := hex_digit_range c hc
    refine ⟨?_, ?_, ?_⟩
    · cases ds1 with
      | nil =>
        have h47 : c.toNat ≠ 47 := by omega
        simp [is_comment, h47]
      | cons c2 ds2 =>
        have h47 : c.toNat ≠ 47 := by omega
        simp [is_comment, h47]
    · unfold is_blank
      rw [hcs]
      simp [hex_digit_not_blank c hc]
    · rw [hcs]
      have hsp : ¬ (isSpace c = true) := by simp [hex_digit_not_space c hc]
      have h45 : c.toNat ≠ 45 := by omega
      have h43 : c.toNat ≠ 43 := by omega
      have hsign : scan_sign (c :: (ds1 ++ ['\n'])) = c :: (ds1 ++ ['\n']) := by
        simp [scan_sign, h45, h43]
      have hminus : scan_minus (c :: (ds1 ++ ['\n'])) = false := by
        simp [scan_minus, h45]
      have hpre : scan_digits (c :: (ds1 ++ ['\n'])) = c :: (ds1 ++ ['\n']) := by
        cases ds1 with
        | nil => simp [scan_digits]
        | cons c2 ds2 =>
          have hr2 := hex_digit_range c2 (hall c2 (by simp))
          have h1 : c2.toNat ≠ 120 := by omega
          have h2 : c2.toNat ≠ 88 := by omega
          simp [scan_digits, h1, h2]
      unfold sscanf_x
      simp only [List.cons_append, List.dropWhile_cons_of_neg hsp]
      rw [List.cons_append] at htake
      rw [hsign, hminus, hpre, htake]
      simp

theorem strtoul16_small (ds : List Char) (h : hex_value ds < 4294967296) :
    strtoul16 false ds % 4294967296 = hex_value ds := by
  unfold strtoul16
  simp only []
  rw [if_neg (by omega)]
  simp only [Bool.false_eq_true, if_false]
  exact Nat.mod_eq_of_lt h

theorem to_int32_small (u : Nat) (h : u < 2147483648) : to_int32 u = (u : Int) := by
  unfold to_int32
  rw [Nat.mod_eq_of_lt (by omega), if_pos h]

/-- The value `read_hw_output` sees in a line of hexadecimal digits. -/
theorem line_value_hex_line (ds : List Char) (hne : ds ≠ [])
    (hall : ∀ c ∈ ds, isHexDigit c = true) (h : hex_value ds < 4294967296) :
    line_value (ds ++ ['\n']) = some (to_int32 (hex_value ds)) := by
  obtain ⟨h1, h2, h3⟩ := sscanf_x_hex_line ds hne hall
  unfold line_value
  rw [h1, h2, h3, strtoul16_small ds h]
  rfl

/-! ## Encoder and decoder together -/

theorem encode_byte_hex (v : Int) :
    encode_byte v ≠ [] ∧ (∀ c ∈ encode_byte v, isHexDigit c = true) ∧
    (encode_byte v).length = 2 ∧ hex_value (encode_byte v) = to_uchar v := by
  have hu := to_uchar_lt v
  have hform : encode_byte v
      = [Nat.digitChar (to_uchar v / 16), Nat.digitChar (to_uchar v % 16)] :=
    fmt_02x_byte _ hu
  refine ⟨by rw [hform]; simp, ?_, by rw [hform]; rfl, hex_value_fmt_02x _ hu⟩
  intro c hc
  rw [hform] at hc
  simp only [List.mem_cons, List.mem_singleton, List.not_mem_nil, or_false] at hc
  rcases hc with h | h
  · rw [h]; exact (digitChar_hex _ (by omega)).1
  · rw [h]; exact (digitChar_hex _ (by omega)).1

theorem hex_digit_not_newline (c : Char) (h : isHexDigit c = true) : c.toNat ≠ 10 := by
  have := hex_digit_range c h
  omega

theorem line_value_encode_byte (v : Int) :
    line_value (encode_byte v ++ ['\n']) = some (v % 256) := by
  obtain ⟨hne, hall, _, hval⟩ := encode_byte_hex v
  have hu := to_uchar_lt v
  rw [line_value_hex_line _ hne hall (by rw [hval]; omega), hval,
    to_int32_small _ (by omega)]
  unfold to_uchar
  congr 1
  omega

theorem numeric_values_encoded (vs : List Int) :
    numeric_values (fgets_lines 255 [] (artifact_text (vs.map encode_byte)))
      = vs.map fun v => v % 256 := by
  rw [fgets_lines_artifact_short]
  · induction vs with
    | nil => rfl
    | cons v vs ih =>
      rw [List.map_cons, List.map_cons, numeric_values_cons, line_value_encode_byte,
        List.map_cons]
      simp only []
      rw [ih]
  · intro l hl
    obtain ⟨v, _, rfl⟩ := List.mem_map.1 hl
    obtain ⟨_, hall, hlen2, _⟩ := encode_byte_hex v
    exact ⟨by omega, fun c hc => hex_digit_not_newline c (hall c hc)⟩

theorem padded_of_length_eq (vals : List Int) (h : vals.length = HW_ARRAY_SIZE) :
    ((List.range HW_ARRAY_SIZE).map fun k => (vals[k]?).getD 0) = vals := by
  apply List.ext_getElem?
  intro k
  by_cases hk : k < HW_ARRAY_SIZE
  · rw [List.getElem?_map, List.getElem?_range hk, Option.map_some',
      List.getElem?_eq_getElem (by omega), Option.getD_some]
  · rw [List.getElem?_eq_none (by simpa using Nat.le_of_not_lt hk),
      List.getElem?_eq_none (by omega)]

/-- C9, as amended: the values written with the tile byte encoding and decoded
by `read_hw_output` come back modulo 256, as unsigned bytes: a value `v ≥ 0`
comes back as `v`, a value `v < 0` as `v + 256`; the low byte of each slot,
read as a signed byte, is the original value. -/
theorem encode_then_read_hw_output (vs results_buffer : List Int)
    (hvs : vs.length = HW_ARRAY_SIZE) (hrange : ∀ v ∈ vs, -128 ≤ v ∧ v ≤ 127)
    (hlen : results_buffer.length = HW_ARRAY_SIZE) :
    ∃ st, read_hw_output (some (artifact_text (vs.map encode_byte))) results_buffer
        = Except.ok st ∧
      st.results_buffer = vs.map (fun v => if 0 ≤ v then v else v + 256) ∧
      st.results_buffer.map (fun r => to_int8 r.toNat) = vs ∧
      ((∀ v ∈ vs, 0 ≤ v) → st.results_buffer = vs) := by
  obtain ⟨st, hst, _, hbuf⟩ :=
    read_hw_output_buffer (artifact_text (vs.map encode_byte)) results_buffer hlen
  rw [numeric_values_encoded, padded_of_length_eq _ (by simpa using hvs)] at hbuf
  have hmod : vs.map (fun v => v % 256) = vs.map (fun v => if 0 ≤ v then v else v + 256) := by
    apply List.map_congr_left
    intro v hv
    have := hrange v hv
    split <;> omega
  refine ⟨st, hst, by rw [hbuf, hmod], ?_, ?_⟩
  · rw [hbuf, List.map_map]
    conv => rhs; rw [← List.map_id vs]
    apply List.map_congr_left
    intro v hv
    have := hrange v hv
    simp only [Function.comp, id]
    unfold to_int8
    split <;> omega
  · intro hpos
    rw [hbuf]
    conv => rhs; rw [← List.map_id vs]
    apply List.map_congr_left
    intro v hv
    have h0 := hpos v hv
    have h1 := hrange v hv
    simp only [id]
    omega

theorem encode_then_read_hw_output_witness :
    ([-1, -128, 127, 0, 1, 2, 3, 4] : List Int).length = HW_ARRAY_SIZE ∧
    (∀ v ∈ ([-1, -128, 127, 0, 1, 2, 3, 4] : List Int), -128 ≤ v ∧ v ≤ 127) ∧
    ∃ st, read_hw_output (some (artifact_text
          (([-1, -128, 127, 0, 1, 2, 3, 4] : List Int).map encode_byte))) [7, 7, 7, 7, 7, 7, 7, 7]
        = Except.ok st ∧
      st.results_buffer
        = ([-1, -128, 127, 0, 1, 2, 3, 4] : List Int).map (fun v => if 0 ≤ v then v else v + 256) ∧
      st.results_buffer.map (fun r => to_int8 r.toNat) = [-1, -128, 127, 0, 1, 2, 3, 4] ∧
      ((∀ v ∈ ([-1, -128, 127, 0, 1, 2, 3, 4] : List Int), 0 ≤ v) →
        st.results_buffer = [-1, -128, 127, 0, 1, 2, 3, 4]) :=
  ⟨by decide, by decide,
   encode_then_read_hw_output [-1, -128, 127, 0, 1, 2, 3, 4] [7, 7, 7, 7, 7, 7, 7, 7]
    (by decide) (by decide) (by decide)⟩

/-- C9 fails as stated: the eight values `-1, -128, 127, 0, 1, 2, 3, 4` are
written as `ff, 80, 7f, 00, 01, 02, 03, 04` and decoded as
`255, 128, 127, 0, 1, 2, 3, 4`. -/
theorem encode_then_read_negative_counterexample :
    ∃ st, read_hw_output (some (artifact_text
          (([-1, -128, 127, 0, 1, 2, 3, 4] : List Int).map encode_byte))) [7, 7, 7, 7, 7, 7, 7, 7]
        = Except.ok st ∧
      st.results_buffer = [255, 128, 127, 0, 1, 2, 3, 4] ∧
      st.results_buffer ≠ [-1, -128, 127, 0, 1, 2, 3, 4] :=
  ⟨_, rfl, by decide, by decide⟩

/-! ## Signed 32-bit results -/

theorem hex8_hex (v : Int) :
    hex8 v ≠ [] ∧ (∀ c ∈ hex8 v, isHexDigit c = true) ∧ (hex8 v).length = 8 ∧
    hex_value (hex8 v) = (v % 4294967296).toNat := by
  have hu : (v % 4294967296).toNat < 4294967296 := by omega
  refine ⟨by simp [hex8], ?_, rfl, ?_⟩
  · intro c hc
    simp only [hex8, List.mem_cons, List.mem_singleton, List.not_mem_nil, or_false] at hc
    rcases hc with h | h | h | h | h | h | h | h <;>
      (rw [h]; exact (digitChar_hex _ (Nat.mod_lt _ (by decide))).1)
  · simp only [hex8, hex_value, List.foldl_cons, List.foldl_nil]
    generalize (v % 4294967296).toNat = u at hu
    rw [(digitChar_hex _ (Nat.mod_lt (u / 268435456) (by decide))).2,
      (digitChar_hex _ (Nat.mod_lt (u / 16777216) (by decide))).2,
      (digitChar_hex _ (Nat.mod_lt (u / 1048576) (by decide))).2,
      (digitChar_hex _ (Nat.mod_lt (u / 65536) (by decide))).2,
      (digitChar_hex _ (Nat.mod_lt (u / 4096) (by decide))).2,
      (digitChar_hex _ (Nat.mod_lt (u / 256) (by decide))).2,
      (digitChar_hex _ (Nat.mod_lt (u / 16) (by decide))).2,
      (digitChar_hex _ (Nat.mod_lt u (by decide))).2]
    omega

/-- C10: a result line that is the 8-digit hexadecimal two's-complement
representation of a signed 32-bit integer `v` is decoded to `v`: the digits
denote `v mod 2^32`, and the slot holds that unsigned value read as a signed
32-bit integer. The representations of `-1` and `-2147483648` are `ffffffff`
and `80000000`. -/
theorem read_hw_output_hex8 (v : Int) (more : List Line) (results_buffer : List Int)
    (hlo : -2147483648 ≤ v) (hhi : v ≤ 2147483647)
    (hlen : results_buffer.length = HW_ARRAY_SIZE) :
    hex8 (-1) = ['f', 'f', 'f', 'f', 'f', 'f', 'f', 'f'] ∧
    hex8 (-2147483648) = ['8', '0', '0', '0', '0', '0', '0', '0'] ∧
    (hex_value (hex8 v) : Int) = v % 4294967296 ∧
    to_int32 (hex_value (hex8 v)) = v ∧
    sscanf_x (c_string (hex8 v ++ ['\n'])) = some (hex_value (hex8 v)) ∧
    ∃ st, read_hw_output (some (artifact_text (hex8 v :: more))) results_buffer = Except.ok st ∧
      st.results_buffer[0]? = some v := by
  obtain ⟨hne, hall, hlen8, hval⟩ := hex8_hex v
  have hlt : hex_value (hex8 v) < 4294967296 := by rw [hval]; omega
  have h32 : to_int32 (hex_value (hex8 v)) = v := by
    rw [hval]
    unfold to_int32
    split <;> omega
  refine ⟨by decide, by decide, by rw [hval]; omega, h32, ?_, ?_⟩
  · rw [(sscanf_x_hex_line _ hne hall).2.2, strtoul16_small _ hlt]
  · obtain ⟨st, hst, _, hbuf⟩ :=
      read_hw_output_buffer (artifact_text (hex8 v :: more)) results_buffer hlen
    refine ⟨st, hst, ?_⟩
    rw [hbuf, fgets_lines_artifact_cons,
      fgets_lines_short 255 (hex8 v) (fun c hc => hex_digit_not_newline c (hall c hc)) []
        (by rw [hlen8]; decide),
      List.nil_append, List.singleton_append, numeric_values_cons,
      line_value_hex_line _ hne hall hlt, h32, List.getElem?_map,
      List.getElem?_range (by decide : 0 < HW_ARRAY_SIZE)]
    simp

theorem read_hw_output_hex8_witness :
    hex8 (-1) = ['f', 'f', 'f', 'f', 'f', 'f', 'f', 'f'] ∧
    hex8 (-2147483648) = ['8', '0', '0', '0', '0', '0', '0', '0'] ∧
    (hex_value (hex8 (-2)) : Int) = (-2) % 4294967296 ∧
    to_int32 (hex_value (hex8 (-2))) = -2 ∧
    sscanf_x (c_string (hex8 (-2) ++ ['\n'])) = some (hex_value (hex8 (-2))) ∧
    ∃ st, read_hw_output (some (artifact_text (hex8 (-2) :: [['1', 'f']])))
        [7, 7, 7, 7, 7, 7, 7, 7] = Except.ok st ∧
      st.results_buffer[0]? = some (-2) :=
  read_hw_output_hex8 (-2) [['1', 'f']] [7, 7, 7, 7, 7, 7, 7, 7]
    (by decide) (by decide) (by decide)

/-! ## Orchestrator: the loop counters -/

theorem for_values_zero (bound step v : Nat) :
    for_values bound step 0 v = if v < bound then none else some [] := rfl

theorem for_values_succ (bound step fuel v : Nat) :
    for_values bound step (fuel + 1) v
      = if v < bound then (for_values bound step fuel (v + step)).map (v :: ·) else some [] := rfl

theorem range_succ_map_affine (v step k : Nat) :
    (List.range (k + 1)).map (fun j => v + j * step)
      = v :: (List.range k).map (fun j => v + step + j * step) := by
  rw [List.range_succ_eq_map, List.map_cons, List.map_map]
  simp only [Nat.zero_mul, Nat.add_zero, List.cons.injEq, true_and]
  apply List.map_congr_left
  intro j _
  simp only [Function.comp, Nat.succ_eq_add_one]
  ring

/-- With a positive step and enough fuel the loop variable takes the values
`v, v + step, ...` below the bound: `⌈(bound - v) / step⌉` of them. -/
theorem for_values_eq (bound step : Nat) (hstep : 1 ≤ step) :
    ∀ fuel v, bound - v ≤ fuel * step →
      for_values bound step fuel v
        = some ((List.range ((bound - v + step - 1) / step)).map fun j => v + j * step) := by
  intro fuel
  induction fuel with
  | zero =>
    intro v hfuel
    have hv : ¬ v < bound := by omega
    have h0 : (bound - v + step - 1) / step = 0 := Nat.div_eq_of_lt (by omega)
    rw [for_values_zero, if_neg hv, h0]
    rfl
  | succ fuel ih =>
    intro v hfuel
    rw [for_values_succ]
    by_cases hv : v < bound
    · rw [if_pos hv, ih (v + step) (by rw [Nat.succ_mul] at hfuel; omega)]
      have hcount : (bound - v + step - 1) / step
          = (bound - (v + step) + step - 1) / step + 1 := by
        by_cases hbig : step ≤ bound - v
        · have : bound - v + step - 1 = (bound - (v + step) + step - 1) + step := by omega
          rw [this, Nat.add_div_right _ (by omega)]
        · have h1 : (bound - (v + step) + step - 1) / step = 0 := Nat.div_eq_of_lt (by omega)
          rw [h1]
          apply Nat.div_eq_of_lt_le <;> omega
      rw [hcount, range_succ_map_affine]
      rfl
    · have h0 : (bound - v + step - 1) / step = 0 := Nat.div_eq_of_lt (by omega)
      rw [if_neg hv, h0]
      rfl

/-- For a bound that is a multiple of the step the values are the multiples
of the step below it. -/
theorem for_values_multiple (step k : Nat) (hstep : 1 ≤ step) :
    for_values (k * step) step (k * step) 0 = some ((List.range k).map fun j => j * step) := by
  have hle : k * step - 0 ≤ k * step * step := by
    simp only [Nat.sub_zero]
    exact Nat.le_mul_of_pos_right _ hstep
  rw [for_values_eq (k * step) step hstep (k * step) 0 hle]
  have hk : (k * step - 0 + step - 1) / step = k := by
    apply Nat.div_eq_of_lt_le
    · simp only [Nat.sub_zero]; omega
    · simp only [Nat.sub_zero]
      rw [Nat.succ_mul]
      omega
  rw [hk]
  simp

/-! ## Orchestrator: sums over column blocks -/

theorem sum_range_add (f : Nat → ℚ) (a b : Nat) :
    ((List.range (a + b)).map f).sum
      = ((List.range a).map f).sum + ((List.range b).map fun j => f (a + j)).sum := by
  induction b with
  | zero => simp
  | succ b ih =>
    rw [← Nat.add_assoc, List.sum_range_succ, ih, List.sum_range_succ]
    ring

theorem sum_range_mul_right (f : Nat → ℚ) (c : ℚ) (k : Nat) :
    ((List.range k).map fun j => f j * c).sum = ((List.range k).map f).sum * c := by
  induction k with
  | zero => simp
  | succ k ih => rw [List.sum_range_succ, List.sum_range_succ, ih]; ring

theorem sum_range_cast (f : Nat → Int) (k : Nat) :
    ((((List.range k).map f).sum : Int) : ℚ) = ((List.range k).map fun j => (f j : ℚ)).sum := by
  induction k with
  | zero => simp
  | succ k ih => rw [List.sum_range_succ, List.sum_range_succ, Int.cast_add, ih]

theorem sum_range_congr (f g : Nat → ℚ) (k : Nat) (h : ∀ j, j < k → f j = g j) :
    ((List.range k).map f).sum = ((List.range k).map g).sum := by
  congr 1
  apply List.map_congr_left
  intro j hj
  exact h j (List.mem_range.1 hj)

/-! ## Orchestrator: what the simulator is given -/

/-- The lines of the two artifacts of a tile are the loop bodies, in order. -/
theorem write_hw_input_tile_lines (x w : QuantizedTensor) (rb cb n d K : Nat)
    (hw : d * n ≤ w.q.length) (hx : n ≤ x.q.length) :
    ∃ t, write_hw_input_tile x w rb cb n d K = some t ∧
      (∀ (i j : Nat) (l : Line), i < HW_ARRAY_SIZE → j < K →
        weight_line w rb cb n d i j = some l → t.weights[i * K + j]? = some l) ∧
      (∀ (j : Nat) (l : Line), j < K →
        vector_line x cb n j = some l → t.vector[j]? = some l) := by
  obtain ⟨ws, vs, hsome, hws, hvs⟩ := write_hw_input_tile_eq_some x w rb cb n d K hw hx
  obtain ⟨_, hget⟩ := collect_getElem? hws
  obtain ⟨_, vget⟩ := collect_getElem? hvs
  obtain ⟨_, nget⟩ := nest_getElem? (fun i j => weight_line w rb cb n d i j) K HW_ARRAY_SIZE
  refine ⟨⟨ws, vs⟩, hsome, ?_, ?_⟩
  · intro i j l hi hj hl
    apply hget
    rw [nget i j hi hj, hl]
  · intro j l hj hl
    apply vget
    simp [List.getElem?_range hj, hl]

theorem byte_of_line_encode_byte (v : Int) (hlo : -128 ≤ v) (hhi : v ≤ 127) :
    byte_of_line (encode_byte v) = v := by
  unfold byte_of_line
  rw [(encode_byte_hex v).2.2.2]
  unfold to_int8 to_uchar
  split <;> omega

theorem byte_of_line_zero_line : byte_of_line zero_line = 0 := by decide

theorem getD_of_getElem? {α : Type} (l : List α) (k : Nat) (a d : α) (h : l[k]? = some a) :
    l.getD k d = a := by
  simp [List.getD, h]

theorem getElem?_range_of_mem {l : List Int} {k : Nat} {a : Int} (h : l[k]? = some a)
    (hr : ∀ v ∈ l, -128 ≤ v ∧ v ≤ 127) : -128 ≤ a ∧ a ≤ 127 := by
  obtain ⟨hk, rfl⟩ := List.getElem?_eq_some.1 h
  exact hr _ (List.getElem_mem _)

/-- The dot product the simulator is asked for, in terms of the tensors:
positions outside the matrix count as zero. -/
theorem tile_dot_eq (x w : QuantizedTensor) (rb cb n d K : Nat) (t : TileArtifacts)
    (hw : d * n ≤ w.q.length) (hx : n ≤ x.q.length)
    (hwr : ∀ v ∈ w.q, -128 ≤ v ∧ v ≤ 127) (hxr : ∀ v ∈ x.q, -128 ≤ v ∧ v ≤ 127)
    (ht : write_hw_input_tile x w rb cb n d K = some t) (i : Nat) (hi : i < HW_ARRAY_SIZE) :
    tile_dot t K i
      = ((List.range K).map fun j =>
          (if rb + i < d ∧ cb + j < n then w.q.getD ((rb + i) * n + (cb + j)) 0 else 0) *
          (if cb + j < n then x.q.getD (cb + j) 0 else 0)).sum := by
  obtain ⟨t0, ht0, hwl, hvl⟩ := write_hw_input_tile_lines x w rb cb n d K hw hx
  rw [ht] at ht0
  have ht1 : t = t0 := Option.some.inj ht0
  subst ht1
  unfold tile_dot
  congr 1
  apply List.map_congr_left
  intro j hj
  have hjK : j < K := List.mem_range.1 hj
  have hwb : byte_of_line (t.weights.getD (i * K + j) [])
      = (if rb + i < d ∧ cb + j < n then w.q.getD ((rb + i) * n + (cb + j)) 0 else 0) := by
    by_cases hg : rb + i < d ∧ cb + j < n
    · have hlt : (rb + i) * n + (cb + j) < w.q.length :=
        lt_of_lt_of_le (weight_index_lt hg.1 hg.2) hw
      have hread := List.getElem?_eq_getElem hlt
      have hline : weight_line w rb cb n d i j
          = some (encode_byte (w.q[(rb + i) * n + (cb + j)])) := by
        simp [weight_line, hg, hread]
      rw [getD_of_getElem? _ _ _ _ (hwl i j _ hi hjK hline), if_pos hg,
        getD_of_getElem? _ _ _ _ hread]
      have hr := getElem?_range_of_mem hread hwr
      exact byte_of_line_encode_byte _ hr.1 hr.2
    · have hline : weight_line w rb cb n d i j = some zero_line := by
        simp [weight_line, hg]
      rw [getD_of_getElem? _ _ _ _ (hwl i j _ hi hjK hline), if_neg hg, byte_of_line_zero_line]
  have hxb : byte_of_line (t.vector.getD j [])
      = (if cb + j < n then x.q.getD (cb + j) 0 else 0) := by
    by_cases hg : cb + j < n
    · have hlt : cb + j < x.q.length := lt_of_lt_of_le hg hx
      have hread := List.getElem?_eq_getElem hlt
      have hline : vector_line x cb n j = some (encode_byte (x.q[cb + j])) := by
        simp [vector_line, hg, hread]
      rw [getD_of_getElem? _ _ _ _ (hvl j _ hjK hline), if_pos hg,
        getD_of_getElem? _ _ _ _ hread]
      have hr := getElem?_range_of_mem hread hxr
      exact byte_of_line_encode_byte _ hr.1 hr.2
    · have hline : vector_line x cb n j = some zero_line := by
        simp [vector_line, hg]
      rw [getD_of_getElem? _ _ _ _ (hvl j _ hjK hline), if_neg hg, byte_of_line_zero_line]
  rw [hwb, hxb]

/-! ## Orchestrator: dequantization of one tile -/

/-- One lane of the dequantization loop, when the scale sequences are as long
as the bounds check assumes: the accumulator of a row below `d` whose scale
indices pass the check grows by the scaled result, any other is left alone. -/
theorem dequantize_lane_eq (x w : QuantizedTensor) (n d GS rb cb : Nat)
    (hw_results : List Int) (acc : List ℚ) (i : Nat)
    (hws : d * n / GS ≤ w.s.length) (hxs : n / GS ≤ x.s.length) :
    dequantize_lane x w n d GS rb cb hw_results acc i
      = Except.ok
          (if rb + i < d ∧ ((rb + i) * n + cb) / GS < d * n / GS ∧ cb / GS < n / GS then
            acc.set i (acc.getD i 0 + (hw_results.getD i 0 : ℚ)
              * w.s.getD (((rb + i) * n + cb) / GS) 0 * x.s.getD (cb / GS) 0)
          else acc) := by
  unfold dequantize_lane
  by_cases hrow : rb + i < d
  · by_cases hskip : ((rb + i) * n + cb) / GS ≥ d * n / GS ∨ cb / GS ≥ n / GS
    · have hc : ¬ (rb + i < d ∧ ((rb + i) * n + cb) / GS < d * n / GS ∧ cb / GS < n / GS) := by
        omega
      rw [if_neg hc]
      simp only [hrow, if_true, hskip]
    · have hc : rb + i < d ∧ ((rb + i) * n + cb) / GS < d * n / GS ∧ cb / GS < n / GS := by
        omega
      have h1 : ((rb + i) * n + cb) / GS < w.s.length := by omega
      have h2 : cb / GS < x.s.length := by omega
      rw [if_pos hc, getD_of_getElem? _ _ _ _ (List.getElem?_eq_getElem h1),
        getD_of_getElem? _ _ _ _ (List.getElem?_eq_getElem h2)]
      simp only [hrow, if_true, hskip, if_false,
        List.getElem?_eq_getElem h1, List.getElem?_eq_getElem h2]
  · have hc : ¬ (rb + i < d ∧ ((rb + i) * n + cb) / GS < d * n / GS ∧ cb / GS < n / GS) := by
      omega
    rw [if_neg hc]
    simp only [hrow, if_false]

/-- The dequantization loop over the lanes `0 .. k-1`. -/
theorem dequantize_lanes (x w : QuantizedTensor) (n d GS rb cb : Nat)
    (hw_results : List Int)
    (hws : d * n / GS ≤ w.s.length) (hxs : n / GS ≤ x.s.length) :
    ∀ (k : Nat) (acc : List ℚ), ∃ acc1,
      (List.range k).foldlM (dequantize_lane x w n d GS rb cb hw_results) acc = Except.ok acc1 ∧
      acc1.length = acc.length ∧
      ∀ i : Nat, acc1[i]? =
        if i < k ∧ i < acc.length ∧
            (rb + i < d ∧ ((rb + i) * n + cb) / GS < d * n / GS ∧ cb / GS < n / GS) then
          some (acc.getD i 0 + (hw_results.getD i 0 : ℚ)
            * w.s.getD (((rb + i) * n + cb) / GS) 0 * x.s.getD (cb / GS) 0)
        else acc[i]? := by
  intro k
  induction k with
  | zero =>
    intro acc
    refine ⟨acc, rfl, rfl, ?_⟩
    intro i
    rw [if_neg (by omega)]
  | succ k ih =>
    intro acc
    obtain ⟨acc1, hfold, hlen, hget⟩ := ih acc
    rw [List.range_succ, List.foldlM_append, hfold]
    simp only [bind, Except.bind, List.foldlM_cons, List.foldlM_nil, pure, Except.pure]
    rw [dequantize_lane_eq x w n d GS rb cb hw_results acc1 k hws hxs]
    simp only []
    have hk : acc1[k]? = acc[k]? := by rw [hget k, if_neg (by omega)]
    have hkD : acc1.getD k 0 = acc.getD k 0 := by
      rw [List.getD_eq_getElem?_getD, List.getD_eq_getElem?_getD, hk]
    by_cases hc : rb + k < d ∧ ((rb + k) * n + cb) / GS < d * n / GS ∧ cb / GS < n / GS
    · rw [if_pos hc]
      refine ⟨_, rfl, by rw [List.length_set, hlen], ?_⟩
      intro i
      by_cases hik : i = k
      · subst hik
        by_cases hil : i < acc.length
        · rw [List.getElem?_set_self (by rw [hlen]; exact hil),
            if_pos ⟨Nat.lt_succ_self _, hil, hc⟩, hkD]
        · rw [List.getElem?_eq_none (by rw [List.length_set, hlen]; omega),
            if_neg (by omega), List.getElem?_eq_none (by omega)]
      · rw [List.getElem?_set_ne (fun h => hik h.symm), hget i]
        by_cases hi : i < k ∧ i < acc.length ∧
            (rb + i < d ∧ ((rb + i) * n + cb) / GS < d * n / GS ∧ cb / GS < n / GS)
        · rw [if_pos hi, if_pos ⟨by omega, hi.2⟩]
        · rw [if_neg hi, if_neg (by omega)]
    · rw [if_neg hc]
      refine ⟨_, rfl, hlen, ?_⟩
      intro i
      rw [hget i]
      by_cases hi : i < k ∧ i < acc.length ∧
          (rb + i < d ∧ ((rb + i) * n + cb) / GS < d * n / GS ∧ cb / GS < n / GS)
      · rw [if_pos hi, if_pos ⟨by omega, hi.2⟩]
      · rw [if_neg hi]
        by_cases hik : i = k
        · subst hik
          rw [if_neg (fun h => hc h.2.2)]
        · rw [if_neg (by omega)]

/-! ## Orchestrator: arithmetic of the scale indices -/

theorem mul_div_cancel_of_pos (m GS : Nat) (hGS : 1 ≤ GS) : m * GS / GS = m :=
  Nat.mul_div_cancel m (by omega)

theorem block_index_div (q GS j : Nat) (hj : j < GS) : (q * GS + j) / GS = q := by
  have hpos : 0 < GS := by omega
  rw [Nat.add_comm, Nat.add_mul_div_right _ _ hpos, Nat.div_eq_of_lt hj, Nat.zero_add]

/-- Inside the column block `k` every element of row `row` has the weight
scale index `row * m + k` and the activation scale index `k`, where `m` is the
number of groups of a row. -/
theorem scale_index_in_block (row m GS k j : Nat) (hj : j < GS) :
    (row * (m * GS) + (k * GS + j)) / GS = row * m + k ∧ (k * GS + j) / GS = k := by
  constructor
  · have h : row * (m * GS) + (k * GS + j) = (row * m + k) * GS + j := by ring
    rw [h, block_index_div _ _ _ hj]
  · exact block_index_div _ _ _ hj

theorem scale_index_lt (row d m k : Nat) (hrow : row < d) (hk : k < m) :
    row * m + k < d * m :=
  calc row * m + k < row * m + m := by omega
    _ = (row + 1) * m := by ring
    _ ≤ d * m := Nat.mul_le_mul_right m hrow

/-! ## Orchestrator: one tile with an exact simulator -/

/-- The term of column `j` in the reference sum of row `row`. -/
theorem reference_row_eq (x w : QuantizedTensor) (n GS row : Nat) :
    reference_row x w n GS row
      = ((List.range n).map fun j =>
          ((w.q.getD (row * n + j) 0 : ℚ) * w.s.getD ((row * n + j) / GS) 0) *
            ((x.q.getD j 0 : ℚ) * x.s.getD (j / GS) 0)).sum := rfl

/-- What `process_tile` does when the simulator is exact on the tile. -/
theorem process_tile_exact (sim : Simulator) (x w : QuantizedTensor) (n d GS rb cb : Nat)
    (st : RowState)
    (hws : d * n / GS ≤ w.s.length) (hxs : n / GS ≤ x.s.length)
    (hexact : tile_result_exact sim x w n d GS rb cb = true)
    (hacc : st.row_accumulators.length = HW_ARRAY_SIZE) :
    ∃ t st1, write_hw_input_tile x w rb cb n d GS = some t ∧
      process_tile sim x w n d GS rb st cb = Except.ok st1 ∧
      st1.trace = st.trace ++ [⟨rb, cb, t⟩] ∧
      st1.row_accumulators.length = HW_ARRAY_SIZE ∧
      ∀ i : Nat, i < HW_ARRAY_SIZE → st1.row_accumulators[i]? =
        if rb + i < d ∧ ((rb + i) * n + cb) / GS < d * n / GS ∧ cb / GS < n / GS then
          some (st.row_accumulators.getD i 0 + (tile_dot t GS i : ℚ)
            * w.s.getD (((rb + i) * n + cb) / GS) 0 * x.s.getD (cb / GS) 0)
        else st.row_accumulators[i]? := by
  unfold tile_result_exact at hexact
  cases ht : write_hw_input_tile x w rb cb n d GS with
  | none => rw [ht] at hexact; simp at hexact
  | some t =>
    rw [ht] at hexact
    simp only [Bool.and_eq_true, decide_eq_true_eq] at hexact
    obtain ⟨hret, hread⟩ := hexact
    cases hrs : read_hw_output (sim rb cb t).memory_dump (List.replicate HW_ARRAY_SIZE 0) with
    | error e => rw [hrs] at hread; simp at hread
    | ok rs =>
      rw [hrs] at hread
      simp only [List.all_eq_true, List.mem_range, beq_iff_eq] at hread
      obtain ⟨acc1, hfold, hlen, hget⟩ :=
        dequantize_lanes x w n d GS rb cb rs.results_buffer hws hxs HW_ARRAY_SIZE
          st.row_accumulators
      refine ⟨t, ⟨acc1, st.trace ++ [⟨rb, cb, t⟩]⟩, rfl, ?_, rfl, by rw [hlen, hacc], ?_⟩
      · unfold process_tile
        simp only [ht, hret, ne_eq, not_true_eq_false, if_false, hrs, hfold]
      · intro i hi
        rw [hget i]
        by_cases hc : rb + i < d ∧ ((rb + i) * n + cb) / GS < d * n / GS ∧ cb / GS < n / GS
        · rw [if_pos ⟨hi, by rw [hacc]; exact hi, hc⟩, if_pos hc,
            getD_of_getElem? _ _ _ _ (hread i hi)]
        · rw [if_neg (fun h => hc h.2.2), if_neg hc]

/-! ## Orchestrator: the column loop with an exact simulator -/

/-- The part of the reference sum of a row that falls into column block `k`
is the integer dot product of the block, scaled by the two scales of the
block. -/
theorem block_sum_eq (x w : QuantizedTensor) (row m GS k : Nat) :
    ((List.range GS).map fun j =>
        ((w.q.getD (row * (m * GS) + (k * GS + j)) 0 : ℚ)
            * w.s.getD ((row * (m * GS) + (k * GS + j)) / GS) 0) *
          ((x.q.getD (k * GS + j) 0 : ℚ) * x.s.getD ((k * GS + j) / GS) 0)).sum
      = ((((List.range GS).map fun j =>
            w.q.getD (row * (m * GS) + (k * GS + j)) 0 * x.q.getD (k * GS + j) 0).sum : Int) : ℚ)
          * w.s.getD (row * m + k) 0 * x.s.getD k 0 := by
  rw [sum_range_cast, ← sum_range_mul_right, ← sum_range_mul_right]
  apply sum_range_congr
  intro j hj
  obtain ⟨h1, h2⟩ := scale_index_in_block row m GS k j hj
  rw [h1, h2]
  push_cast
  ring

theorem block_in_range (m GS k j : Nat) (hk : k < m) (hj : j < GS) : k * GS + j < m * GS :=
  calc k * GS + j < k * GS + GS := by omega
    _ = (k + 1) * GS := by ring
    _ ≤ m * GS := Nat.mul_le_mul_right GS hk

/-- The column loop of a full row block, with an exact simulator and `n` a
multiple of `GS`: after `k` column blocks the accumulator of lane `i` holds the
reference sum of row `row_base + i` over the first `k * GS` columns. -/
theorem column_loop_exact (sim : Simulator) (x w : QuantizedTensor) (m d GS rb : Nat)
    (hGS : 1 ≤ GS) (hrb : rb + HW_ARRAY_SIZE ≤ d)
    (hwq : d * (m * GS) ≤ w.q.length) (hxq : m * GS ≤ x.q.length)
    (hws : d * (m * GS) / GS ≤ w.s.length) (hxs : m * GS / GS ≤ x.s.length)
    (hwr : ∀ v ∈ w.q, -128 ≤ v ∧ v ≤ 127) (hxr : ∀ v ∈ x.q, -128 ≤ v ∧ v ≤ 127)
    (hsim : ∀ b, b < m → tile_result_exact sim x w (m * GS) d GS rb (b * GS) = true)
    (trace0 : List TileRecord) :
    ∀ k, k ≤ m → ∃ st,
      ((List.range k).map fun b => b * GS).foldlM (process_tile sim x w (m * GS) d GS rb)
          ⟨List.replicate HW_ARRAY_SIZE 0, trace0⟩ = Except.ok st ∧
      st.row_accumulators.length = HW_ARRAY_SIZE ∧
      ∀ i, i < HW_ARRAY_SIZE → st.row_accumulators[i]? = some
        ((List.range (k * GS)).map fun j =>
          ((w.q.getD ((rb + i) * (m * GS) + j) 0 : ℚ)
              * w.s.getD (((rb + i) * (m * GS) + j) / GS) 0) *
            ((x.q.getD j 0 : ℚ) * x.s.getD (j / GS) 0)).sum := by
  intro k
  induction k with
  | zero =>
    intro _
    refine ⟨_, rfl, by simp, ?_⟩
    intro i hi
    simp [hi]
  | succ k ih =>
    intro hk
    have hkm : k < m := hk
    obtain ⟨st, hfold, hlen, hacc⟩ := ih (Nat.le_of_lt hkm)
    obtain ⟨t, st1, ht, hstep, _, hlen1, hacc1⟩ :=
      process_tile_exact sim x w (m * GS) d GS rb (k * GS) st hws hxs (hsim k hkm) hlen
    rw [List.range_succ, List.map_append, List.foldlM_append, hfold]
    simp only [bind, Except.bind, List.map_cons, List.map_nil, List.foldlM_cons,
      List.foldlM_nil, pure, Except.pure]
    rw [hstep]
    refine ⟨st1, rfl, hlen1, ?_⟩
    intro i hi
    have hrow : rb + i < d := by omega
    have hdm : d * (m * GS) / GS = d * m := by
      rw [← Nat.mul_assoc, mul_div_cancel_of_pos _ _ hGS]
    have hmm : m * GS / GS = m := mul_div_cancel_of_pos _ _ hGS
    have hidx := scale_index_in_block (rb + i) m GS k 0 (by omega)
    simp only [Nat.add_zero] at hidx
    have hcond : rb + i < d ∧ ((rb + i) * (m * GS) + k * GS) / GS < d * (m * GS) / GS ∧
        k * GS / GS < m * GS / GS := by
      rw [hidx.1, hidx.2, hdm, hmm]
      exact ⟨hrow, scale_index_lt _ _ _ _ hrow hkm, hkm⟩
    rw [hacc1 i hi, if_pos hcond, getD_of_getElem? _ _ _ _ (hacc i hi), hidx.1, hidx.2,
      tile_dot_eq x w rb (k * GS) (m * GS) d GS t hwq hxq hwr hxr ht i hi]
    have hdot : ((List.range GS).map fun j =>
          (if rb + i < d ∧ k * GS + j < m * GS then
              w.q.getD ((rb + i) * (m * GS) + (k * GS + j)) 0 else 0) *
          (if k * GS + j < m * GS then x.q.getD (k * GS + j) 0 else 0))
        = ((List.range GS).map fun j =>
          w.q.getD ((rb + i) * (m * GS) + (k * GS + j)) 0 * x.q.getD (k * GS + j) 0) := by
      apply List.map_congr_left
      intro j hj
      have hin := block_in_range m GS k j hkm (List.mem_range.1 hj)
      rw [if_pos ⟨hrow, hin⟩, if_pos hin]
    rw [hdot, ← block_sum_eq, Nat.succ_mul, sum_range_add]

/-! ## Orchestrator: the row loop with an exact simulator -/

theorem foldl_set_zero_length (ks : List Nat) :
    ∀ b : List ℚ, (ks.foldl (fun b k => b.set k 0) b).length = b.length := by
  induction ks with
  | nil => intro b; rfl
  | cons k ks ih => intro b; rw [List.foldl_cons, ih, List.length_set]

theorem memset_zero_length (xout : List ℚ) (d : Nat) :
    (memset_zero xout d).length = xout.length :=
  foldl_set_zero_length _ _

/-- The copy of the accumulators of lanes `0 .. m-1` into the output. -/
theorem commit_rows_aux (xout acc : List ℚ) (rb d : Nat) :
    ∀ m : Nat,
      ((List.range m).foldl
        (fun out i => if rb + i < d then out.set (rb + i) (acc.getD i 0) else out) xout).length
        = xout.length ∧
      ∀ k : Nat,
        ((List.range m).foldl
          (fun out i => if rb + i < d then out.set (rb + i) (acc.getD i 0) else out) xout)[k]?
          = if rb ≤ k ∧ k < rb + m ∧ k < d ∧ k < xout.length then some (acc.getD (k - rb) 0)
            else xout[k]? := by
  intro m
  induction m with
  | zero =>
    refine ⟨rfl, ?_⟩
    intro k
    rw [if_neg (by omega)]
    rfl
  | succ m ih =>
    obtain ⟨hlen, hget⟩ := ih
    rw [List.range_succ, List.foldl_append]
    simp only [List.foldl_cons, List.foldl_nil]
    by_cases hrow : rb + m < d
    · rw [if_pos hrow]
      refine ⟨by rw [List.length_set, hlen], ?_⟩
      intro k
      by_cases hk : k = rb + m
      · subst hk
        by_cases hkl : rb + m < xout.length
        · rw [List.getElem?_set_self (by rw [hlen]; exact hkl), if_pos (by omega)]
          congr 2
          omega
        · rw [List.getElem?_eq_none (by rw [List.length_set, hlen]; omega), if_neg (by omega),
            List.getElem?_eq_none (by omega)]
      · rw [List.getElem?_set_ne (fun h => hk h.symm), hget k]
        by_cases hc : rb ≤ k ∧ k < rb + m ∧ k < d ∧ k < xout.length
        · rw [if_pos hc, if_pos (by omega)]
        · rw [if_neg hc, if_neg (by omega)]
    · rw [if_neg hrow]
      refine ⟨hlen, ?_⟩
      intro k
      rw [hget k]
      by_cases hc : rb ≤ k ∧ k < rb + m ∧ k < d ∧ k < xout.length
      · rw [if_pos hc, if_pos (by omega)]
      · rw [if_neg hc, if_neg (by omega)]

theorem commit_rows_spec (xout acc : List ℚ) (rb d : Nat) :
    (commit_rows xout acc rb d).length = xout.length ∧
    ∀ k : Nat, (commit_rows xout acc rb d)[k]?
      = if rb ≤ k ∧ k < rb + HW_ARRAY_SIZE ∧ k < d ∧ k < xout.length then
          some (acc.getD (k - rb) 0)
        else xout[k]? :=
  commit_rows_aux xout acc rb d HW_ARRAY_SIZE

/-- One full row block with an exact simulator: the rows of the block receive
their reference sums, the other entries of the output are left alone. -/
theorem process_row_block_exact (sim : Simulator) (x w : QuantizedTensor) (m d GS rb : Nat)
    (st : MatmulState)
    (hGS : 1 ≤ GS) (hrb : rb + HW_ARRAY_SIZE ≤ d)
    (hwq : d * (m * GS) ≤ w.q.length) (hxq : m * GS ≤ x.q.length)
    (hws : d * (m * GS) / GS ≤ w.s.length) (hxs : m * GS / GS ≤ x.s.length)
    (hwr : ∀ v ∈ w.q, -128 ≤ v ∧ v ≤ 127) (hxr : ∀ v ∈ x.q, -128 ≤ v ∧ v ≤ 127)
    (hsim : ∀ b, b < m → tile_result_exact sim x w (m * GS) d GS rb (b * GS) = true)
    (hout : d ≤ st.xout.length) :
    ∃ st1, process_row_block sim x w (m * GS) d GS st rb = Except.ok st1 ∧
      st1.xout.length = st.xout.length ∧
      ∀ k : Nat, st1.xout[k]? =
        if rb ≤ k ∧ k < rb + HW_ARRAY_SIZE then some (reference_row x w (m * GS) GS k)
        else st.xout[k]? := by
  obtain ⟨rs, hfold, hlen, hacc⟩ :=
    column_loop_exact sim x w m d GS rb hGS hrb hwq hxq hws hxs hwr hxr hsim st.trace m
      (Nat.le_refl _)
  obtain ⟨clen, cget⟩ := commit_rows_spec st.xout rs.row_accumulators rb d
  refine ⟨⟨commit_rows st.xout rs.row_accumulators rb d, rs.trace⟩, ?_, clen, ?_⟩
  · unfold process_row_block
    rw [for_values_multiple GS m hGS]
    simp only [hfold]
  · intro k
    simp only []
    rw [cget k]
    by_cases hk : rb ≤ k ∧ k < rb + HW_ARRAY_SIZE
    · have hi : k - rb < HW_ARRAY_SIZE := by omega
      rw [if_pos ⟨hk.1, hk.2, by omega, by omega⟩, if_pos hk,
        getD_of_getElem? _ _ _ _ (hacc (k - rb) hi), reference_row_eq]
      have hrow : rb + (k - rb) = k := by omega
      rw [hrow]
    · rw [if_neg (fun h => hk ⟨h.1, h.2.1⟩), if_neg hk]

/-- The row loop over the first `k` row blocks. -/
theorem row_loop_exact (sim : Simulator) (x w : QuantizedTensor) (m da GS : Nat)
    (st0 : MatmulState)
    (hGS : 1 ≤ GS)
    (hwq : da * HW_ARRAY_SIZE * (m * GS) ≤ w.q.length) (hxq : m * GS ≤ x.q.length)
    (hws : da * HW_ARRAY_SIZE * (m * GS) / GS ≤ w.s.length) (hxs : m * GS / GS ≤ x.s.length)
    (hwr : ∀ v ∈ w.q, -128 ≤ v ∧ v ≤ 127) (hxr : ∀ v ∈ x.q, -128 ≤ v ∧ v ≤ 127)
    (hsim : ∀ a b, a < da → b < m →
      tile_result_exact sim x w (m * GS) (da * HW_ARRAY_SIZE) GS (a * HW_ARRAY_SIZE) (b * GS)
        = true)
    (hout : da * HW_ARRAY_SIZE ≤ st0.xout.length) :
    ∀ k, k ≤ da → ∃ st,
      ((List.range k).map fun a => a * HW_ARRAY_SIZE).foldlM
          (process_row_block sim x w (m * GS) (da * HW_ARRAY_SIZE) GS) st0 = Except.ok st ∧
      st.xout.length = st0.xout.length ∧
      ∀ row, row < k * HW_ARRAY_SIZE →
        st.xout[row]? = some (reference_row x w (m * GS) GS row) := by
  intro k
  induction k with
  | zero =>
    intro _
    refine ⟨st0, rfl, rfl, ?_⟩
    intro row hrow
    omega
  | succ k ih =>
    intro hk
    have hkd : k < da := hk
    obtain ⟨st, hfold, hlen, hrows⟩ := ih (Nat.le_of_lt hkd)
    have hrb : k * HW_ARRAY_SIZE + HW_ARRAY_SIZE ≤ da * HW_ARRAY_SIZE := by
      calc k * HW_ARRAY_SIZE + HW_ARRAY_SIZE = (k + 1) * HW_ARRAY_SIZE := by ring
        _ ≤ da * HW_ARRAY_SIZE := Nat.mul_le_mul_right _ hkd
    obtain ⟨st1, hstep, hlen1, hget1⟩ :=
      process_row_block_exact sim x w m (da * HW_ARRAY_SIZE) GS (k * HW_ARRAY_SIZE) st hGS hrb
        hwq hxq hws hxs hwr hxr (fun b hb => hsim k b hkd hb) (by rw [hlen]; exact hout)
    rw [List.range_succ, List.map_append, List.foldlM_append, hfold]
    simp only [bind, Except.bind, List.map_cons, List.map_nil, List.foldlM_cons,
      List.foldlM_nil, pure, Except.pure]
    rw [hstep]
    refine ⟨st1, rfl, by rw [hlen1, hlen], ?_⟩
    intro row hrow
    rw [hget1 row]
    by_cases hin : k * HW_ARRAY_SIZE ≤ row ∧ row < k * HW_ARRAY_SIZE + HW_ARRAY_SIZE
    · rw [if_pos hin]
    · rw [if_neg hin]
      apply hrows
      rw [Nat.succ_mul] at hrow
      omega

/-- C1: for `d` a multiple of `HW_ARRAY_SIZE`, `n` a multiple of `GS ≥ 1`,
tensors of signed bytes with `d * n` and `n` values and `d * n / GS` and
`n / GS` scales, and a simulator that returns in every lane of every tile the
exact integer dot product of the tile row with the vector tile, `matmul_hw`
returns, and every `xout[row]` with `row < d` is the reference sum over
`j < n` of `(w.q[row*n+j] * w.s[(row*n+j)/GS]) * (x.q[j] * x.s[j/GS])`, in
exact arithmetic. -/
theorem matmul_hw_reference (sim : Simulator) (xout : List ℚ) (x w : QuantizedTensor)
    (n d GS : Nat)
    (hGS : 1 ≤ GS) (hd : HW_ARRAY_SIZE ∣ d) (hn : GS ∣ n)
    (hwq : w.q.length = d * n) (hxq : x.q.length = n)
    (hws : w.s.length = d * n / GS) (hxs : x.s.length = n / GS)
    (hwr : ∀ v ∈ w.q, -128 ≤ v ∧ v ≤ 127) (hxr : ∀ v ∈ x.q, -128 ≤ v ∧ v ≤ 127)
    (hout : d ≤ xout.length)
    (hsim : ∀ a, a < d / HW_ARRAY_SIZE → ∀ b, b < n / GS →
      tile_result_exact sim x w n d GS (a * HW_ARRAY_SIZE) (b * GS) = true) :
    ∃ r, matmul_hw sim xout x w n d GS = Except.ok r ∧
      r.xout.length = xout.length ∧
      ∀ row, row < d → r.xout[row]? = some (reference_row x w n GS row) := by
  obtain ⟨da, hda⟩ := hd
  obtain ⟨m, hm⟩ := hn
  rw [Nat.mul_comm] at hda hm
  subst hda hm
  have h8 : 1 ≤ HW_ARRAY_SIZE := by decide
  rw [mul_div_cancel_of_pos da _ h8, mul_div_cancel_of_pos m _ hGS] at hsim
  obtain ⟨st, hfold, hlen, hrows⟩ :=
    row_loop_exact sim x w m da GS ⟨memset_zero xout (da * HW_ARRAY_SIZE), []⟩ hGS
      (le_of_eq hwq.symm) (le_of_eq hxq.symm) (le_of_eq hws.symm) (le_of_eq hxs.symm)
      hwr hxr (fun a b ha hb => hsim a ha b hb) (by rw [memset_zero_length]; exact hout) da
      (Nat.le_refl _)
  refine ⟨st, ?_, by rw [hlen]; exact memset_zero_length _ _, hrows⟩
  unfold matmul_hw
  rw [for_values_multiple HW_ARRAY_SIZE da h8]
  exact hfold

theorem matmul_hw_reference_witness :
    (∀ a, a < 8 / HW_ARRAY_SIZE → ∀ b, b < 8 / 8 →
      tile_result_exact (exact_simulator 8) scenario_a_x scenario_a_w 8 8 8
        (a * HW_ARRAY_SIZE) (b * 8) = true) ∧
    ∃ r, matmul_hw (exact_simulator 8) [9, 9, 9, 9, 9, 9, 9, 9] scenario_a_x scenario_a_w 8 8 8
        = Except.ok r ∧
      r.xout.length = ([9, 9, 9, 9, 9, 9, 9, 9] : List ℚ).length ∧
      ∀ row, row < 8 → r.xout[row]? = some (reference_row scenario_a_x scenario_a_w 8 8 row) :=
  ⟨by decide,
   matmul_hw_reference (exact_simulator 8) [9, 9, 9, 9, 9, 9, 9, 9] scenario_a_x scenario_a_w
    8 8 8 (by decide) (by decide) (by decide) (by decide) (by decide) (by decide) (by decide)
    (by decide) (by decide) (by decide) (by decide)⟩

/-! ## Dequantization: the bounds check -/

/-- For a row below `d` the two scale indices of column block `b` pass the
bounds check exactly when the block is one of the `n / GS` full blocks. -/
theorem bounds_check_iff (n d GS row b : Nat) (hGS : 1 ≤ GS) (hrow : row < d) :
    ((row * n + b * GS) / GS < d * n / GS ∧ b * GS / GS < n / GS) ↔ b < n / GS := by
  have hb : b * GS / GS = b := mul_div_cancel_of_pos b GS hGS
  rw [hb]
  constructor
  · exact fun h => h.2
  · intro h
    refine ⟨?_, h⟩
    have h1 : (b + 1) * GS ≤ n :=
      le_trans (Nat.mul_le_mul_right GS h) (Nat.div_mul_le_self n GS)
    have h2 : (row + 1) * n ≤ d * n := Nat.mul_le_mul_right n hrow
    rw [Nat.succ_mul] at h1 h2
    have h3 : row * n + b * GS + GS ≤ d * n := by omega
    have h4 : (row * n + b * GS) / GS + 1 ≤ d * n / GS := by
      rw [← Nat.add_div_right _ (by omega : 0 < GS)]
      exact Nat.div_le_div_right h3
    omega

theorem ceil_div_of_dvd (a GS : Nat) (hGS : 1 ≤ GS) (h : GS ∣ a) : ceil_div a GS = a / GS := by
  obtain ⟨m, rfl⟩ := h
  unfold ceil_div
  rw [Nat.mul_comm, mul_div_cancel_of_pos m GS hGS]
  apply Nat.div_eq_of_lt_le
  · omega
  · rw [Nat.succ_mul]; omega

theorem div_le_ceil_div (a GS : Nat) : a / GS ≤ ceil_div a GS := by
  unfold ceil_div
  rcases Nat.eq_zero_or_pos GS with h | h
  · subst h; simp
  · exact Nat.div_le_div_right (by omega)

/-- C11, as amended: with scale sequences of the lengths of the data model
(`ceil(d*n/GS)` and `ceil(n/GS)`), for every tile and every lane `i` with
`row_base + i < d`, the contribution is skipped exactly when
`w_s_idx ≥ floor(d*n/GS)` or `x_s_idx ≥ floor(n/GS)`, the bounds the code
compares with, and is accumulated into `row_accumulators[i]` otherwise. When
`GS` divides `n` these bounds are the lengths of the scale sequences, so that
the lane is skipped exactly when an index is outside its valid range. -/
theorem dequantize_lane_skips_iff (x w : QuantizedTensor) (n d GS row_base col_base i : Nat)
    (hw_results : List Int) (row_accumulators : List ℚ)
    (hGS : 1 ≤ GS) (hws : w.s.length = ceil_div (d * n) GS) (hxs : x.s.length = ceil_div n GS)
    (hrow : row_base + i < d) :
    dequantize_lane x w n d GS row_base col_base hw_results row_accumulators i
      = Except.ok
          (if d * n / GS ≤ ((row_base + i) * n + col_base) / GS ∨ n / GS ≤ col_base / GS then
            row_accumulators
          else
            row_accumulators.set i (row_accumulators.getD i 0 + (hw_results.getD i 0 : ℚ)
              * w.s.getD (((row_base + i) * n + col_base) / GS) 0
              * x.s.getD (col_base / GS) 0)) ∧
    (GS ∣ n →
      ((d * n / GS ≤ ((row_base + i) * n + col_base) / GS ∨ n / GS ≤ col_base / GS) ↔
        (w.s.length ≤ ((row_base + i) * n + col_base) / GS ∨ x.s.length ≤ col_base / GS))) := by
  constructor
  · rw [dequantize_lane_eq x w n d GS row_base col_base hw_results row_accumulators i
      (by rw [hws]; exact div_le_ceil_div _ _) (by rw [hxs]; exact div_le_ceil_div _ _)]
    by_cases hskip : d * n / GS ≤ ((row_base + i) * n + col_base) / GS ∨ n / GS ≤ col_base / GS
    · rw [if_neg (by omega), if_pos hskip]
    · rw [if_pos (by omega), if_neg hskip]
  · intro hn
    rw [hws, hxs, ceil_div_of_dvd n GS hGS hn,
      ceil_div_of_dvd (d * n) GS hGS (Dvd.dvd.mul_left hn d)]

theorem dequantize_lane_skips_iff_witness :
    dequantize_lane ⟨[1, 2, 3, 4], [2, 3]⟩ ⟨[1, 1, 1, 1], [5, 7]⟩ 4 1 2 0 2
        [6, 0, 0, 0, 0, 0, 0, 0] [1, 0, 0, 0, 0, 0, 0, 0] 0
      = Except.ok
          (if 1 * 4 / 2 ≤ ((0 + 0) * 4 + 2) / 2 ∨ 4 / 2 ≤ 2 / 2 then
            [1, 0, 0, 0, 0, 0, 0, 0]
          else
            ([1, 0, 0, 0, 0, 0, 0, 0] : List ℚ).set 0
              (([1, 0, 0, 0, 0, 0, 0, 0] : List ℚ).getD 0 0
                + ((([6, 0, 0, 0, 0, 0, 0, 0] : List Int).getD 0 0 : Int) : ℚ)
                * ([5, 7] : List ℚ).getD (((0 + 0) * 4 + 2) / 2) 0
                * ([2, 3] : List ℚ).getD (2 / 2) 0)) ∧
    (2 ∣ 4 →
      ((1 * 4 / 2 ≤ ((0 + 0) * 4 + 2) / 2 ∨ 4 / 2 ≤ 2 / 2) ↔
        (([5, 7] : List ℚ).length ≤ ((0 + 0) * 4 + 2) / 2 ∨
          ([2, 3] : List ℚ).length ≤ 2 / 2))) :=
  dequantize_lane_skips_iff ⟨[1, 2, 3, 4], [2, 3]⟩ ⟨[1, 1, 1, 1], [5, 7]⟩ 4 1 2 0 2 0
    [6, 0, 0, 0, 0, 0, 0, 0] [1, 0, 0, 0, 0, 0, 0, 0] (by decide) (by decide) (by decide)
    (by decide)

/-- C11 fails as stated: for `d = 1`, `n = 3`, `GS = 2` the data model fixes two
weight scales and two activation scales; in the tile at `(0, 2)` lane 0 has
`w_s_idx = 1` and `x_s_idx = 1`, both inside their sequences, and its
contribution `6 * 7 * 3` is skipped all the same. -/
theorem dequantize_lane_skips_valid_index_counterexample :
    (⟨[1, 1, 1], [5, 7]⟩ : QuantizedTensor).s.length = ceil_div (1 * 3) 2 ∧
    (⟨[1, 2, 3], [2, 3]⟩ : QuantizedTensor).s.length = ceil_div 3 2 ∧
    ((0 + 0) * 3 + 2) / 2 < (⟨[1, 1, 1], [5, 7]⟩ : QuantizedTensor).s.length ∧
    2 / 2 < (⟨[1, 2, 3], [2, 3]⟩ : QuantizedTensor).s.length ∧
    dequantize_lane ⟨[1, 2, 3], [2, 3]⟩ ⟨[1, 1, 1], [5, 7]⟩ 3 1 2 0 2
        [6, 0, 0, 0, 0, 0, 0, 0] [0, 0, 0, 0, 0, 0, 0, 0] 0
      = Except.ok [0, 0, 0, 0, 0, 0, 0, 0] := by
  refine ⟨by decide, by decide, by decide, by decide, ?_⟩
  simp [dequantize_lane]

/-- C17: when `n` is a multiple of `GS ≥ 1` the column loop visits
`col_base = 0, GS, ..., n - GS`, and for every row `row_base + i < d` and each
of these column blocks both scale indices are below the bounds of the check:
the lane is not skipped, its contribution is added to its accumulator. No
assumption is made on `d` and `HW_ARRAY_SIZE`. -/
theorem bounds_check_never_fires (x w : QuantizedTensor) (n d GS row_base i k : Nat)
    (hw_results : List Int) (row_accumulators : List ℚ)
    (hGS : 1 ≤ GS) (hn : GS ∣ n) (hrow : row_base + i < d) (hk : k < n / GS)
    (hws : d * n / GS ≤ w.s.length) (hxs : n / GS ≤ x.s.length) :
    for_values n GS n 0 = some ((List.range (n / GS)).map fun b => b * GS) ∧
    ((row_base + i) * n + k * GS) / GS < d * n / GS ∧ k * GS / GS < n / GS ∧
    dequantize_lane x w n d GS row_base (k * GS) hw_results row_accumulators i
      = Except.ok
          (row_accumulators.set i (row_accumulators.getD i 0 + (hw_results.getD i 0 : ℚ)
            * w.s.getD (((row_base + i) * n + k * GS) / GS) 0 * x.s.getD (k * GS / GS) 0)) := by
  have hb := (bounds_check_iff n d GS (row_base + i) k hGS hrow).2 hk
  refine ⟨?_, hb.1, hb.2, ?_⟩
  · obtain ⟨m, rfl⟩ := hn
    rw [Nat.mul_comm GS m, mul_div_cancel_of_pos m GS hGS]
    exact for_values_multiple GS m hGS
  · rw [dequantize_lane_eq x w n d GS row_base (k * GS) hw_results row_accumulators i hws hxs,
      if_pos ⟨hrow, hb.1, hb.2⟩]

theorem bounds_check_never_fires_witness :
    for_values 4 2 4 0 = some ((List.range (4 / 2)).map fun b => b * 2) ∧
    ((8 + 2) * 4 + 1 * 2) / 2 < 11 * 4 / 2 ∧ 1 * 2 / 2 < 4 / 2 ∧
    dequantize_lane ⟨[1, 2, 3, 4], [2, 3]⟩ ⟨List.replicate 44 1, List.replicate 22 5⟩ 4 11 2 8 (1 * 2)
        [6, 0, 9, 0, 0, 0, 0, 0] [1, 0, 4, 0, 0, 0, 0, 0] 2
      = Except.ok
          (([1, 0, 4, 0, 0, 0, 0, 0] : List ℚ).set 2
            (([1, 0, 4, 0, 0, 0, 0, 0] : List ℚ).getD 2 0
              + ((([6, 0, 9, 0, 0, 0, 0, 0] : List Int).getD 2 0 : Int) : ℚ)
              * (List.replicate 22 (5 : ℚ)).getD (((8 + 2) * 4 + 1 * 2) / 2) 0
              * ([2, 3] : List ℚ).getD (1 * 2 / 2) 0)) :=
  bounds_check_never_fires ⟨[1, 2, 3, 4], [2, 3]⟩ ⟨List.replicate 44 1, List.replicate 22 5⟩
    4 11 2 8 2 1 [6, 0, 9, 0, 0, 0, 0, 0] [1, 0, 4, 0, 0, 0, 0, 0]
    (by decide) (by decide) (by decide) (by decide) (by decide) (by decide)

/-! ## ResultDecoder: missing and malformed artifacts -/

/-- When no line carries a value the read loop only collects the warnings
for the lines that are neither comments nor blank. -/
theorem read_loop_no_values (lines : List (List Char)) :
    ∀ st : ReadState, st.i < HW_ARRAY_SIZE → numeric_values lines = [] →
      read_loop lines st
        = { st with warnings := st.warnings ++
              (lines.filter fun l => !is_comment l && !is_blank l).map Warning.unparsable } := by
  induction lines with
  | nil => intro st _ _; simp [read_loop]
  | cons l rest ih =>
    intro st hi hvals
    rw [numeric_values_cons] at hvals
    by_cases hskip : is_comment l = true ∨ is_blank l = true
    · have hv : line_value l = none := by
        unfold line_value
        rcases hskip with h | h <;> simp [h]
      rw [hv] at hvals
      rw [read_loop_cons_skip l rest st hi hskip, ih st hi hvals,
        List.filter_cons_of_neg (by rcases hskip with h | h <;> simp [h])]
    · have hc : is_comment l = false := by
        cases h : is_comment l <;> simp_all
      have hb : is_blank l = false := by
        cases h : is_blank l <;> simp_all
      cases hu : sscanf_x (c_string l) with
      | none =>
        have hv : line_value l = none := line_value_of_unparsable l hu
        rw [hv] at hvals
        have hstep := ih { st with warnings := st.warnings ++ [Warning.unparsable l] } hi hvals
        rw [read_loop_cons_none l rest st hi hc hb hu, hstep,
          List.filter_cons_of_pos (by simp [hc, hb])]
        simp
      | some u =>
        have hv : line_value l = some (to_int32 u) := by simp [line_value, hc, hb, hu]
        rw [hv] at hvals
        simp at hvals

theorem numeric_values_of_malformed (lines : List (List Char))
    (h : ∀ l ∈ lines, is_comment l = false → is_blank l = false →
      sscanf_x (c_string l) = none) :
    numeric_values lines = [] := by
  induction lines with
  | nil => rfl
  | cons l rest ih =>
    have hv : line_value l = none := by
      unfold line_value
      split
      · rfl
      · rename_i hskip
        simp only [Bool.or_eq_true, not_or, Bool.not_eq_true] at hskip
        rw [h l (List.mem_cons_self _ _) hskip.1 hskip.2]
        rfl
    rw [numeric_values_cons, hv]
    exact ih (fun l hl => h l (List.mem_cons_of_mem _ hl))

/-- C15, as amended: a result artifact that cannot be opened makes
`read_hw_output` stop with a fatal error, and no artifact that can be opened
does. For a malformed artifact, one whose lines that are neither comments nor
blank all fail to parse, with lines of at most 255 characters (`ls` are the
lines that a newline ends, `tail` is what follows the last newline): the call
returns, each of these lines is reported in a warning, with or without its
newline, no slot is filled, the buffer is set to zeros and the shortfall
warning with count 0 is printed. -/
theorem read_hw_output_missing_or_malformed (ls : List Line) (tail : Line)
    (results_buffer : List Int)
    (hlen : results_buffer.length = HW_ARRAY_SIZE)
    (hls : ∀ l ∈ ls, l.length ≤ 255 ∧ ∀ c ∈ l, c.toNat ≠ 10)
    (htail : tail.length ≤ 255 ∧ ∀ c ∈ tail, c.toNat ≠ 10)
    (hmal : ∀ l ∈ ls ++ [tail], is_comment l = false → is_blank l = false →
      sscanf_x (c_string l) = none) :
    read_hw_output none results_buffer = Except.error Halt.dump_unreadable ∧
    (∀ content : List Char, ∃ st0, read_hw_output (some content) results_buffer = Except.ok st0) ∧
    ∃ st, read_hw_output (some (artifact_text ls ++ tail)) results_buffer = Except.ok st ∧
      st.i = 0 ∧
      st.results_buffer = List.replicate HW_ARRAY_SIZE 0 ∧
      Warning.shortfall 0 ∈ st.warnings ∧
      ∀ l ∈ ls ++ [tail], is_comment l = false → is_blank l = false →
        Warning.unparsable (l ++ ['\n']) ∈ st.warnings ∨ Warning.unparsable l ∈ st.warnings := by
  refine ⟨rfl, fun content => ⟨_, read_hw_output_some content results_buffer⟩, ?_⟩
  have hvals : numeric_values (fgets_lines 255 [] (artifact_text ls ++ tail)) = [] := by
    rw [numeric_values_fgets_artifact ls tail hls htail]
    exact numeric_values_of_malformed _ hmal
  have h08 : (0 : Nat) < HW_ARRAY_SIZE := by decide
  have hloop := read_loop_no_values (fgets_lines 255 [] (artifact_text ls ++ tail))
    ⟨0, results_buffer, []⟩ h08 hvals
  obtain ⟨st, hst, hi, hbuf⟩ :=
    read_hw_output_buffer (artifact_text ls ++ tail) results_buffer hlen
  rw [hvals] at hi hbuf
  have hst2 := hst
  rw [read_hw_output_some, hloop, if_pos h08] at hst2
  have hst3 := Except.ok.inj hst2
  have hwarn : ∀ p ∈ fgets_lines 255 [] (artifact_text ls ++ tail),
      is_comment p = false → is_blank p = false → Warning.unparsable p ∈ st.warnings := by
    intro p hp hc hb
    rw [← hst3]
    simp only [List.nil_append, List.mem_append, List.mem_map, List.mem_filter,
      List.mem_singleton]
    left
    exact ⟨p, ⟨hp, by simp [hc, hb]⟩, rfl⟩
  obtain ⟨hmem, hmemtail⟩ := fgets_lines_line_mem ls tail hls htail
  refine ⟨st, hst, by simpa using hi, ?_, ?_, ?_⟩
  · rw [hbuf]
    decide
  · rw [← hst3]
    simp
  · intro l hl hc hb
    rcases List.mem_append.1 hl with h | h
    · rcases hmem l h with h1 | h1
      · left
        exact hwarn _ h1 (by rw [is_comment_newline]; exact hc)
          (by rw [is_blank_newline]; exact hb)
      · right
        exact hwarn _ h1 hc hb
    · rw [List.mem_singleton.1 h] at hc hb ⊢
      right
      have hne : tail ≠ [] := by
        intro he
        rw [he] at hb
        exact absurd hb (by decide)
      exact hwarn _ (hmemtail hne) hc hb

theorem read_hw_output_missing_or_malformed_witness :
    read_hw_output none [7, 7, 7, 7, 7, 7, 7, 7] = Except.error Halt.dump_unreadable ∧
    (∀ content : List Char,
      ∃ st0, read_hw_output (some content) [7, 7, 7, 7, 7, 7, 7, 7] = Except.ok st0) ∧
    ∃ st, read_hw_output (some (artifact_text [['/', '/', 'a'], ['z', 'z'], [' ']] ++ ['x']))
        [7, 7, 7, 7, 7, 7, 7, 7] = Except.ok st ∧
      st.i = 0 ∧
      st.results_buffer = List.replicate HW_ARRAY_SIZE 0 ∧
      Warning.shortfall 0 ∈ st.warnings ∧
      ∀ l ∈ [['/', '/', 'a'], ['z', 'z'], [' ']] ++ [['x']],
        is_comment l = false → is_blank l = false →
        Warning.unparsable (l ++ ['\n']) ∈ st.warnings ∨ Warning.unparsable l ∈ st.warnings :=
  read_hw_output_missing_or_malformed [['/', '/', 'a'], ['z', 'z'], [' ']] ['x']
    [7, 7, 7, 7, 7, 7, 7, 7] (by decide) (by decide) (by decide) (by decide)

/-- C15 fails as stated: the artifact with the two lines `zz` and `x`, neither
of which parses as hexadecimal, is read without a fatal error and the buffer
comes back filled with zeros. -/
theorem read_hw_output_malformed_counterexample :
    sscanf_x (c_string ['z', 'z', '\n']) = none ∧ sscanf_x (c_string ['x', '\n']) = none ∧
    ∃ st, read_hw_output (some ['z', 'z', '\n', 'x', '\n']) [7, 7, 7, 7, 7, 7, 7, 7]
        = Except.ok st ∧
      st.results_buffer = [0, 0, 0, 0, 0, 0, 0, 0] :=
  ⟨by decide, by decide, _, rfl, by decide⟩

/-! ## Orchestrator: the loops for any simulator -/

/-- With a positive step the loop `for (v = 0; v < bound; v += step)`, given
`bound` steps, visits the `ceil(bound / step)` multiples of the step below the
bound. -/
theorem for_values_from_zero (bound step : Nat) (hstep : 1 ≤ step) :
    for_values bound step bound 0
      = some ((List.range (ceil_div bound step)).map fun j => j * step) := by
  rw [for_values_eq bound step hstep bound 0
    (by simp only [Nat.sub_zero]; exact Nat.le_mul_of_pos_right _ hstep)]
  simp [ceil_div]

theorem tile_launch_ok_iff (sim : Simulator) (x w : QuantizedTensor) (n d GS rb cb : Nat) :
    tile_launch_ok sim x w n d GS rb cb = true ↔
      ∃ t content, write_hw_input_tile x w rb cb n d GS = some t ∧
        (sim rb cb t).ret = 0 ∧ (sim rb cb t).memory_dump = some content := by
  unfold tile_launch_ok tile_dump_readable tile_exit_code
  cases ht : write_hw_input_tile x w rb cb n d GS with
  | none => simp
  | some t =>
    cases hd : (sim rb cb t).memory_dump with
    | none => simp [hd]
    | some content => simp [hd]

theorem foldl_add_range_succ (f : Nat → ℚ) (k : Nat) :
    (List.range (k + 1)).foldl (fun acc b => acc + f b) 0
      = (List.range k).foldl (fun acc b => acc + f b) 0 + f k := by
  rw [List.range_succ, List.foldl_append]
  rfl

/-- What `process_tile` does when the launch for the tile succeeds, whatever
the simulator returns. -/
theorem process_tile_general (sim : Simulator) (x w : QuantizedTensor) (n d GS rb cb : Nat)
    (st : RowState)
    (hws : d * n / GS ≤ w.s.length) (hxs : n / GS ≤ x.s.length)
    (hok : tile_launch_ok sim x w n d GS rb cb = true)
    (hacc : st.row_accumulators.length = HW_ARRAY_SIZE) :
    ∃ t st1, write_hw_input_tile x w rb cb n d GS = some t ∧
      process_tile sim x w n d GS rb st cb = Except.ok st1 ∧
      st1.trace = st.trace ++ [⟨rb, cb, t⟩] ∧
      st1.row_accumulators.length = HW_ARRAY_SIZE ∧
      ∀ i : Nat, i < HW_ARRAY_SIZE → st1.row_accumulators[i]? =
        if rb + i < d ∧ ((rb + i) * n + cb) / GS < d * n / GS ∧ cb / GS < n / GS then
          some (st.row_accumulators.getD i 0
            + ((tile_result sim x w n d GS rb cb).getD i 0 : ℚ)
            * w.s.getD (((rb + i) * n + cb) / GS) 0 * x.s.getD (cb / GS) 0)
        else st.row_accumulators[i]? := by
  obtain ⟨t, content, ht, hret, hdump⟩ := (tile_launch_ok_iff sim x w n d GS rb cb).1 hok
  have hread := read_hw_output_some content (List.replicate HW_ARRAY_SIZE 0)
  generalize hrs : (if (read_loop (fgets_lines 255 [] content)
      ⟨0, List.replicate HW_ARRAY_SIZE 0, []⟩).i < HW_ARRAY_SIZE then _ else _) = rs at hread
  have hres : tile_result sim x w n d GS rb cb = rs.results_buffer := by
    unfold tile_result
    simp only [ht, hdump, hread]
  obtain ⟨acc1, hfold, hlen, hget⟩ :=
    dequantize_lanes x w n d GS rb cb rs.results_buffer hws hxs HW_ARRAY_SIZE
      st.row_accumulators
  refine ⟨t, ⟨acc1, st.trace ++ [⟨rb, cb, t⟩]⟩, ht, ?_, rfl, by rw [hlen, hacc], ?_⟩
  · unfold process_tile
    simp only [ht, hret, ne_eq, not_true_eq_false, if_false, hdump, hread, hfold]
  · intro i hi
    rw [hget i, hres]
    by_cases hc : rb + i < d ∧ ((rb + i) * n + cb) / GS < d * n / GS ∧ cb / GS < n / GS
    · rw [if_pos ⟨hi, by rw [hacc]; exact hi, hc⟩, if_pos hc]
    · rw [if_neg (fun h => hc h.2.2), if_neg hc]

/-- The column loop of one row block over its first `k` column blocks, when
the launches for these succeed: the accumulator of a lane whose row is below
`d` holds the sum of the contributions of those among them that are full
blocks, and each launch is recorded. -/
theorem column_loop_general (sim : Simulator) (x w : QuantizedTensor) (n d GS rb : Nat)
    (hGS : 1 ≤ GS)
    (hws : d * n / GS ≤ w.s.length) (hxs : n / GS ≤ x.s.length)
    (trace0 : List TileRecord) :
    ∀ k, (∀ b, b < k → tile_launch_ok sim x w n d GS rb (b * GS) = true) → ∃ st,
      ((List.range k).map fun b => b * GS).foldlM (process_tile sim x w n d GS rb)
          ⟨List.replicate HW_ARRAY_SIZE 0, trace0⟩ = Except.ok st ∧
      st.row_accumulators.length = HW_ARRAY_SIZE ∧
      st.trace.map TileRecord.origin
        = trace0.map TileRecord.origin ++ (List.range k).map (fun b => (rb, b * GS)) ∧
      (∀ r ∈ st.trace, r ∈ trace0 ∨
        write_hw_input_tile x w r.row_base r.col_base n d GS = some r.artifacts) ∧
      ∀ i, i < HW_ARRAY_SIZE → rb + i < d → st.row_accumulators[i]? = some
        ((List.range (min k (n / GS))).foldl (fun acc b => acc +
          ((tile_result sim x w n d GS rb (b * GS)).getD i 0 : ℚ)
            * w.s.getD (((rb + i) * n + b * GS) / GS) 0 * x.s.getD (b * GS / GS) 0) 0) := by
  intro k
  induction k with
  | zero =>
    intro _
    refine ⟨_, rfl, by simp, by simp, fun r hr => Or.inl hr, ?_⟩
    intro i hi _
    simp [hi]
  | succ k ih =>
    intro hok
    obtain ⟨st, hfold, hlen, htrace, hrec, hacc⟩ :=
      ih (fun b hb => hok b (Nat.lt_succ_of_lt hb))
    obtain ⟨t, st1, ht, hstep, htr1, hlen1, hacc1⟩ :=
      process_tile_general sim x w n d GS rb (k * GS) st hws hxs (hok k (Nat.lt_succ_self k)) hlen
    rw [List.range_succ, List.map_append, List.foldlM_append, hfold]
    simp only [bind, Except.bind, List.map_cons, List.map_nil, List.foldlM_cons,
      List.foldlM_nil, pure, Except.pure]
    rw [hstep]
    refine ⟨st1, rfl, hlen1, ?_, ?_, ?_⟩
    · rw [htr1, List.map_append, htrace, List.map_append, List.append_assoc]
      rfl
    · intro r hr
      rw [htr1] at hr
      rcases List.mem_append.1 hr with h | h
      · exact hrec r h
      · simp only [List.mem_singleton] at h
        subst h
        exact Or.inr ht
    · intro i hi hrow
      have hiff := bounds_check_iff n d GS (rb + i) k hGS hrow
      rw [hacc1 i hi, getD_of_getElem? _ _ _ _ (hacc i hi hrow)]
      by_cases hk : k < n / GS
      · rw [if_pos ⟨hrow, hiff.2 hk⟩, Nat.min_eq_left (by omega : k + 1 ≤ n / GS),
          Nat.min_eq_left (Nat.le_of_lt hk), foldl_add_range_succ]
      · rw [if_neg (fun h => hk (hiff.1 h.2)), hacc i hi hrow,
          Nat.min_eq_right (by omega : n / GS ≤ k + 1), Nat.min_eq_right (by omega : n / GS ≤ k)]

theorem foldl_set_zero_getElem? (m : Nat) : ∀ (i : Nat) (b : List ℚ) (k : Nat),
    ((List.range' i m).foldl (fun b j => b.set j 0) b)[k]?
      = if i ≤ k ∧ k < i + m ∧ k < b.length then some 0 else b[k]? := by
  induction m with
  | zero =>
    intro i b k
    have : ¬ (i ≤ k ∧ k < i + 0 ∧ k < b.length) := by omega
    rw [if_neg this]
    rfl
  | succ m ih =>
    intro i b k
    rw [List.range'_succ, List.foldl_cons, ih (i + 1) (b.set i 0) k]
    simp only [List.length_set]
    by_cases hki : k = i
    · subst hki
      by_cases hkb : k < b.length
      · rw [if_neg (by omega), if_pos (by omega), List.getElem?_set_self hkb]
      · rw [if_neg (by omega), if_neg (by omega),
          List.getElem?_eq_none (by simpa using Nat.le_of_not_lt hkb),
          List.getElem?_eq_none (Nat.le_of_not_lt hkb)]
    · have hne : i ≠ k := fun h => hki h.symm
      rw [List.getElem?_set_ne hne]
      by_cases h1 : i + 1 ≤ k ∧ k < i + 1 + m ∧ k < b.length
      · rw [if_pos h1, if_pos (by omega)]
      · rw [if_neg h1, if_neg (by omega)]

/-- The call of `memset` sets the entries below `d` to zero and no other. -/
theorem memset_zero_getElem? (xout : List ℚ) (d k : Nat) :
    (memset_zero xout d)[k]? = if k < d ∧ k < xout.length then some 0 else xout[k]? := by
  unfold memset_zero
  rw [foldl_set_zero_getElem?]
  by_cases h : k < d ∧ k < xout.length
  · rw [if_pos (by omega), if_pos h]
  · rw [if_neg (by omega), if_neg h]

theorem row_block_of_mem (a k : Nat) (h1 : a * HW_ARRAY_SIZE ≤ k)
    (h2 : k < a * HW_ARRAY_SIZE + HW_ARRAY_SIZE) :
    HW_ARRAY_SIZE * (k / HW_ARRAY_SIZE) = a * HW_ARRAY_SIZE := by
  unfold HW_ARRAY_SIZE at *
  omega

/-- One row block, when the launches for all its tiles succeed: the rows of
the block below `d` receive the sums of their contributions, no other entry
of the output changes, and the launches of the block are recorded in order. -/
theorem process_row_block_general (sim : Simulator) (x w : QuantizedTensor) (n d GS a : Nat)
    (st : MatmulState) (hGS : 1 ≤ GS)
    (hws : d * n / GS ≤ w.s.length) (hxs : n / GS ≤ x.s.length)
    (hok : ∀ b, b < ceil_div n GS →
      tile_launch_ok sim x w n d GS (a * HW_ARRAY_SIZE) (b * GS) = true) :
    ∃ st1, process_row_block sim x w n d GS st (a * HW_ARRAY_SIZE) = Except.ok st1 ∧
      st1.xout.length = st.xout.length ∧
      (∀ k : Nat, st1.xout[k]? =
        if a * HW_ARRAY_SIZE ≤ k ∧ k < a * HW_ARRAY_SIZE + HW_ARRAY_SIZE ∧ k < d ∧
            k < st.xout.length then
          some (accumulated_row sim x w n d GS k)
        else st.xout[k]?) ∧
      st1.trace.map TileRecord.origin
        = st.trace.map TileRecord.origin ++
            (List.range (ceil_div n GS)).map (fun b => (a * HW_ARRAY_SIZE, b * GS)) ∧
      (∀ r ∈ st1.trace, r ∈ st.trace ∨
        write_hw_input_tile x w r.row_base r.col_base n d GS = some r.artifacts) := by
  obtain ⟨rs, hfold, hlen, htrace, hrec, hacc⟩ :=
    column_loop_general sim x w n d GS (a * HW_ARRAY_SIZE) hGS hws hxs st.trace
      (ceil_div n GS) hok
  obtain ⟨clen, cget⟩ := commit_rows_spec st.xout rs.row_accumulators (a * HW_ARRAY_SIZE) d
  refine ⟨⟨commit_rows st.xout rs.row_accumulators (a * HW_ARRAY_SIZE) d, rs.trace⟩,
    ?_, clen, ?_, htrace, hrec⟩
  · unfold process_row_block
    rw [for_values_from_zero n GS hGS]
    simp only [hfold]
  · intro k
    simp only []
    rw [cget k]
    by_cases hk : a * HW_ARRAY_SIZE ≤ k ∧ k < a * HW_ARRAY_SIZE + HW_ARRAY_SIZE ∧ k < d ∧
        k < st.xout.length
    · have hi : k - a * HW_ARRAY_SIZE < HW_ARRAY_SIZE := by omega
      have hrow : a * HW_ARRAY_SIZE + (k - a * HW_ARRAY_SIZE) = k := by omega
      have hacc1 := hacc (k - a * HW_ARRAY_SIZE) hi (by rw [hrow]; exact hk.2.2.1)
      rw [hrow, Nat.min_eq_right (div_le_ceil_div n GS)] at hacc1
      rw [if_pos hk, if_pos hk, getD_of_getElem? _ _ _ _ hacc1]
      unfold accumulated_row block_term
      rw [row_block_of_mem a k hk.1 hk.2.1]
    · rw [if_neg hk, if_neg hk]

/-- The row loop over the first `j` row blocks, when the launches for all
their tiles succeed. -/
theorem row_loop_general (sim : Simulator) (x w : QuantizedTensor) (n d GS : Nat)
    (st0 : MatmulState) (hGS : 1 ≤ GS)
    (hws : d * n / GS ≤ w.s.length) (hxs : n / GS ≤ x.s.length) :
    ∀ j, (∀ a, a < j → ∀ b, b < ceil_div n GS →
        tile_launch_ok sim x w n d GS (a * HW_ARRAY_SIZE) (b * GS) = true) → ∃ st,
      ((List.range j).map fun a => a * HW_ARRAY_SIZE).foldlM
          (process_row_block sim x w n d GS) st0 = Except.ok st ∧
      st.xout.length = st0.xout.length ∧
      (∀ k : Nat, st.xout[k]? =
        if k < j * HW_ARRAY_SIZE ∧ k < d ∧ k < st0.xout.length then
          some (accumulated_row sim x w n d GS k)
        else st0.xout[k]?) ∧
      st.trace.map TileRecord.origin
        = st0.trace.map TileRecord.origin ++
            (List.range j).flatMap (fun a =>
              (List.range (ceil_div n GS)).map fun b => (a * HW_ARRAY_SIZE, b * GS)) ∧
      (∀ r ∈ st.trace, r ∈ st0.trace ∨
        write_hw_input_tile x w r.row_base r.col_base n d GS = some r.artifacts) := by
  intro j
  induction j with
  | zero =>
    intro _
    refine ⟨st0, rfl, rfl, ?_, by simp, fun r hr => Or.inl hr⟩
    intro k
    rw [if_neg (by omega)]
  | succ j ih =>
    intro hok
    obtain ⟨st, hfold, hlen, hget, htrace, hrec⟩ :=
      ih (fun a ha => hok a (Nat.lt_succ_of_lt ha))
    obtain ⟨st1, hstep, hlen1, hget1, htrace1, hrec1⟩ :=
      process_row_block_general sim x w n d GS j st hGS hws hxs (hok j (Nat.lt_succ_self j))
    rw [List.range_succ, List.map_append, List.foldlM_append, hfold]
    simp only [bind, Except.bind, List.map_cons, List.map_nil, List.foldlM_cons,
      List.foldlM_nil, pure, Except.pure]
    rw [hstep]
    refine ⟨st1, rfl, by rw [hlen1, hlen], ?_, ?_, ?_⟩
    · intro k
      rw [hget1 k, hget k, hlen, Nat.succ_mul]
      by_cases hin : j * HW_ARRAY_SIZE ≤ k ∧ k < j * HW_ARRAY_SIZE + HW_ARRAY_SIZE ∧ k < d ∧
          k < st0.xout.length
      · rw [if_pos hin, if_pos (by omega)]
      · rw [if_neg hin]
        by_cases hlow : k < j * HW_ARRAY_SIZE ∧ k < d ∧ k < st0.xout.length
        · rw [if_pos hlow, if_pos (by omega)]
        · rw [if_neg hlow, if_neg (by omega)]
    · rw [htrace1, htrace, List.flatMap_append, List.append_assoc]
      simp
    · intro r hr
      rcases hrec1 r hr with h | h
      · exact hrec r h
      · exact Or.inr h

theorem ceil_div_mul_ge (d : Nat) : d ≤ ceil_div d HW_ARRAY_SIZE * HW_ARRAY_SIZE := by
  unfold ceil_div HW_ARRAY_SIZE
  omega

/-- The whole of `matmul_hw` for `GS ≥ 1`, when the launches for all the
tiles succeed: the call returns; the entries of the output below `d` hold the
sums of the contributions of the full column blocks of their rows, the other
entries are those of the caller; the launches are recorded in row-major
order, each with the artifacts of its tile. -/
theorem matmul_hw_general (sim : Simulator) (xout : List ℚ) (x w : QuantizedTensor)
    (n d GS : Nat) (hGS : 1 ≤ GS)
    (hws : d * n / GS ≤ w.s.length) (hxs : n / GS ≤ x.s.length)
    (hok : ∀ a, a < ceil_div d HW_ARRAY_SIZE → ∀ b, b < ceil_div n GS →
      tile_launch_ok sim x w n d GS (a * HW_ARRAY_SIZE) (b * GS) = true) :
    ∃ r, matmul_hw sim xout x w n d GS = Except.ok r ∧
      r.xout.length = xout.length ∧
      (∀ k : Nat, r.xout[k]? =
        if k < d ∧ k < xout.length then some (accumulated_row sim x w n d GS k)
        else xout[k]?) ∧
      r.trace.map TileRecord.origin = tile_origins d n GS ∧
      (∀ rec ∈ r.trace,
        write_hw_input_tile x w rec.row_base rec.col_base n d GS = some rec.artifacts) := by
  obtain ⟨st, hfold, hlen, hget, htrace, hrec⟩ :=
    row_loop_general sim x w n d GS ⟨memset_zero xout d, []⟩ hGS hws hxs
      (ceil_div d HW_ARRAY_SIZE) hok
  have h8 : 1 ≤ HW_ARRAY_SIZE := by decide
  refine ⟨st, ?_, by rw [hlen]; exact memset_zero_length _ _, ?_, ?_, ?_⟩
  · unfold matmul_hw
    rw [for_values_from_zero d HW_ARRAY_SIZE h8]
    exact hfold
  · intro k
    have hge := ceil_div_mul_ge d
    rw [hget k]
    simp only [memset_zero_length]
    by_cases hk : k < d ∧ k < xout.length
    · rw [if_pos ⟨by omega, hk⟩, if_pos hk]
    · rw [if_neg (fun h => hk h.2), if_neg hk, memset_zero_getElem?, if_neg hk]
  · rw [htrace]
    rfl
  · intro rec hrec1
    rcases hrec rec hrec1 with h | h
    · simp at h
    · exact h

/-! ## Orchestrator: the sequence of tiles -/

theorem tile_origins_length (d n GS : Nat) :
    (tile_origins d n GS).length = ceil_div d HW_ARRAY_SIZE * ceil_div n GS := by
  unfold tile_origins
  rw [List.length_flatMap]
  simp [Function.comp_def]

theorem mem_tile_origins (d n GS : Nat) (p : Nat × Nat) :
    p ∈ tile_origins d n GS ↔
      ∃ a, a < ceil_div d HW_ARRAY_SIZE ∧ ∃ b, b < ceil_div n GS ∧
        p = (a * HW_ARRAY_SIZE, b * GS) := by
  unfold tile_origins
  simp only [List.mem_flatMap, List.mem_map, List.mem_range]
  constructor
  · rintro ⟨a, ha, b, hb, rfl⟩
    exact ⟨a, ha, b, hb, rfl⟩
  · rintro ⟨a, ha, b, hb, rfl⟩
    exact ⟨a, ha, b, hb, rfl⟩

/-- No tile origin occurs twice in the sequence. -/
theorem tile_origins_nodup (d n GS : Nat) (hGS : 1 ≤ GS) : (tile_origins d n GS).Nodup := by
  unfold tile_origins
  rw [List.nodup_flatMap]
  constructor
  · intro a _
    apply List.Nodup.map _ (List.nodup_range _)
    intro b1 b2 h
    simp only [Prod.mk.injEq, true_and] at h
    exact Nat.eq_of_mul_eq_mul_right (by omega) h
  · apply List.Pairwise.imp _ (List.pairwise_lt_range _)
    intro a1 a2 hlt
    simp only [Function.onFun]
    rw [List.disjoint_left]
    intro p h1 h2
    simp only [List.mem_map, List.mem_range] at h1 h2
    obtain ⟨b1, _, rfl⟩ := h1
    obtain ⟨b2, _, h⟩ := h2
    simp only [Prod.mk.injEq] at h
    have := h.1
    unfold HW_ARRAY_SIZE at this
    omega

/-- C13: for `GS ≥ 1`, when every invocation of the simulator succeeds (exit
code 0 and a result artifact that can be opened), `matmul_hw` returns after
exactly `ceil(d/HW_ARRAY_SIZE) * ceil(n/GS)` launches, one for each tile, no
tile twice; the origins of the tiles, in the order of the launches, are the
row-major list with `row_base = 0, HW_ARRAY_SIZE, ...` below `d` and
`col_base = 0, GS, ...` below `n`, and each launch follows the encoding of its
tile. For `d = 16, n = 16, GS = 8` the list is `(0,0), (0,8), (8,0), (8,8)`,
for `d = 8, n = 8, GS = 8` it is `(0,0)`. -/
theorem matmul_hw_launches (sim : Simulator) (xout : List ℚ) (x w : QuantizedTensor)
    (n d GS : Nat) (hGS : 1 ≤ GS)
    (hws : d * n / GS ≤ w.s.length) (hxs : n / GS ≤ x.s.length)
    (hok : ∀ a, a < ceil_div d HW_ARRAY_SIZE → ∀ b, b < ceil_div n GS →
      tile_launch_ok sim x w n d GS (a * HW_ARRAY_SIZE) (b * GS) = true) :
    tile_origins 16 16 8 = [(0, 0), (0, 8), (8, 0), (8, 8)] ∧
    tile_origins 8 8 8 = [(0, 0)] ∧
    ∃ r, matmul_hw sim xout x w n d GS = Except.ok r ∧
      r.trace.length = ceil_div d HW_ARRAY_SIZE * ceil_div n GS ∧
      r.trace.map TileRecord.origin = tile_origins d n GS ∧
      (r.trace.map TileRecord.origin).Nodup ∧
      (∀ rec ∈ r.trace,
        write_hw_input_tile x w rec.row_base rec.col_base n d GS = some rec.artifacts) := by
  obtain ⟨r, hr, _, _, htrace, hrec⟩ := matmul_hw_general sim xout x w n d GS hGS hws hxs hok
  refine ⟨by decide, by decide, r, hr, ?_, htrace, ?_, hrec⟩
  · rw [← tile_origins_length, ← htrace, List.length_map]
  · rw [htrace]
    exact tile_origins_nodup d n GS hGS

theorem matmul_hw_launches_witness :
    tile_origins 16 16 8 = [(0, 0), (0, 8), (8, 0), (8, 8)] ∧
    tile_origins 8 8 8 = [(0, 0)] ∧
    ∃ r, matmul_hw (exact_simulator 8) (List.replicate 16 9) scenario_b_x scenario_b_w 16 16 8
        = Except.ok r ∧
      r.trace.length = ceil_div 16 HW_ARRAY_SIZE * ceil_div 16 8 ∧
      r.trace.map TileRecord.origin = tile_origins 16 16 8 ∧
      (r.trace.map TileRecord.origin).Nodup ∧
      (∀ rec ∈ r.trace,
        write_hw_input_tile scenario_b_x scenario_b_w rec.row_base rec.col_base 16 16 8
          = some rec.artifacts) :=
  matmul_hw_launches (exact_simulator 8) (List.replicate 16 9) scenario_b_x scenario_b_w 16 16 8
    (by decide) (by decide) (by decide) (by decide)

/-! ## Orchestrator: what the output holds -/

theorem foldl_add_range_congr (f g : Nat → ℚ) (k : Nat) (h : ∀ b, b < k → f b = g b) :
    (List.range k).foldl (fun acc b => acc + f b) 0
      = (List.range k).foldl (fun acc b => acc + g b) 0 := by
  induction k with
  | zero => rfl
  | succ k ih =>
    rw [foldl_add_range_succ, foldl_add_range_succ, ih (fun b hb => h b (Nat.lt_succ_of_lt hb)),
      h k (Nat.lt_succ_self k)]

theorem row_block_lt (d row : Nat) (hrow : row < d) :
    row / HW_ARRAY_SIZE < ceil_div d HW_ARRAY_SIZE ∧
    row - HW_ARRAY_SIZE * (row / HW_ARRAY_SIZE) < HW_ARRAY_SIZE ∧
    row / HW_ARRAY_SIZE * HW_ARRAY_SIZE + (row - HW_ARRAY_SIZE * (row / HW_ARRAY_SIZE)) = row := by
  unfold ceil_div HW_ARRAY_SIZE
  omega

/-! ## Orchestrator: the loops for any arithmetic of `float` -/

/-- One lane of the dequantization loop, when the scale sequences are as long
as the bounds check assumes: the accumulator of a row below `d` whose scale
indices pass the check becomes its sum with the scaled result, any other is
left alone. -/
theorem dequantize_lane_fp_eq {F : Type} (fa : FloatArith F) (x w : FloatTensor F)
    (n d GS rb cb : Nat) (hw_results : List Int) (acc : List F) (i : Nat)
    (hws : d * n / GS ≤ w.s.length) (hxs : n / GS ≤ x.s.length) :
    dequantize_lane_fp fa x w n d GS rb cb hw_results acc i
      = Except.ok
          (if rb + i < d ∧ ((rb + i) * n + cb) / GS < d * n / GS ∧ cb / GS < n / GS then
            acc.set i (fa.add (acc.getD i fa.zero)
              (fa.mul (fa.mul (fa.of_int32 (hw_results.getD i 0))
                (w.s.getD (((rb + i) * n + cb) / GS) fa.zero))
                (x.s.getD (cb / GS) fa.zero)))
          else acc) := by
  unfold dequantize_lane_fp
  by_cases hrow : rb + i < d
  · by_cases hskip : ((rb + i) * n + cb) / GS ≥ d * n / GS ∨ cb / GS ≥ n / GS
    · have hc : ¬ (rb + i < d ∧ ((rb + i) * n + cb) / GS < d * n / GS ∧ cb / GS < n / GS) := by
        omega
      rw [if_neg hc]
      simp only [hrow, if_true, hskip]
    · have hc : rb + i < d ∧ ((rb + i) * n + cb) / GS < d * n / GS ∧ cb / GS < n / GS := by
        omega
      have h1 : ((rb + i) * n + cb) / GS < w.s.length := by omega
      have h2 : cb / GS < x.s.length := by omega
      rw [if_pos hc, getD_of_getElem? _ _ _ _ (List.getElem?_eq_getElem h1),
        getD_of_getElem? _ _ _ _ (List.getElem?_eq_getElem h2)]
      simp only [hrow, if_true, hskip, if_false,
        List.getElem?_eq_getElem h1, List.getElem?_eq_getElem h2]
  · have hc : ¬ (rb + i < d ∧ ((rb + i) * n + cb) / GS < d * n / GS ∧ cb / GS < n / GS) := by
      omega
    rw [if_neg hc]
    simp only [hrow, if_false]

/-- The dequantization loop over the lanes `0 .. k-1`. -/
theorem dequantize_lanes_fp {F : Type} (fa : FloatArith F) (x w : FloatTensor F)
    (n d GS rb cb : Nat) (hw_results : List Int)
    (hws : d * n / GS ≤ w.s.length) (hxs : n / GS ≤ x.s.length) :
    ∀ (k : Nat) (acc : List F), ∃ acc1,
      (List.range k).foldlM (dequantize_lane_fp fa x w n d GS rb cb hw_results) acc
        = Except.ok acc1 ∧
      acc1.length = acc.length ∧
      ∀ i : Nat, acc1[i]? =
        if i < k ∧ i < acc.length ∧
            (rb + i < d ∧ ((rb + i) * n + cb) / GS < d * n / GS ∧ cb / GS < n / GS) then
          some (fa.add (acc.getD i fa.zero)
            (fa.mul (fa.mul (fa.of_int32 (hw_results.getD i 0))
              (w.s.getD (((rb + i) * n + cb) / GS) fa.zero))
              (x.s.getD (cb / GS) fa.zero)))
        else acc[i]? := by
  intro k
  induction k with
  | zero =>
    intro acc
    refine ⟨acc, rfl, rfl, ?_⟩
    intro i
    rw [if_neg (by omega)]
  | succ k ih =>
    intro acc
    obtain ⟨acc1, hfold, hlen, hget⟩ := ih acc
    rw [List.range_succ, List.foldlM_append, hfold]
    simp only [bind, Except.bind, List.foldlM_cons, List.foldlM_nil, pure, Except.pure]
    rw [dequantize_lane_fp_eq fa x w n d GS rb cb hw_results acc1 k hws hxs]
    simp only []
    have hk : acc1[k]? = acc[k]? := by rw [hget k, if_neg (by omega)]
    have hkD : acc1.getD k fa.zero = acc.getD k fa.zero := by
      rw [List.getD_eq_getElem?_getD, List.getD_eq_getElem?_getD, hk]
    by_cases hc : rb + k < d ∧ ((rb + k) * n + cb) / GS < d * n / GS ∧ cb / GS < n / GS
    · rw [if_pos hc]
      refine ⟨_, rfl, by rw [List.length_set, hlen], ?_⟩
      intro i
      by_cases hik : i = k
      · subst hik
        by_cases hil : i < acc.length
        · rw [List.getElem?_set_self (by rw [hlen]; exact hil),
            if_pos ⟨Nat.lt_succ_self _, hil, hc⟩, hkD]
        · rw [List.getElem?_eq_none (by rw [List.length_set, hlen]; omega),
            if_neg (by omega), List.getElem?_eq_none (by omega)]
      · rw [List.getElem?_set_ne (fun h => hik h.symm), hget i]
        by_cases hi : i < k ∧ i < acc.length ∧
            (rb + i < d ∧ ((rb + i) * n + cb) / GS < d * n / GS ∧ cb / GS < n / GS)
        · rw [if_pos hi, if_pos ⟨by omega, hi.2⟩]
        · rw [if_neg hi, if_neg (by omega)]
    · rw [if_neg hc]
      refine ⟨_, rfl, hlen, ?_⟩
      intro i
      rw [hget i]
      by_cases hi : i < k ∧ i < acc.length ∧
          (rb + i < d ∧ ((rb + i) * n + cb) / GS < d * n / GS ∧ cb / GS < n / GS)
      · rw [if_pos hi, if_pos ⟨by omega, hi.2⟩]
      · rw [if_neg hi]
        by_cases hik : i = k
        · subst hik
          rw [if_neg (fun h => hc h.2.2)]
        · rw [if_neg (by omega)]

/-- What `process_tile_fp` does when the launch for the tile succeeds,
whatever the simulator returns. -/
theorem process_tile_fp_general {F : Type} (fa : FloatArith F) (sim : Simulator)
    (x w : FloatTensor F) (n d GS rb cb : Nat) (acc : List F)
    (hws : d * n / GS ≤ w.s.length) (hxs : n / GS ≤ x.s.length)
    (hok : tile_launch_ok sim x.values w.values n d GS rb cb = true)
    (hacc : acc.length = HW_ARRAY_SIZE) :
    ∃ acc1, process_tile_fp fa sim x w n d GS rb acc cb = Except.ok acc1 ∧
      acc1.length = HW_ARRAY_SIZE ∧
      ∀ i : Nat, i < HW_ARRAY_SIZE → acc1[i]? =
        if rb + i < d ∧ ((rb + i) * n + cb) / GS < d * n / GS ∧ cb / GS < n / GS then
          some (fa.add (acc.getD i fa.zero)
            (fa.mul (fa.mul
              (fa.of_int32 ((tile_result sim x.values w.values n d GS rb cb).getD i 0))
              (w.s.getD (((rb + i) * n + cb) / GS) fa.zero))
              (x.s.getD (cb / GS) fa.zero)))
        else acc[i]? := by
  obtain ⟨t, content, ht, hret, hdump⟩ :=
    (tile_launch_ok_iff sim x.values w.values n d GS rb cb).1 hok
  have hread := read_hw_output_some content (List.replicate HW_ARRAY_SIZE 0)
  generalize hrs : (if (read_loop (fgets_lines 255 [] content)
      ⟨0, List.replicate HW_ARRAY_SIZE 0, []⟩).i < HW_ARRAY_SIZE then _ else _) = rs at hread
  have hres : tile_result sim x.values w.values n d GS rb cb = rs.results_buffer := by
    unfold tile_result
    simp only [ht, hdump, hread]
  obtain ⟨acc1, hfold, hlen, hget⟩ :=
    dequantize_lanes_fp fa x w n d GS rb cb rs.results_buffer hws hxs HW_ARRAY_SIZE acc
  refine ⟨acc1, ?_, by rw [hlen, hacc], ?_⟩
  · unfold process_tile_fp
    simp only [ht, hret, ne_eq, not_true_eq_false, if_false, hdump, hread, hfold]
  · intro i hi
    rw [hget i, hres]
    by_cases hc : rb + i < d ∧ ((rb + i) * n + cb) / GS < d * n / GS ∧ cb / GS < n / GS
    · rw [if_pos ⟨hi, by rw [hacc]; exact hi, hc⟩, if_pos hc]
    · rw [if_neg (fun h => hc h.2.2), if_neg hc]

/-- The column loop of one row block over its first `k` column blocks, when
the launches for these succeed: the accumulator of a lane whose row is below
`d` holds what the full blocks among them have added, in their order,
starting from `0.0f`. -/
theorem column_loop_fp {F : Type} (fa : FloatArith F) (sim : Simulator)
    (x w : FloatTensor F) (n d GS rb : Nat) (hGS : 1 ≤ GS)
    (hws : d * n / GS ≤ w.s.length) (hxs : n / GS ≤ x.s.length) :
    ∀ k, (∀ b, b < k → tile_launch_ok sim x.values w.values n d GS rb (b * GS) = true) →
    ∃ acc,
      ((List.range k).map fun b => b * GS).foldlM (process_tile_fp fa sim x w n d GS rb)
          (List.replicate HW_ARRAY_SIZE fa.zero) = Except.ok acc ∧
      acc.length = HW_ARRAY_SIZE ∧
      ∀ i, i < HW_ARRAY_SIZE → rb + i < d → acc[i]? = some
        ((List.range (min k (n / GS))).foldl (fun a b => fa.add a
          (fa.mul (fa.mul
            (fa.of_int32 ((tile_result sim x.values w.values n d GS rb (b * GS)).getD i 0))
            (w.s.getD (((rb + i) * n + b * GS) / GS) fa.zero))
            (x.s.getD (b * GS / GS) fa.zero))) fa.zero) := by
  intro k
  induction k with
  | zero =>
    intro _
    refine ⟨_, rfl, by simp, ?_⟩
    intro i hi _
    simp [hi]
  | succ k ih =>
    intro hok
    obtain ⟨acc, hfold, hlen, hacc⟩ := ih (fun b hb => hok b (Nat.lt_succ_of_lt hb))
    obtain ⟨acc1, hstep, hlen1, hacc1⟩ :=
      process_tile_fp_general fa sim x w n d GS rb (k * GS) acc hws hxs
        (hok k (Nat.lt_succ_self k)) hlen
    rw [List.range_succ, List.map_append, List.foldlM_append, hfold]
    simp only [bind, Except.bind, List.map_cons, List.map_nil, List.foldlM_cons,
      List.foldlM_nil, pure, Except.pure]
    rw [hstep]
    refine ⟨acc1, rfl, hlen1, ?_⟩
    intro i hi hrow
    have hiff := bounds_check_iff n d GS (rb + i) k hGS hrow
    rw [hacc1 i hi, getD_of_getElem? _ _ _ _ (hacc i hi hrow)]
    by_cases hk : k < n / GS
    · rw [if_pos ⟨hrow, hiff.2 hk⟩, Nat.min_eq_left (by omega : k + 1 ≤ n / GS),
        Nat.min_eq_left (Nat.le_of_lt hk), List.range_succ, List.foldl_append]
      rfl
    · rw [if_neg (fun h => hk (hiff.1 h.2)), hacc i hi hrow,
        Nat.min_eq_right (by omega : n / GS ≤ k + 1), Nat.min_eq_right (by omega : n / GS ≤ k)]

theorem foldl_set_getElem? {F : Type} (z : F) (m : Nat) : ∀ (i : Nat) (b : List F) (k : Nat),
    ((List.range' i m).foldl (fun b j => b.set j z) b)[k]?
      = if i ≤ k ∧ k < i + m ∧ k < b.length then some z else b[k]? := by
  induction m with
  | zero =>
    intro i b k
    have : ¬ (i ≤ k ∧ k < i + 0 ∧ k < b.length) := by omega
    rw [if_neg this]
    rfl
  | succ m ih =>
    intro i b k
    rw [List.range'_succ, List.foldl_cons, ih (i + 1) (b.set i z) k]
    simp only [List.length_set]
    by_cases hki : k = i
    · subst hki
      by_cases hkb : k < b.length
      · rw [if_neg (by omega), if_pos (by omega), List.getElem?_set_self hkb]
      · rw [if_neg (by omega), if_neg (by omega),
          List.getElem?_eq_none (by simpa using Nat.le_of_not_lt hkb),
          List.getElem?_eq_none (Nat.le_of_not_lt hkb)]
    · have hne : i ≠ k := fun h => hki h.symm
      rw [List.getElem?_set_ne hne]
      by_cases h1 : i + 1 ≤ k ∧ k < i + 1 + m ∧ k < b.length
      · rw [if_pos h1, if_pos (by omega)]
      · rw [if_neg h1, if_neg (by omega)]

theorem foldl_set_length {F : Type} (z : F) (ks : List Nat) :
    ∀ b : List F, (ks.foldl (fun b k => b.set k z) b).length = b.length := by
  induction ks with
  | nil => intro b; rfl
  | cons k ks ih => intro b; rw [List.foldl_cons, ih, List.length_set]

theorem memset_zero_fp_length {F : Type} (fa : FloatArith F) (xout : List F) (d : Nat) :
    (memset_zero_fp fa xout d).length = xout.length :=
  foldl_set_length _ _ _

/-- The call of `memset` sets the entries below `d` to zero and no other. -/
theorem memset_zero_fp_getElem? {F : Type} (fa : FloatArith F) (xout : List F) (d k : Nat) :
    (memset_zero_fp fa xout d)[k]?
      = if k < d ∧ k < xout.length then some fa.zero else xout[k]? := by
  unfold memset_zero_fp
  rw [foldl_set_getElem?]
  by_cases h : k < d ∧ k < xout.length
  · rw [if_pos (by omega), if_pos h]
  · rw [if_neg (by omega), if_neg h]

/-- The copy of the accumulators of lanes `0 .. m-1` into the output. -/
theorem commit_rows_fp_aux {F : Type} (z : F) (xout acc : List F) (rb d : Nat) :
    ∀ m : Nat,
      ((List.range m).foldl
        (fun out i => if rb + i < d then out.set (rb + i) (acc.getD i z) else out) xout).length
        = xout.length ∧
      ∀ k : Nat,
        ((List.range m).foldl
          (fun out i => if rb + i < d then out.set (rb + i) (acc.getD i z) else out) xout)[k]?
          = if rb ≤ k ∧ k < rb + m ∧ k < d ∧ k < xout.length then some (acc.getD (k - rb) z)
            else xout[k]? := by
  intro m
  induction m with
  | zero =>
    refine ⟨rfl, ?_⟩
    intro k
    rw [if_neg (by omega)]
    rfl
  | succ m ih =>
    obtain ⟨hlen, hget⟩ := ih
    rw [List.range_succ, List.foldl_append]
    simp only [List.foldl_cons, List.foldl_nil]
    by_cases hrow : rb + m < d
    · rw [if_pos hrow]
      refine ⟨by rw [List.length_set, hlen], ?_⟩
      intro k
      by_cases hk : k = rb + m
      · subst hk
        by_cases hkl : rb + m < xout.length
        · rw [List.getElem?_set_self (by rw [hlen]; exact hkl), if_pos (by omega)]
          congr 2
          omega
        · rw [List.getElem?_eq_none (by rw [List.length_set, hlen]; omega), if_neg (by omega),
            List.getElem?_eq_none (by omega)]
      · rw [List.getElem?_set_ne (fun h => hk h.symm), hget k]
        by_cases hc : rb ≤ k ∧ k < rb + m ∧ k < d ∧ k < xout.length
        · rw [if_pos hc, if_pos (by omega)]
        · rw [if_neg hc, if_neg (by omega)]
    · rw [if_neg hrow]
      refine ⟨hlen, ?_⟩
      intro k
      rw [hget k]
      by_cases hc : rb ≤ k ∧ k < rb + m ∧ k < d ∧ k < xout.length
      · rw [if_pos hc, if_pos (by omega)]
      · rw [if_neg hc, if_neg (by omega)]

theorem commit_rows_fp_spec {F : Type} (fa : FloatArith F) (xout acc : List F) (rb d : Nat) :
    (commit_rows_fp fa xout acc rb d).length = xout.length ∧
    ∀ k : Nat, (commit_rows_fp fa xout acc rb d)[k]?
      = if rb ≤ k ∧ k < rb + HW_ARRAY_SIZE ∧ k < d ∧ k < xout.length then
          some (acc.getD (k - rb) fa.zero)
        else xout[k]? :=
  commit_rows_fp_aux fa.zero xout acc rb d HW_ARRAY_SIZE

/-- One row block, when the launches for all its tiles succeed: the rows of
the block below `d` receive the sums of their rows, formed from `0.0f` in the
order of the column blocks, and no other entry of the output changes. -/
theorem process_row_block_fp_general {F : Type} (fa : FloatArith F) (sim : Simulator)
    (x w : FloatTensor F) (n d GS a : Nat) (xout : List F) (hGS : 1 ≤ GS)
    (hws : d * n / GS ≤ w.s.length) (hxs : n / GS ≤ x.s.length)
    (hok : ∀ b, b < ceil_div n GS →
      tile_launch_ok sim x.values w.values n d GS (a * HW_ARRAY_SIZE) (b * GS) = true) :
    ∃ out, process_row_block_fp fa sim x w n d GS xout (a * HW_ARRAY_SIZE) = Except.ok out ∧
      out.length = xout.length ∧
      ∀ k : Nat, out[k]? =
        if a * HW_ARRAY_SIZE ≤ k ∧ k < a * HW_ARRAY_SIZE + HW_ARRAY_SIZE ∧ k < d ∧
            k < xout.length then
          some (accumulated_row_fp fa sim x w n d GS k)
        else xout[k]? := by
  obtain ⟨acc, hfold, hlen, hacc⟩ :=
    column_loop_fp fa sim x w n d GS (a * HW_ARRAY_SIZE) hGS hws hxs (ceil_div n GS) hok
  obtain ⟨clen, cget⟩ := commit_rows_fp_spec fa xout acc (a * HW_ARRAY_SIZE) d
  refine ⟨commit_rows_fp fa xout acc (a * HW_ARRAY_SIZE) d, ?_, clen, ?_⟩
  · unfold process_row_block_fp
    rw [for_values_from_zero n GS hGS]
    simp only [hfold]
  · intro k
    rw [cget k]
    by_cases hk : a * HW_ARRAY_SIZE ≤ k ∧ k < a * HW_ARRAY_SIZE + HW_ARRAY_SIZE ∧ k < d ∧
        k < xout.length
    · have hi : k - a * HW_ARRAY_SIZE < HW_ARRAY_SIZE := by omega
      have hrow : a * HW_ARRAY_SIZE + (k - a * HW_ARRAY_SIZE) = k := by omega
      have hacc1 := hacc (k - a * HW_ARRAY_SIZE) hi (by rw [hrow]; exact hk.2.2.1)
      rw [hrow, Nat.min_eq_right (div_le_ceil_div n GS)] at hacc1
      rw [if_pos hk, if_pos hk, getD_of_getElem? _ _ _ _ hacc1]
      unfold accumulated_row_fp
      rw [row_block_of_mem a k hk.1 hk.2.1]
    · rw [if_neg hk, if_neg hk]

/-- The row loop over the first `j` row blocks, when the launches for all
their tiles succeed. -/
theorem row_loop_fp {F : Type} (fa : FloatArith F) (sim : Simulator)
    (x w : FloatTensor F) (n d GS : Nat) (xout0 : List F) (hGS : 1 ≤ GS)
    (hws : d * n / GS ≤ w.s.length) (hxs : n / GS ≤ x.s.length) :
    ∀ j, (∀ a, a < j → ∀ b, b < ceil_div n GS →
        tile_launch_ok sim x.values w.values n d GS (a * HW_ARRAY_SIZE) (b * GS) = true) →
    ∃ out,
      ((List.range j).map fun a => a * HW_ARRAY_SIZE).foldlM
          (process_row_block_fp fa sim x w n d GS) xout0 = Except.ok out ∧
      out.length = xout0.length ∧
      ∀ k : Nat, out[k]? =
        if k < j * HW_ARRAY_SIZE ∧ k < d ∧ k < xout0.length then
          some (accumulated_row_fp fa sim x w n d GS k)
        else xout0[k]? := by
  intro j
  induction j with
  | zero =>
    intro _
    refine ⟨xout0, rfl, rfl, ?_⟩
    intro k
    rw [if_neg (by omega)]
  | succ j ih =>
    intro hok
    obtain ⟨out, hfold, hlen, hget⟩ := ih (fun a ha => hok a (Nat.lt_succ_of_lt ha))
    obtain ⟨out1, hstep, hlen1, hget1⟩ :=
      process_row_block_fp_general fa sim x w n d GS j out hGS hws hxs
        (hok j (Nat.lt_succ_self j))
    rw [List.range_succ, List.map_append, List.foldlM_append, hfold]
    simp only [bind, Except.bind, List.map_cons, List.map_nil, List.foldlM_cons,
      List.foldlM_nil, pure, Except.pure]
    rw [hstep]
    refine ⟨out1, rfl, by rw [hlen1, hlen], ?_⟩
    intro k
    rw [hget1 k, hget k, hlen, Nat.succ_mul]
    by_cases hin : j * HW_ARRAY_SIZE ≤ k ∧ k < j * HW_ARRAY_SIZE + HW_ARRAY_SIZE ∧ k < d ∧
        k < xout0.length
    · rw [if_pos hin, if_pos (by omega)]
    · rw [if_neg hin]
      by_cases hlow : k < j * HW_ARRAY_SIZE ∧ k < d ∧ k < xout0.length
      · rw [if_pos hlow, if_pos (by omega)]
      · rw [if_neg hlow, if_neg (by omega)]

/-- The whole of `matmul_hw` for `GS ≥ 1` and any arithmetic of `float`, when
the launches for all the tiles succeed: the call returns; the entries of the
output below `d` hold the sums of their rows, the other entries are those of
the caller. -/
theorem matmul_hw_fp_general {F : Type} (fa : FloatArith F) (sim : Simulator) (xout : List F)
    (x w : FloatTensor F) (n d GS : Nat) (hGS : 1 ≤ GS)
    (hws : d * n / GS ≤ w.s.length) (hxs : n / GS ≤ x.s.length)
    (hok : ∀ a, a < ceil_div d HW_ARRAY_SIZE → ∀ b, b < ceil_div n GS →
      tile_launch_ok sim x.values w.values n d GS (a * HW_ARRAY_SIZE) (b * GS) = true) :
    ∃ out, matmul_hw_fp fa sim xout x w n d GS = Except.ok out ∧
      out.length = xout.length ∧
      ∀ k : Nat, out[k]? =
        if k < d ∧ k < xout.length then some (accumulated_row_fp fa sim x w n d GS k)
        else xout[k]? := by
  obtain ⟨out, hfold, hlen, hget⟩ :=
    row_loop_fp fa sim x w n d GS (memset_zero_fp fa xout d) hGS hws hxs
      (ceil_div d HW_ARRAY_SIZE) hok
  have h8 : 1 ≤ HW_ARRAY_SIZE := by decide
  refine ⟨out, ?_, by rw [hlen]; exact memset_zero_fp_length _ _ _, ?_⟩
  · unfold matmul_hw_fp
    rw [for_values_from_zero d HW_ARRAY_SIZE h8]
    exact hfold
  · intro k
    have hge := ceil_div_mul_ge d
    rw [hget k]
    simp only [memset_zero_fp_length]
    by_cases hk : k < d ∧ k < xout.length
    · rw [if_pos ⟨by omega, hk⟩, if_pos hk]
    · rw [if_neg (fun h => hk h.2), if_neg hk, memset_zero_fp_getElem?, if_neg hk]

theorem foldl_range_congr {α : Type} (f g : α → Nat → α) (z : α) (k : Nat)
    (h : ∀ b, b < k → ∀ a, f a b = g a b) :
    (List.range k).foldl f z = (List.range k).foldl g z := by
  induction k with
  | zero => rfl
  | succ k ih =>
    rw [List.range_succ, List.foldl_append, List.foldl_append,
      ih (fun b hb => h b (Nat.lt_succ_of_lt hb))]
    exact h k (Nat.lt_succ_self k) _

/-- Whatever the arithmetic, the sum of a row is the same for two simulators
whose results agree in the lane of the row in the tiles of its row block. -/
theorem accumulated_row_fp_congr {F : Type} (fa : FloatArith F) (sim sim2 : Simulator)
    (x w : FloatTensor F) (n d GS row : Nat)
    (h : ∀ b, b < n / GS →
      (tile_result sim2 x.values w.values n d GS
          (HW_ARRAY_SIZE * (row / HW_ARRAY_SIZE)) (b * GS))[
          row - HW_ARRAY_SIZE * (row / HW_ARRAY_SIZE)]?
        = (tile_result sim x.values w.values n d GS
          (HW_ARRAY_SIZE * (row / HW_ARRAY_SIZE)) (b * GS))[
          row - HW_ARRAY_SIZE * (row / HW_ARRAY_SIZE)]?) :
    accumulated_row_fp fa sim2 x w n d GS row = accumulated_row_fp fa sim x w n d GS row := by
  unfold accumulated_row_fp
  apply foldl_range_congr
  intro b hb acc
  simp only [List.getD_eq_getElem?_getD, h b hb]

/-- C16: for `n` a multiple of `GS ≥ 1` (so that the column blocks are
`col_base = 0, GS, ..., n - GS`), any `d`, any results of the simulator and
any arithmetic of `float`, after `matmul_hw` every `xout[row]` with `row < d`
is the sum formed from `0.0f` by adding, for the column blocks in increasing
order, `((float)result[row - row_base] * w.s[(row*n + col_base)/GS]) *
x.s[col_base/GS]`, where `result` is the buffer decoded for the tile at
`(row_base, col_base)` and `row_base = HW_ARRAY_SIZE * (row / HW_ARRAY_SIZE)`.
Nothing is assumed of the sum and the product of `float`, so the equation
holds with the rounding of the machine and fixes the order of the operations.
Only the lane of the row in the tiles of its own row block occurs in it: a
run with another simulator and another content of `xout` on entry gives the
same `xout[row]` as soon as the buffers decoded for these tiles agree in this
lane. -/
theorem matmul_hw_accumulates {F : Type} (fa : FloatArith F) (sim : Simulator) (xout : List F)
    (x w : FloatTensor F) (n d GS : Nat) (hGS : 1 ≤ GS) (hn : GS ∣ n)
    (hws : d * n / GS ≤ w.s.length) (hxs : n / GS ≤ x.s.length) (hout : d ≤ xout.length)
    (hok : ∀ a, a < ceil_div d HW_ARRAY_SIZE → ∀ b, b < ceil_div n GS →
      tile_launch_ok sim x.values w.values n d GS (a * HW_ARRAY_SIZE) (b * GS) = true) :
    for_values n GS n 0 = some ((List.range (n / GS)).map fun b => b * GS) ∧
    ∃ out, matmul_hw_fp fa sim xout x w n d GS = Except.ok out ∧
      (∀ row, row < d → out[row]? = some
        ((List.range (n / GS)).foldl
          (fun acc b => fa.add acc
            (fa.mul
              (fa.mul
                (fa.of_int32
                  ((tile_result sim x.values w.values n d GS
                      (HW_ARRAY_SIZE * (row / HW_ARRAY_SIZE)) (b * GS)).getD
                    (row - HW_ARRAY_SIZE * (row / HW_ARRAY_SIZE)) 0))
                (w.s.getD ((row * n + b * GS) / GS) fa.zero))
              (x.s.getD (b * GS / GS) fa.zero)))
          fa.zero)) ∧
      ∀ (sim2 : Simulator) (xout2 : List F) (row : Nat), row < d → d ≤ xout2.length →
        (∀ a, a < ceil_div d HW_ARRAY_SIZE → ∀ b, b < ceil_div n GS →
          tile_launch_ok sim2 x.values w.values n d GS (a * HW_ARRAY_SIZE) (b * GS) = true) →
        (∀ b, b < n / GS →
          (tile_result sim2 x.values w.values n d GS
              (HW_ARRAY_SIZE * (row / HW_ARRAY_SIZE)) (b * GS))[
              row - HW_ARRAY_SIZE * (row / HW_ARRAY_SIZE)]?
            = (tile_result sim x.values w.values n d GS
              (HW_ARRAY_SIZE * (row / HW_ARRAY_SIZE)) (b * GS))[
              row - HW_ARRAY_SIZE * (row / HW_ARRAY_SIZE)]?) →
        ∃ out2, matmul_hw_fp fa sim2 xout2 x w n d GS = Except.ok out2 ∧
          out2[row]? = out[row]? := by
  constructor
  · rw [for_values_from_zero n GS hGS, ceil_div_of_dvd n GS hGS hn]
  · obtain ⟨out, hr, _, hget⟩ := matmul_hw_fp_general fa sim xout x w n d GS hGS hws hxs hok
    refine ⟨out, hr, ?_, ?_⟩
    · intro row hrow
      rw [hget row, if_pos ⟨hrow, by omega⟩]
      rfl
    · intro sim2 xout2 row hrow hout2 hok2 hlane
      obtain ⟨out2, hr2, _, hget2⟩ :=
        matmul_hw_fp_general fa sim2 xout2 x w n d GS hGS hws hxs hok2
      refine ⟨out2, hr2, ?_⟩
      rw [hget2 row, hget row, if_pos ⟨hrow, by omega⟩, if_pos ⟨hrow, by omega⟩,
        accumulated_row_fp_congr fa sim sim2 x w n d GS row hlane]

theorem matmul_hw_accumulates_witness :
    for_values 16 8 16 0 = some ((List.range (16 / 8)).map fun b => b * 8) ∧
    ∃ out, matmul_hw_fp symbolic_arith (exact_simulator 8)
        (List.replicate 16 (FloatExpr.scale 9)) scenario_b_x_symbolic scenario_b_w_symbolic
        16 16 8 = Except.ok out ∧
      (∀ row, row < 16 → out[row]? = some
        ((List.range (16 / 8)).foldl
          (fun acc b => symbolic_arith.add acc
            (symbolic_arith.mul
              (symbolic_arith.mul
                (symbolic_arith.of_int32
                  ((tile_result (exact_simulator 8) scenario_b_x_symbolic.values
                      scenario_b_w_symbolic.values 16 16 8
                      (HW_ARRAY_SIZE * (row / HW_ARRAY_SIZE)) (b * 8)).getD
                    (row - HW_ARRAY_SIZE * (row / HW_ARRAY_SIZE)) 0))
                (scenario_b_w_symbolic.s.getD ((row * 16 + b * 8) / 8) symbolic_arith.zero))
              (scenario_b_x_symbolic.s.getD (b * 8 / 8) symbolic_arith.zero)))
          symbolic_arith.zero)) ∧
      ∀ (sim2 : Simulator) (xout2 : List FloatExpr) (row : Nat), row < 16 →
        16 ≤ xout2.length →
        (∀ a, a < ceil_div 16 HW_ARRAY_SIZE → ∀ b, b < ceil_div 16 8 →
          tile_launch_ok sim2 scenario_b_x_symbolic.values scenario_b_w_symbolic.values
            16 16 8 (a * HW_ARRAY_SIZE) (b * 8) = true) →
        (∀ b, b < 16 / 8 →
          (tile_result sim2 scenario_b_x_symbolic.values scenario_b_w_symbolic.values 16 16 8
              (HW_ARRAY_SIZE * (row / HW_ARRAY_SIZE)) (b * 8))[
              row - HW_ARRAY_SIZE * (row / HW_ARRAY_SIZE)]?
            = (tile_result (exact_simulator 8) scenario_b_x_symbolic.values
              scenario_b_w_symbolic.values 16 16 8
              (HW_ARRAY_SIZE * (row / HW_ARRAY_SIZE)) (b * 8))[
              row - HW_ARRAY_SIZE * (row / HW_ARRAY_SIZE)]?) →
        ∃ out2, matmul_hw_fp symbolic_arith sim2 xout2 scenario_b_x_symbolic
            scenario_b_w_symbolic 16 16 8 = Except.ok out2 ∧
          out2[row]? = out[row]? :=
  matmul_hw_accumulates symbolic_arith (exact_simulator 8)
    (List.replicate 16 (FloatExpr.scale 9)) scenario_b_x_symbolic scenario_b_w_symbolic
    16 16 8 (by decide) (by decide) (by decide) (by decide) (by decide) (by decide)

/-! ## Orchestrator: exact arithmetic as one arithmetic of `float` -/

/-- The encoder writes the same tile for a tensor and for its quantized
values alone. -/
theorem encoder_reads_values (x w : QuantizedTensor) (rb cb n d K : Nat) :
    write_hw_input_tile (⟨x.q, x.s⟩ : FloatTensor ℚ).values (⟨w.q, w.s⟩ : FloatTensor ℚ).values
        rb cb n d K
      = write_hw_input_tile x w rb cb n d K := rfl

theorem dequantize_lane_fp_exact (x w : QuantizedTensor) (n d GS rb cb : Nat)
    (hw_results : List Int) (acc : List ℚ) (i : Nat) :
    dequantize_lane_fp exact_arith ⟨x.q, x.s⟩ ⟨w.q, w.s⟩ n d GS rb cb hw_results acc i
      = dequantize_lane x w n d GS rb cb hw_results acc i := by
  unfold dequantize_lane_fp dequantize_lane
  simp only []
  split
  · split
    · rfl
    · cases w.s[((rb + i) * n + cb) / GS]? with
      | none => rfl
      | some s_w =>
        cases x.s[cb / GS]? with
        | none => rfl
        | some s_x => rfl
  · rfl

theorem process_tile_fp_exact (sim : Simulator) (x w : QuantizedTensor) (n d GS rb : Nat)
    (st : RowState) (cb : Nat) :
    process_tile_fp exact_arith sim ⟨x.q, x.s⟩ ⟨w.q, w.s⟩ n d GS rb st.row_accumulators cb
      = (process_tile sim x w n d GS rb st cb).map RowState.row_accumulators := by
  unfold process_tile_fp process_tile
  rw [encoder_reads_values]
  cases write_hw_input_tile x w rb cb n d GS with
  | none => rfl
  | some t =>
    simp only []
    split
    · rfl
    · cases read_hw_output (sim rb cb t).memory_dump (List.replicate HW_ARRAY_SIZE 0) with
      | error e => rfl
      | ok rs =>
        simp only []
        have hf : dequantize_lane_fp exact_arith ⟨x.q, x.s⟩ ⟨w.q, w.s⟩ n d GS rb cb
            rs.results_buffer = dequantize_lane x w n d GS rb cb rs.results_buffer := by
          funext acc i
          exact dequantize_lane_fp_exact x w n d GS rb cb rs.results_buffer acc i
        rw [hf]
        cases (List.range HW_ARRAY_SIZE).foldlM
            (dequantize_lane x w n d GS rb cb rs.results_buffer) st.row_accumulators with
        | error e => rfl
        | ok acc => rfl

theorem column_loop_fp_exact (sim : Simulator) (x w : QuantizedTensor) (n d GS rb : Nat)
    (cols : List Nat) :
    ∀ st : RowState,
      cols.foldlM (process_tile_fp exact_arith sim ⟨x.q, x.s⟩ ⟨w.q, w.s⟩ n d GS rb)
          st.row_accumulators
        = (cols.foldlM (process_tile sim x w n d GS rb) st).map RowState.row_accumulators := by
  induction cols with
  | nil => intro st; rfl
  | cons c cols ih =>
    intro st
    rw [List.foldlM_cons, List.foldlM_cons, process_tile_fp_exact]
    cases process_tile sim x w n d GS rb st c with
    | error e => rfl
    | ok st1 => exact ih st1

theorem process_row_block_fp_exact (sim : Simulator) (x w : QuantizedTensor) (n d GS : Nat)
    (st : MatmulState) (rb : Nat) :
    process_row_block_fp exact_arith sim ⟨x.q, x.s⟩ ⟨w.q, w.s⟩ n d GS st.xout rb
      = (process_row_block sim x w n d GS st rb).map MatmulState.xout := by
  unfold process_row_block_fp process_row_block
  cases for_values n GS n 0 with
  | none => rfl
  | some cols =>
    simp only []
    have h := column_loop_fp_exact sim x w n d GS rb cols ⟨List.replicate HW_ARRAY_SIZE 0, st.trace⟩
    have hz : List.replicate HW_ARRAY_SIZE exact_arith.zero = List.replicate HW_ARRAY_SIZE (0 : ℚ) :=
      rfl
    rw [hz, h]
    cases cols.foldlM (process_tile sim x w n d GS rb)
        ⟨List.replicate HW_ARRAY_SIZE 0, st.trace⟩ with
    | error e => rfl
    | ok rs => rfl

theorem row_loop_fp_exact (sim : Simulator) (x w : QuantizedTensor) (n d GS : Nat)
    (rows : List Nat) :
    ∀ st : MatmulState,
      rows.foldlM (process_row_block_fp exact_arith sim ⟨x.q, x.s⟩ ⟨w.q, w.s⟩ n d GS) st.xout
        = (rows.foldlM (process_row_block sim x w n d GS) st).map MatmulState.xout := by
  induction rows with
  | nil => intro st; rfl
  | cons r rows ih =>
    intro st
    rw [List.foldlM_cons, List.foldlM_cons, process_row_block_fp_exact]
    cases process_row_block sim x w n d GS st r with
    | error e => rfl
    | ok st1 => exact ih st1

/-- With the arithmetic of the rationals, `matmul_hw_fp` computes the output
of `matmul_hw`: the embedding with exact arithmetic is one case of the
embedding with the arithmetic left open. -/
theorem matmul_hw_fp_exact (sim : Simulator) (xout : List ℚ) (x w : QuantizedTensor)
    (n d GS : Nat) :
    matmul_hw_fp exact_arith sim xout ⟨x.q, x.s⟩ ⟨w.q, w.s⟩ n d GS
      = (matmul_hw sim xout x w n d GS).map MatmulState.xout := by
  unfold matmul_hw_fp matmul_hw
  cases for_values d HW_ARRAY_SIZE d 0 with
  | none => rfl
  | some rows => exact row_loop_fp_exact sim x w n d GS rows ⟨memset_zero xout d, []⟩

/-- The order of the operations on a run with two column blocks (`d = 1`,
`n = 4`, `GS = 2`, exact simulator, results 7 and 52): the output is
`(0.0f + ((float)7 * w.s[0]) * x.s[0]) + ((float)52 * w.s[1]) * x.s[1]`. -/
theorem matmul_hw_fp_order :
    matmul_hw_fp symbolic_arith (exact_simulator 2) [FloatExpr.scale 9]
        ⟨[3, -4, 5, 6], [FloatExpr.scale 100, FloatExpr.scale 101]⟩
        ⟨[1, -1, 2, 7], [FloatExpr.scale 0, FloatExpr.scale 1]⟩ 4 1 2
      = Except.ok
          [FloatExpr.add
            (FloatExpr.add FloatExpr.zero
              (FloatExpr.mul (FloatExpr.mul (FloatExpr.of_int32 7) (FloatExpr.scale 0))
                (FloatExpr.scale 100)))
            (FloatExpr.mul (FloatExpr.mul (FloatExpr.of_int32 52) (FloatExpr.scale 1))
              (FloatExpr.scale 101))] := by
  rfl

/-! ## Orchestrator: what the output depends on -/

/-- The sum of a row only involves the lane of the row in the tiles of its
own row block. -/
theorem accumulated_row_congr (sim sim2 : Simulator) (x w x2 w2 : QuantizedTensor)
    (n d GS row : Nat) (hsw : w.s = w2.s) (hsx : x.s = x2.s)
    (h : ∀ b, b < n / GS →
      (tile_result sim x w n d GS (row / HW_ARRAY_SIZE * HW_ARRAY_SIZE) (b * GS))[
          row - HW_ARRAY_SIZE * (row / HW_ARRAY_SIZE)]?
        = (tile_result sim2 x2 w2 n d GS (row / HW_ARRAY_SIZE * HW_ARRAY_SIZE) (b * GS))[
          row - HW_ARRAY_SIZE * (row / HW_ARRAY_SIZE)]?) :
    accumulated_row sim x w n d GS row = accumulated_row sim2 x2 w2 n d GS row := by
  unfold accumulated_row
  apply foldl_add_range_congr
  intro b hb
  unfold block_term
  have hb1 := h b hb
  rw [Nat.mul_comm (row / HW_ARRAY_SIZE) HW_ARRAY_SIZE] at hb1
  simp only [List.getD_eq_getElem?_getD, hb1, hsw, hsx]

/-- C12: for `GS ≥ 1`, any `d` and `n` and any results of the simulator,
`matmul_hw` leaves every entry of the output at an index `≥ d` as the caller
had it and gives every entry below `d` a value that does not depend on what
the output held before; a lane with `row_base + i ≥ d` is left out of the
dequantization, and two simulators that differ only in such padding lanes
lead to the same output. -/
theorem matmul_hw_frame (sim sim2 : Simulator) (xout xout2 : List ℚ) (x w : QuantizedTensor)
    (n d GS : Nat) (hGS : 1 ≤ GS)
    (hws : d * n / GS ≤ w.s.length) (hxs : n / GS ≤ x.s.length)
    (hout : d ≤ xout.length) (hout2 : d ≤ xout2.length)
    (hok : ∀ a, a < ceil_div d HW_ARRAY_SIZE → ∀ b, b < ceil_div n GS →
      tile_launch_ok sim x w n d GS (a * HW_ARRAY_SIZE) (b * GS) = true)
    (hok2 : ∀ a, a < ceil_div d HW_ARRAY_SIZE → ∀ b, b < ceil_div n GS →
      tile_launch_ok sim2 x w n d GS (a * HW_ARRAY_SIZE) (b * GS) = true)
    (hlanes : ∀ a, a < ceil_div d HW_ARRAY_SIZE → ∀ b, b < ceil_div n GS →
      ∀ i, i < HW_ARRAY_SIZE → a * HW_ARRAY_SIZE + i < d →
        (tile_result sim x w n d GS (a * HW_ARRAY_SIZE) (b * GS))[i]?
          = (tile_result sim2 x w n d GS (a * HW_ARRAY_SIZE) (b * GS))[i]?) :
    (∀ (row_base col_base i : Nat) (hw_results : List Int) (row_accumulators : List ℚ),
      d ≤ row_base + i →
      dequantize_lane x w n d GS row_base col_base hw_results row_accumulators i
        = Except.ok row_accumulators) ∧
    ∃ r r2, matmul_hw sim xout x w n d GS = Except.ok r ∧
      matmul_hw sim2 xout2 x w n d GS = Except.ok r2 ∧
      r.xout.length = xout.length ∧
      (∀ k, d ≤ k → r.xout[k]? = xout[k]?) ∧
      (∀ k, k < d → r.xout[k]? = some (accumulated_row sim x w n d GS k)) ∧
      (∀ k, k < d → r2.xout[k]? = r.xout[k]?) := by
  constructor
  · intro rb cb i hw_results acc hpad
    unfold dequantize_lane
    simp only [if_neg (Nat.not_lt.2 hpad)]
  · obtain ⟨r, hr, hlen, hget, _, _⟩ := matmul_hw_general sim xout x w n d GS hGS hws hxs hok
    obtain ⟨r2, hr2, _, hget2, _, _⟩ :=
      matmul_hw_general sim2 xout2 x w n d GS hGS hws hxs hok2
    refine ⟨r, r2, hr, hr2, hlen, ?_, ?_, ?_⟩
    · intro k hk
      rw [hget k, if_neg (by omega)]
    · intro k hk
      rw [hget k, if_pos ⟨hk, by omega⟩]
    · intro k hk
      rw [hget k, hget2 k, if_pos ⟨hk, by omega⟩, if_pos ⟨hk, by omega⟩]
      congr 1
      apply accumulated_row_congr sim2 sim x w x w n d GS k rfl rfl
      intro b hb
      obtain ⟨ha, hi, hsum⟩ := row_block_lt d k hk
      exact (hlanes (k / HW_ARRAY_SIZE) ha b
        (lt_of_lt_of_le hb (div_le_ceil_div n GS)) _ hi (by rw [hsum]; exact hk)).symm

theorem matmul_hw_frame_witness :
    (∀ (row_base col_base i : Nat) (hw_results : List Int) (row_accumulators : List ℚ),
      3 ≤ row_base + i →
      dequantize_lane ⟨[3, -4], [1 / 2]⟩ ⟨[1, -1, 127, -128, 16, 15], [2, 3, 5]⟩ 2 3 2
          row_base col_base hw_results row_accumulators i
        = Except.ok row_accumulators) ∧
    ∃ r r2, matmul_hw (exact_simulator 2) [9, 9, 9, 9, 9] ⟨[3, -4], [1 / 2]⟩
          ⟨[1, -1, 127, -128, 16, 15], [2, 3, 5]⟩ 2 3 2 = Except.ok r ∧
      matmul_hw (padding_noise_simulator 2 3) [1, 2, 3, 4] ⟨[3, -4], [1 / 2]⟩
          ⟨[1, -1, 127, -128, 16, 15], [2, 3, 5]⟩ 2 3 2 = Except.ok r2 ∧
      r.xout.length = ([9, 9, 9, 9, 9] : List ℚ).length ∧
      (∀ k, 3 ≤ k → r.xout[k]? = ([9, 9, 9, 9, 9] : List ℚ)[k]?) ∧
      (∀ k, k < 3 → r.xout[k]? = some (accumulated_row (exact_simulator 2) ⟨[3, -4], [1 / 2]⟩
          ⟨[1, -1, 127, -128, 16, 15], [2, 3, 5]⟩ 2 3 2 k)) ∧
      (∀ k, k < 3 → r2.xout[k]? = r.xout[k]?) :=
  matmul_hw_frame (exact_simulator 2) (padding_noise_simulator 2 3) [9, 9, 9, 9, 9] [1, 2, 3, 4]
    ⟨[3, -4], [1 / 2]⟩ ⟨[1, -1, 127, -128, 16, 15], [2, 3, 5]⟩ 2 3 2
    (by decide) (by decide) (by decide) (by decide) (by decide) (by decide) (by decide)
    (by decide)

/-! ## Orchestrator: a last column block that is not full -/

theorem ceil_div_of_not_dvd (n GS : Nat) (hGS : 1 ≤ GS) (h : ¬ GS ∣ n) :
    ceil_div n GS = n / GS + 1 := by
  have hmod : n % GS ≠ 0 := fun h0 => h (Nat.dvd_of_mod_eq_zero h0)
  have hlt : n % GS < GS := Nat.mod_lt n (by omega)
  have hsplit := Nat.div_add_mod n GS
  rw [Nat.mul_comm] at hsplit
  unfold ceil_div
  apply Nat.div_eq_of_lt_le
  · rw [Nat.succ_mul]; omega
  · rw [Nat.succ_mul, Nat.succ_mul]; omega

theorem flatMap_congr_left {α β : Type} (l : List α) (f g : α → List β)
    (h : ∀ a ∈ l, f a = g a) : l.flatMap f = l.flatMap g := by
  induction l with
  | nil => rfl
  | cons a l ih =>
    rw [List.flatMap_cons, List.flatMap_cons, h a (List.mem_cons_self _ _),
      ih (fun b hb => h b (List.mem_cons_of_mem _ hb))]

/-- Tensors that give the same loop bodies give the same artifacts. -/
theorem write_hw_input_tile_congr (x w x2 w2 : QuantizedTensor) (rb cb n d K : Nat)
    (hw : ∀ i, i < HW_ARRAY_SIZE → ∀ j, j < K →
      weight_line w2 rb cb n d i j = weight_line w rb cb n d i j)
    (hx : ∀ j, j < K → vector_line x2 cb n j = vector_line x cb n j) :
    write_hw_input_tile x2 w2 rb cb n d K = write_hw_input_tile x w rb cb n d K := by
  unfold write_hw_input_tile
  have h1 : ((List.range HW_ARRAY_SIZE).flatMap fun i =>
        (List.range K).map fun j => weight_line w2 rb cb n d i j)
      = ((List.range HW_ARRAY_SIZE).flatMap fun i =>
        (List.range K).map fun j => weight_line w rb cb n d i j) := by
    apply flatMap_congr_left
    intro i hi
    apply List.map_congr_left
    intro j hj
    exact hw i (List.mem_range.1 hi) j (List.mem_range.1 hj)
  have h2 : ((List.range K).map fun j => vector_line x2 cb n j)
      = ((List.range K).map fun j => vector_line x cb n j) := by
    apply List.map_congr_left
    intro j hj
    exact hx j (List.mem_range.1 hj)
  rw [h1, h2]

/-- The result decoded for a full column block does not change when the
tensors change in the columns of the last, partial block only and the
simulator behaves in the same way on the tile. -/
theorem tile_result_congr (sim sim2 : Simulator) (x w x2 w2 : QuantizedTensor)
    (n d GS rb b : Nat) (hb : b < n / GS)
    (hwq : ∀ row, row < d → ∀ col, col < n / GS * GS →
      w2.q[row * n + col]? = w.q[row * n + col]?)
    (hxq : ∀ col, col < n / GS * GS → x2.q[col]? = x.q[col]?)
    (hsame : same_outcome_on_tile sim sim2 x w n d GS rb (b * GS) = true) :
    tile_result sim2 x2 w2 n d GS rb (b * GS) = tile_result sim x w n d GS rb (b * GS) := by
  have hfull : ∀ j, j < GS → b * GS + j < n / GS * GS := fun j hj =>
    block_in_range (n / GS) GS b j hb hj
  have hwrite : write_hw_input_tile x2 w2 rb (b * GS) n d GS
      = write_hw_input_tile x w rb (b * GS) n d GS := by
    apply write_hw_input_tile_congr
    · intro i _ j hj
      unfold weight_line
      by_cases hg : rb + i < d ∧ b * GS + j < n
      · simp only [hg, and_self, if_true]
        rw [hwq (rb + i) hg.1 (b * GS + j) (hfull j hj)]
      · simp only [hg, if_false]
    · intro j hj
      unfold vector_line
      by_cases hg : b * GS + j < n
      · simp only [hg, if_true]
        rw [hxq (b * GS + j) (hfull j hj)]
      · simp only [hg, if_false]
  unfold tile_result
  rw [hwrite]
  unfold same_outcome_on_tile at hsame
  cases ht : write_hw_input_tile x w rb (b * GS) n d GS with
  | none => rfl
  | some t =>
    rw [ht] at hsame
    simp only [Bool.and_eq_true, decide_eq_true_eq] at hsame
    simp only [hsame.2]

/-- C18: when `GS ≥ 1` does not divide `n`, the column loop ends with the
block at `col_base = GS * (n / GS)`; in every tile of that block every lane is
skipped by the bounds check, because `x_s_idx = n / GS`; the output holds the
sums over the `n / GS` full blocks only, and it is the same for a simulator
that returns something else for the tiles of the last block and for tensors
that differ in the columns `col ≥ GS * (n / GS)`. -/
theorem matmul_hw_drops_partial_block (sim sim2 : Simulator) (xout : List ℚ)
    (x w x2 w2 : QuantizedTensor) (n d GS : Nat) (hGS : 1 ≤ GS) (hn : ¬ GS ∣ n)
    (hws : d * n / GS ≤ w.s.length) (hxs : n / GS ≤ x.s.length) (hout : d ≤ xout.length)
    (hsw : w2.s = w.s) (hsx : x2.s = x.s)
    (hwq : ∀ row, row < d → ∀ col, col < n / GS * GS →
      w2.q[row * n + col]? = w.q[row * n + col]?)
    (hxq : ∀ col, col < n / GS * GS → x2.q[col]? = x.q[col]?)
    (hsame : ∀ a, a < ceil_div d HW_ARRAY_SIZE → ∀ b, b < n / GS →
      same_outcome_on_tile sim sim2 x w n d GS (a * HW_ARRAY_SIZE) (b * GS) = true)
    (hok : ∀ a, a < ceil_div d HW_ARRAY_SIZE → ∀ b, b < ceil_div n GS →
      tile_launch_ok sim x w n d GS (a * HW_ARRAY_SIZE) (b * GS) = true)
    (hok2 : ∀ a, a < ceil_div d HW_ARRAY_SIZE → ∀ b, b < ceil_div n GS →
      tile_launch_ok sim2 x2 w2 n d GS (a * HW_ARRAY_SIZE) (b * GS) = true) :
    for_values n GS n 0 = some ((List.range (n / GS + 1)).map fun b => b * GS) ∧
    (∀ (row_base i : Nat) (hw_results : List Int) (row_accumulators : List ℚ),
      dequantize_lane x w n d GS row_base (GS * (n / GS)) hw_results row_accumulators i
        = Except.ok row_accumulators) ∧
    ∃ r r2, matmul_hw sim xout x w n d GS = Except.ok r ∧
      matmul_hw sim2 xout x2 w2 n d GS = Except.ok r2 ∧
      (∀ row, row < d → r.xout[row]? = some (accumulated_row sim x w n d GS row)) ∧
      r2.xout = r.xout := by
  refine ⟨?_, ?_, ?_⟩
  · rw [for_values_from_zero n GS hGS, ceil_div_of_not_dvd n GS hGS hn]
  · intro rb i hw_results acc
    have hidx : GS * (n / GS) / GS = n / GS := by
      rw [Nat.mul_comm, mul_div_cancel_of_pos _ _ hGS]
    unfold dequantize_lane
    simp only [hidx, ge_iff_le, Nat.le_refl, or_true, if_true, ite_self]
  · obtain ⟨r, hr, hlen, hget, _, _⟩ := matmul_hw_general sim xout x w n d GS hGS hws hxs hok
    obtain ⟨r2, hr2, hlen2, hget2, _, _⟩ :=
      matmul_hw_general sim2 xout x2 w2 n d GS hGS (by rw [hsw]; exact hws)
        (by rw [hsx]; exact hxs) hok2
    refine ⟨r, r2, hr, hr2, ?_, ?_⟩
    · intro row hrow
      rw [hget row, if_pos ⟨hrow, by omega⟩]
    · apply List.ext_getElem?
      intro k
      rw [hget k, hget2 k]
      by_cases hk : k < d ∧ k < xout.length
      · rw [if_pos hk, if_pos hk]
        congr 1
        apply accumulated_row_congr sim2 sim x2 w2 x w n d GS k hsw hsx
        intro b hb
        rw [tile_result_congr sim sim2 x w x2 w2 n d GS _ b hb hwq hxq
          (hsame (k / HW_ARRAY_SIZE) (row_block_lt d k hk.1).1 b hb)]
      · rw [if_neg hk, if_neg hk]

theorem matmul_hw_drops_partial_block_witness :
    for_values 3 2 3 0 = some ((List.range (3 / 2 + 1)).map fun b => b * 2) ∧
    (∀ (row_base i : Nat) (hw_results : List Int) (row_accumulators : List ℚ),
      dequantize_lane ⟨[3, -4, 5], [1 / 2, 7]⟩ ⟨[1, -1, 127, -128, 16, 15], [2, 3, 5]⟩ 3 2 2
          row_base (2 * (3 / 2)) hw_results row_accumulators i
        = Except.ok row_accumulators) ∧
    ∃ r r2, matmul_hw (exact_simulator 2) [9, 9, 9] ⟨[3, -4, 5], [1 / 2, 7]⟩
          ⟨[1, -1, 127, -128, 16, 15], [2, 3, 5]⟩ 3 2 2 = Except.ok r ∧
      matmul_hw (block_noise_simulator 2 2) [9, 9, 9] ⟨[3, -4, -6], [1 / 2, 7]⟩
          ⟨[1, -1, 0, -128, 16, 99], [2, 3, 5]⟩ 3 2 2 = Except.ok r2 ∧
      (∀ row, row < 2 → r.xout[row]? = some (accumulated_row (exact_simulator 2)
          ⟨[3, -4, 5], [1 / 2, 7]⟩ ⟨[1, -1, 127, -128, 16, 15], [2, 3, 5]⟩ 3 2 2 row)) ∧
      r2.xout = r.xout :=
  matmul_hw_drops_partial_block (exact_simulator 2) (block_noise_simulator 2 2) [9, 9, 9]
    ⟨[3, -4, 5], [1 / 2, 7]⟩ ⟨[1, -1, 127, -128, 16, 15], [2, 3, 5]⟩
    ⟨[3, -4, -6], [1 / 2, 7]⟩ ⟨[1, -1, 0, -128, 16, 99], [2, 3, 5]⟩ 3 2 2
    (by decide) (by decide) (by decide) (by decide) (by decide) rfl rfl
    (by decide) (by decide) (by decide) (by decide) (by decide)

/-! ## Orchestrator: the tiles partition the matrix -/

theorem col_block_lt (n GS col : Nat) (hGS : 1 ≤ GS) (hcol : col < n) :
    col / GS < ceil_div n GS := by
  unfold ceil_div
  have h1 : (col + GS) / GS ≤ (n + GS - 1) / GS := Nat.div_le_div_right (by omega)
  rw [Nat.add_div_right _ (by omega : 0 < GS)] at h1
  omega

theorem block_split_unique (GS b j col : Nat) (hj : j < GS) (h : b * GS + j = col) :
    b = col / GS ∧ j = col % GS := by
  subst h
  constructor
  · exact (block_index_div b GS j hj).symm
  · rw [Nat.add_comm, Nat.add_mul_mod_self_right, Nat.mod_eq_of_lt hj]

theorem row_split_unique (a i row : Nat) (hi : i < HW_ARRAY_SIZE)
    (h : a * HW_ARRAY_SIZE + i = row) : a = row / HW_ARRAY_SIZE ∧ i = row % HW_ARRAY_SIZE :=
  block_split_unique HW_ARRAY_SIZE a i row hi h

/-- Every position of the matrix lies in exactly one tile of the sequence, at
exactly one coordinate of that tile. -/
theorem tile_cover_unique (d n GS row col : Nat) (hGS : 1 ≤ GS) (hrow : row < d)
    (hcol : col < n) :
    ∃! q : (Nat × Nat) × (Nat × Nat), q.1 ∈ tile_origins d n GS ∧
      q.2.1 < HW_ARRAY_SIZE ∧ q.2.2 < GS ∧ q.1.1 + q.2.1 = row ∧ q.1.2 + q.2.2 = col := by
  refine ⟨((row / HW_ARRAY_SIZE * HW_ARRAY_SIZE, col / GS * GS),
      (row % HW_ARRAY_SIZE, col % GS)), ⟨?_, ?_, ?_, ?_, ?_⟩, ?_⟩
  · exact (mem_tile_origins d n GS _).2
      ⟨row / HW_ARRAY_SIZE, (row_block_lt d row hrow).1, col / GS,
        col_block_lt n GS col hGS hcol, rfl⟩
  · exact Nat.mod_lt _ (by decide)
  · exact Nat.mod_lt _ (by omega)
  · exact Nat.div_add_mod' row HW_ARRAY_SIZE
  · exact Nat.div_add_mod' col GS
  · rintro ⟨⟨rb, cb⟩, ⟨i, j⟩⟩ ⟨hmem, hi, hj, hr, hc⟩
    obtain ⟨a, _, b, _, hab⟩ := (mem_tile_origins d n GS _).1 hmem
    simp only [Prod.mk.injEq] at hab
    obtain ⟨rfl, rfl⟩ := hab
    simp only at hi hj hr hc
    obtain ⟨ha, hi2⟩ := row_split_unique a i row hi hr
    obtain ⟨hb, hj2⟩ := block_split_unique GS b j col hj hc
    rw [ha, hi2, hb, hj2]

/-- A position inside the matrix is determined by its index in `w.q`. -/
theorem weight_index_inj (n r1 c1 row col : Nat) (hc1 : c1 < n) (hcol : col < n)
    (h : r1 * n + c1 = row * n + col) : r1 = row ∧ c1 = col := by
  have h1 := block_split_unique n r1 c1 (row * n + col) hc1 h
  have h2 := block_split_unique n row col (row * n + col) hcol rfl
  exact ⟨h1.1.trans h2.1.symm, h1.2.trans h2.2.symm⟩

/-- Inside one row block every column lies in exactly one tile, at exactly
one column of that tile. -/
theorem col_cover_unique (d n GS a col : Nat) (hGS : 1 ≤ GS)
    (ha : a < ceil_div d HW_ARRAY_SIZE) (hcol : col < n) :
    ∃! p : Nat × Nat, (a * HW_ARRAY_SIZE, p.1) ∈ tile_origins d n GS ∧ p.2 < GS ∧
      p.1 + p.2 = col := by
  refine ⟨(col / GS * GS, col % GS), ⟨?_, ?_, ?_⟩, ?_⟩
  · exact (mem_tile_origins d n GS _).2
      ⟨a, ha, col / GS, col_block_lt n GS col hGS hcol, rfl⟩
  · exact Nat.mod_lt _ (by omega)
  · exact Nat.div_add_mod' col GS
  · rintro ⟨cb, j⟩ ⟨hmem, hj, hc⟩
    obtain ⟨a2, _, b, _, hab⟩ := (mem_tile_origins d n GS _).1 hmem
    simp only [Prod.mk.injEq] at hab
    obtain ⟨_, rfl⟩ := hab
    simp only at hj hc
    obtain ⟨hb, hj2⟩ := block_split_unique GS b j col hj hc
    rw [hb, hj2]

/-- C19: for `GS ≥ 1` and a position `(row, col)` of the matrix, the sequence
of tiles of `matmul_hw` holds no tile twice, and there is exactly one tile of
the sequence and one coordinate `(i, j)` of it, `i < HW_ARRAY_SIZE` and
`j < GS`, with `row_base + i = row` and `col_base + j = col`. It is also the
only place of the call where the index `row*n + col` of `w.q` is read, and
the line `i * GS + j` of the weight artifact of that tile is the encoded
`w.q[row*n + col]`. In every row block exactly one tile and one `j` have
`col_base + j = col`, and line `j` of the vector artifact of that tile is the
encoded `x.q[col]`. -/
theorem matmul_hw_tiles_partition (sim : Simulator) (xout : List ℚ) (x w : QuantizedTensor)
    (n d GS row col : Nat) (hGS : 1 ≤ GS)
    (hwq : d * n ≤ w.q.length) (hxq : n ≤ x.q.length)
    (hws : d * n / GS ≤ w.s.length) (hxs : n / GS ≤ x.s.length)
    (hok : ∀ a, a < ceil_div d HW_ARRAY_SIZE → ∀ b, b < ceil_div n GS →
      tile_launch_ok sim x w n d GS (a * HW_ARRAY_SIZE) (b * GS) = true)
    (hrow : row < d) (hcol : col < n) :
    ∃ r, matmul_hw sim xout x w n d GS = Except.ok r ∧
      (r.trace.map TileRecord.origin).Nodup ∧
      (∃! q : (Nat × Nat) × (Nat × Nat), q.1 ∈ r.trace.map TileRecord.origin ∧
        q.2.1 < HW_ARRAY_SIZE ∧ q.2.2 < GS ∧ q.1.1 + q.2.1 = row ∧ q.1.2 + q.2.2 = col) ∧
      (∃! q : (Nat × Nat) × (Nat × Nat), q.1 ∈ r.trace.map TileRecord.origin ∧
        q.2.1 < HW_ARRAY_SIZE ∧ q.2.2 < GS ∧ q.1.1 + q.2.1 < d ∧ q.1.2 + q.2.2 < n ∧
        (q.1.1 + q.2.1) * n + (q.1.2 + q.2.2) = row * n + col) ∧
      (∀ rec ∈ r.trace, ∀ i j, i < HW_ARRAY_SIZE → j < GS →
        rec.row_base + i = row → rec.col_base + j = col →
        ∃ v, w.q[row * n + col]? = some v ∧
          rec.artifacts.weights[i * GS + j]? = some (encode_byte v)) ∧
      (∀ a, a < ceil_div d HW_ARRAY_SIZE →
        ∃! p : Nat × Nat, (a * HW_ARRAY_SIZE, p.1) ∈ r.trace.map TileRecord.origin ∧
          p.2 < GS ∧ p.1 + p.2 = col) ∧
      (∀ rec ∈ r.trace, ∀ j, j < GS → rec.col_base + j = col →
        ∃ v, x.q[col]? = some v ∧ rec.artifacts.vector[j]? = some (encode_byte v)) := by
  obtain ⟨r, hr, _, _, htrace, hrec⟩ := matmul_hw_general sim xout x w n d GS hGS hws hxs hok
  have hcover := tile_cover_unique d n GS row col hGS hrow hcol
  refine ⟨r, hr, ?_, ?_, ?_, ?_, ?_, ?_⟩
  · rw [htrace]
    exact tile_origins_nodup d n GS hGS
  · rw [htrace]
    exact hcover
  · rw [htrace]
    refine (existsUnique_congr ?_).1 hcover
    intro q
    constructor
    · rintro ⟨hm, hi, hj, hr1, hc1⟩
      exact ⟨hm, hi, hj, by omega, by omega, by rw [hr1, hc1]⟩
    · rintro ⟨hm, hi, hj, _, hc1, hidx⟩
      obtain ⟨h1, h2⟩ := weight_index_inj n _ _ row col hc1 hcol hidx
      exact ⟨hm, hi, hj, h1, h2⟩
  · intro rec hmem i j hi hj hr1 hc1
    obtain ⟨t, ht, hwl, _⟩ :=
      write_hw_input_tile_lines x w rec.row_base rec.col_base n d GS hwq hxq
    rw [hrec rec hmem] at ht
    have ht1 : rec.artifacts = t := Option.some.inj ht
    have hlt : row * n + col < w.q.length := lt_of_lt_of_le (weight_index_lt hrow hcol) hwq
    refine ⟨w.q[row * n + col], List.getElem?_eq_getElem hlt, ?_⟩
    rw [ht1]
    apply hwl i j _ hi hj
    unfold weight_line
    simp only [hr1, hc1, hrow, hcol, and_self, if_true, List.getElem?_eq_getElem hlt,
      Option.map_some']
  · intro a ha
    rw [htrace]
    exact col_cover_unique d n GS a col hGS ha hcol
  · intro rec hmem j hj hc1
    obtain ⟨t, ht, _, hvl⟩ :=
      write_hw_input_tile_lines x w rec.row_base rec.col_base n d GS hwq hxq
    rw [hrec rec hmem] at ht
    have ht1 : rec.artifacts = t := Option.some.inj ht
    have hlt : col < x.q.length := lt_of_lt_of_le hcol hxq
    refine ⟨x.q[col], List.getElem?_eq_getElem hlt, ?_⟩
    rw [ht1]
    apply hvl j _ hj
    unfold vector_line
    simp only [hc1, hcol, if_true, List.getElem?_eq_getElem hlt, Option.map_some']

theorem matmul_hw_tiles_partition_witness :
    ∃ r, matmul_hw (exact_simulator 2) (List.replicate 9 0) ⟨[3, -4, 5], [1 / 2, 7]⟩
          ⟨(List.range 27).map fun k => (k : Int) - 13, List.replicate 14 (1 / 3)⟩ 3 9 2
        = Except.ok r ∧
      (r.trace.map TileRecord.origin).Nodup ∧
      (∃! q : (Nat × Nat) × (Nat × Nat), q.1 ∈ r.trace.map TileRecord.origin ∧
        q.2.1 < HW_ARRAY_SIZE ∧ q.2.2 < 2 ∧ q.1.1 + q.2.1 = 8 ∧ q.1.2 + q.2.2 = 2) ∧
      (∃! q : (Nat × Nat) × (Nat × Nat), q.1 ∈ r.trace.map TileRecord.origin ∧
        q.2.1 < HW_ARRAY_SIZE ∧ q.2.2 < 2 ∧ q.1.1 + q.2.1 < 9 ∧ q.1.2 + q.2.2 < 3 ∧
        (q.1.1 + q.2.1) * 3 + (q.1.2 + q.2.2) = 8 * 3 + 2) ∧
      (∀ rec ∈ r.trace, ∀ i j, i < HW_ARRAY_SIZE → j < 2 →
        rec.row_base + i = 8 → rec.col_base + j = 2 →
        ∃ v, ((List.range 27).map fun k => (k : Int) - 13)[8 * 3 + 2]? = some v ∧
          rec.artifacts.weights[i * 2 + j]? = some (encode_byte v)) ∧
      (∀ a, a < ceil_div 9 HW_ARRAY_SIZE →
        ∃! p : Nat × Nat, (a * HW_ARRAY_SIZE, p.1) ∈ r.trace.map TileRecord.origin ∧
          p.2 < 2 ∧ p.1 + p.2 = 2) ∧
      (∀ rec ∈ r.trace, ∀ j, j < 2 → rec.col_base + j = 2 →
        ∃ v, ([3, -4, 5] : List Int)[2]? = some v ∧
          rec.artifacts.vector[j]? = some (encode_byte v)) :=
  matmul_hw_tiles_partition (exact_simulator 2) (List.replicate 9 0) ⟨[3, -4, 5], [1 / 2, 7]⟩
    ⟨(List.range 27).map fun k => (k : Int) - 13, List.replicate 14 (1 / 3)⟩ 3 9 2 8 2
    (by decide) (by decide) (by decide) (by decide) (by decide) (by decide) (by decide)
    (by decide)

/-! ## Orchestrator: a launch that fails -/

theorem foldlM_ok_step {σ α ε : Type} (f : σ → α → Except ε σ) (l : List α) :
    ∀ s s1, l.foldlM f s = Except.ok s1 → ∀ a ∈ l, ∃ s2 s3, f s2 a = Except.ok s3 := by
  induction l with
  | nil => intro s s1 _ a ha; simp at ha
  | cons b l ih =>
    intro s s1 h a ha
    rw [List.foldlM_cons] at h
    cases hb : f s b with
    | error e => rw [hb] at h; cases h
    | ok s2 =>
      rw [hb] at h
      rcases List.mem_cons.1 ha with rfl | hmem
      · exact ⟨s, s2, hb⟩
      · exact ih s2 s1 h a hmem

theorem foldlM_error_at {σ α ε : Type} (f : σ → α → Except ε σ) (l1 l2 : List α) (a : α)
    (s s1 : σ) (e : ε) (h1 : l1.foldlM f s = Except.ok s1) (h2 : f s1 a = Except.error e) :
    (l1 ++ a :: l2).foldlM f s = Except.error e := by
  rw [List.foldlM_append, h1]
  simp only [bind, Except.bind, List.foldlM_cons]
  rw [h2]

theorem range_split (k a : Nat) (h : a < k) : ∃ rest, List.range k = List.range a ++ a :: rest := by
  induction k with
  | zero => omega
  | succ k ih =>
    by_cases hak : a = k
    · subst hak
      exact ⟨[], List.range_succ a⟩
    · obtain ⟨rest, hrest⟩ := ih (by omega)
      exact ⟨rest ++ [k], by rw [List.range_succ, hrest]; simp⟩

/-- A tile whose launch ends with a non-zero exit code stops `process_tile`
with the fatal error, before the result artifact is read. -/
theorem process_tile_fails (sim : Simulator) (x w : QuantizedTensor) (n d GS rb cb : Nat)
    (st : RowState) (c : Int) (hcode : tile_exit_code sim x w n d GS rb cb = some c)
    (hc : c ≠ 0) :
    process_tile sim x w n d GS rb st cb = Except.error Halt.simulation_failed := by
  unfold tile_exit_code at hcode
  cases ht : write_hw_input_tile x w rb cb n d GS with
  | none => rw [ht] at hcode; cases hcode
  | some t =>
    rw [ht] at hcode
    simp only [Option.map_some', Option.some.injEq] at hcode
    unfold process_tile
    simp only [ht, hcode, ne_eq, hc, not_false_eq_true, if_true]

/-- A tile that `process_tile` gets through was encoded, its launch ended
with exit code 0 and its result artifact could be opened. -/
theorem process_tile_ok_imp (sim : Simulator) (x w : QuantizedTensor) (n d GS rb cb : Nat)
    (st st1 : RowState) (h : process_tile sim x w n d GS rb st cb = Except.ok st1) :
    tile_launch_ok sim x w n d GS rb cb = true := by
  rw [tile_launch_ok_iff]
  unfold process_tile at h
  cases ht : write_hw_input_tile x w rb cb n d GS with
  | none => rw [ht] at h; cases h
  | some t =>
    rw [ht] at h
    simp only [] at h
    by_cases hret : (sim rb cb t).ret = 0
    · cases hd : (sim rb cb t).memory_dump with
      | none =>
        simp only [hret, ne_eq, not_true_eq_false, if_false, hd, read_hw_output] at h
        cases h
      | some content => exact ⟨t, content, rfl, hret, hd⟩
    · simp only [ne_eq, hret, not_false_eq_true, if_true] at h
      cases h

theorem tile_launch_ok_split (sim : Simulator) (x w : QuantizedTensor) (n d GS rb cb : Nat) :
    tile_launch_ok sim x w n d GS rb cb = true ↔
      tile_dump_readable sim x w n d GS rb cb = true ∧
        tile_exit_code sim x w n d GS rb cb = some 0 := by
  unfold tile_launch_ok
  simp

/-- When `matmul_hw` returns, every tile of the sequence was launched with
success. -/
theorem matmul_hw_ok_imp (sim : Simulator) (xout : List ℚ) (x w : QuantizedTensor)
    (n d GS : Nat) (hGS : 1 ≤ GS) (r : MatmulState)
    (h : matmul_hw sim xout x w n d GS = Except.ok r) :
    ∀ a, a < ceil_div d HW_ARRAY_SIZE → ∀ b, b < ceil_div n GS →
      tile_launch_ok sim x w n d GS (a * HW_ARRAY_SIZE) (b * GS) = true := by
  intro a ha b hb
  unfold matmul_hw at h
  rw [for_values_from_zero d HW_ARRAY_SIZE (by decide)] at h
  simp only [] at h
  obtain ⟨s2, s3, hrow⟩ := foldlM_ok_step _ _ _ _ h (a * HW_ARRAY_SIZE)
    (List.mem_map.2 ⟨a, List.mem_range.2 ha, rfl⟩)
  unfold process_row_block at hrow
  rw [for_values_from_zero n GS hGS] at hrow
  simp only [] at hrow
  cases hcols : ((List.range (ceil_div n GS)).map fun j => j * GS).foldlM
      (process_tile sim x w n d GS (a * HW_ARRAY_SIZE))
      ⟨List.replicate HW_ARRAY_SIZE 0, s2.trace⟩ with
  | error e => rw [hcols] at hrow; cases hrow
  | ok rs =>
    obtain ⟨t2, t3, htile⟩ := foldlM_ok_step _ _ _ _ hcols (b * GS)
      (List.mem_map.2 ⟨b, List.mem_range.2 hb, rfl⟩)
    exact process_tile_ok_imp sim x w n d GS _ _ t2 t3 htile

/-- The first launch that ends with a non-zero exit code stops `matmul_hw`
with the fatal error. -/
theorem matmul_hw_fails_at (sim : Simulator) (xout : List ℚ) (x w : QuantizedTensor)
    (n d GS a b : Nat) (c : Int) (hGS : 1 ≤ GS)
    (hws : d * n / GS ≤ w.s.length) (hxs : n / GS ≤ x.s.length)
    (ha : a < ceil_div d HW_ARRAY_SIZE) (hb : b < ceil_div n GS)
    (hrows : ∀ a1, a1 < a → ∀ b1, b1 < ceil_div n GS →
      tile_launch_ok sim x w n d GS (a1 * HW_ARRAY_SIZE) (b1 * GS) = true)
    (hcols : ∀ b1, b1 < b → tile_launch_ok sim x w n d GS (a * HW_ARRAY_SIZE) (b1 * GS) = true)
    (hcode : tile_exit_code sim x w n d GS (a * HW_ARRAY_SIZE) (b * GS) = some c)
    (hc : c ≠ 0) :
    matmul_hw sim xout x w n d GS = Except.error Halt.simulation_failed := by
  obtain ⟨st, hfold, _, _, _, _⟩ :=
    row_loop_general sim x w n d GS ⟨memset_zero xout d, []⟩ hGS hws hxs a hrows
  obtain ⟨rs, hcfold, _, _, _, _⟩ :=
    column_loop_general sim x w n d GS (a * HW_ARRAY_SIZE) hGS hws hxs st.trace b hcols
  obtain ⟨rrest, hrrange⟩ := range_split (ceil_div d HW_ARRAY_SIZE) a ha
  obtain ⟨crest, hcrange⟩ := range_split (ceil_div n GS) b hb
  have hcfail : ((List.range (ceil_div n GS)).map fun j => j * GS).foldlM
      (process_tile sim x w n d GS (a * HW_ARRAY_SIZE))
      ⟨List.replicate HW_ARRAY_SIZE 0, st.trace⟩ = Except.error Halt.simulation_failed := by
    rw [hcrange, List.map_append, List.map_cons]
    exact foldlM_error_at _ _ _ _ _ rs Halt.simulation_failed hcfold
      (process_tile_fails sim x w n d GS _ _ rs c hcode hc)
  have hblock : process_row_block sim x w n d GS st (a * HW_ARRAY_SIZE)
      = Except.error Halt.simulation_failed := by
    unfold process_row_block
    simp only [for_values_from_zero n GS hGS, hcfail]
  have hrfail : ((List.range (ceil_div d HW_ARRAY_SIZE)).map fun j => j * HW_ARRAY_SIZE).foldlM
      (process_row_block sim x w n d GS) ⟨memset_zero xout d, []⟩
        = Except.error Halt.simulation_failed := by
    rw [hrrange, List.map_append, List.map_cons]
    exact foldlM_error_at _ _ _ _ _ st Halt.simulation_failed hfold hblock
  unfold matmul_hw
  simp only [for_values_from_zero d HW_ARRAY_SIZE (by decide : 1 ≤ HW_ARRAY_SIZE), hrfail]

theorem tile_launch_ok_of_same_outcome (sim sim2 : Simulator) (x w : QuantizedTensor)
    (n d GS rb cb : Nat) (hsame : same_outcome_on_tile sim sim2 x w n d GS rb cb = true)
    (hok : tile_launch_ok sim x w n d GS rb cb = true) :
    tile_launch_ok sim2 x w n d GS rb cb = true := by
  rw [tile_launch_ok_iff] at hok ⊢
  obtain ⟨t, content, ht, hret, hdump⟩ := hok
  unfold same_outcome_on_tile at hsame
  rw [ht] at hsame
  simp only [Bool.and_eq_true, decide_eq_true_eq] at hsame
  exact ⟨t, content, ht, by rw [← hsame.1]; exact hret, by rw [← hsame.2]; exact hdump⟩

/-- C14: with every tile encoded and every result artifact readable,
`matmul_hw` with the simulator `sim` returns if and only if every launch ends
with exit code 0. For the simulator `simF`, whose launch for the tile
`(a, b)` is the first, in row-major order, to end with a non-zero exit code
`c`, `matmul_hw` stops with the fatal error and returns no output. It stops in
the same way for every simulator `simF2` that behaves as `simF` on the
earlier tiles and ends with the same exit code on that tile, whatever result
artifact it leaves there and whatever it would do for the later tiles: the
result of the failing launch is not decoded and no later tile is launched. -/
theorem matmul_hw_exit_codes (sim simF simF2 : Simulator) (xout : List ℚ)
    (x w : QuantizedTensor) (n d GS a b : Nat) (c : Int) (hGS : 1 ≤ GS)
    (hws : d * n / GS ≤ w.s.length) (hxs : n / GS ≤ x.s.length)
    (hready : ∀ a1, a1 < ceil_div d HW_ARRAY_SIZE → ∀ b1, b1 < ceil_div n GS →
      tile_dump_readable sim x w n d GS (a1 * HW_ARRAY_SIZE) (b1 * GS) = true)
    (ha : a < ceil_div d HW_ARRAY_SIZE) (hb : b < ceil_div n GS)
    (hrows : ∀ a1, a1 < a → ∀ b1, b1 < ceil_div n GS →
      tile_launch_ok simF x w n d GS (a1 * HW_ARRAY_SIZE) (b1 * GS) = true)
    (hcols : ∀ b1, b1 < b →
      tile_launch_ok simF x w n d GS (a * HW_ARRAY_SIZE) (b1 * GS) = true)
    (hcode : tile_exit_code simF x w n d GS (a * HW_ARRAY_SIZE) (b * GS) = some c)
    (hc : c ≠ 0)
    (hsame_rows : ∀ a1, a1 < a → ∀ b1, b1 < ceil_div n GS →
      same_outcome_on_tile simF simF2 x w n d GS (a1 * HW_ARRAY_SIZE) (b1 * GS) = true)
    (hsame_cols : ∀ b1, b1 < b →
      same_outcome_on_tile simF simF2 x w n d GS (a * HW_ARRAY_SIZE) (b1 * GS) = true)
    (hcode2 : tile_exit_code simF2 x w n d GS (a * HW_ARRAY_SIZE) (b * GS) = some c) :
    ((∃ r, matmul_hw sim xout x w n d GS = Except.ok r) ↔
      ∀ a1, a1 < ceil_div d HW_ARRAY_SIZE → ∀ b1, b1 < ceil_div n GS →
        tile_exit_code sim x w n d GS (a1 * HW_ARRAY_SIZE) (b1 * GS) = some 0) ∧
    matmul_hw simF xout x w n d GS = Except.error Halt.simulation_failed ∧
    matmul_hw simF2 xout x w n d GS = Except.error Halt.simulation_failed := by
  refine ⟨⟨?_, ?_⟩, ?_, ?_⟩
  · rintro ⟨r, hr⟩ a1 ha1 b1 hb1
    exact ((tile_launch_ok_split sim x w n d GS _ _).1
      (matmul_hw_ok_imp sim xout x w n d GS hGS r hr a1 ha1 b1 hb1)).2
  · intro hzero
    obtain ⟨r, hr, _⟩ := matmul_hw_general sim xout x w n d GS hGS hws hxs
      (fun a1 ha1 b1 hb1 => (tile_launch_ok_split sim x w n d GS _ _).2
        ⟨hready a1 ha1 b1 hb1, hzero a1 ha1 b1 hb1⟩)
    exact ⟨r, hr⟩
  · exact matmul_hw_fails_at simF xout x w n d GS a b c hGS hws hxs ha hb hrows hcols hcode hc
  · exact matmul_hw_fails_at simF2 xout x w n d GS a b c hGS hws hxs ha hb
      (fun a1 ha1 b1 hb1 => tile_launch_ok_of_same_outcome simF simF2 x w n d GS _ _
        (hsame_rows a1 ha1 b1 hb1) (hrows a1 ha1 b1 hb1))
      (fun b1 hb1 => tile_launch_ok_of_same_outcome simF simF2 x w n d GS _ _
        (hsame_cols b1 hb1) (hcols b1 hb1))
      hcode2 hc

theorem matmul_hw_exit_codes_witness :
    ((∃ r, matmul_hw (exact_simulator 2) (List.replicate 9 0) ⟨[3, -4, 5], [1 / 2, 7]⟩
          ⟨(List.range 27).map fun k => (k : Int) - 13, List.replicate 14 (1 / 3)⟩ 3 9 2
        = Except.ok r) ↔
      ∀ a1, a1 < ceil_div 9 HW_ARRAY_SIZE → ∀ b1, b1 < ceil_div 3 2 →
        tile_exit_code (exact_simulator 2) ⟨[3, -4, 5], [1 / 2, 7]⟩
          ⟨(List.range 27).map fun k => (k : Int) - 13, List.replicate 14 (1 / 3)⟩ 3 9 2
          (a1 * HW_ARRAY_SIZE) (b1 * 2) = some 0) ∧
    matmul_hw (exit_code_simulator 2 8 0) (List.replicate 9 0) ⟨[3, -4, 5], [1 / 2, 7]⟩
        ⟨(List.range 27).map fun k => (k : Int) - 13, List.replicate 14 (1 / 3)⟩ 3 9 2
      = Except.error Halt.simulation_failed ∧
    matmul_hw (abort_probe_simulator 2 8 0) (List.replicate 9 0) ⟨[3, -4, 5], [1 / 2, 7]⟩
        ⟨(List.range 27).map fun k => (k : Int) - 13, List.replicate 14 (1 / 3)⟩ 3 9 2
      = Except.error Halt.simulation_failed :=
  matmul_hw_exit_codes (exact_simulator 2) (exit_code_simulator 2 8 0)
    (abort_probe_simulator 2 8 0) (List.replicate 9 0) ⟨[3, -4, 5], [1 / 2, 7]⟩
    ⟨(List.range 27).map fun k => (k : Int) - 13, List.replicate 14 (1 / 3)⟩ 3 9 2 1 0 1
    (by decide) (by decide) (by decide) (by decide) (by decide) (by decide) (by decide)
    (by decide) (by decide) (by decide) (by decide) (by decide) (by decide)

end TpuInterface
